import Mathlib

/-!
# Block task handler and input buffer queues

A shallow embedding of `lib/block_task.cpp` (`ElementImpl::mark_done`,
`ElementImpl::handle_task`) and of `lib/gras_impl/input_buffer_queues.hpp`
(`InputBufferQueues`), followed by theorems about them.

Conventions of the embedding.

* `size_t` values are naturals below `2 ^ 64`; every `size_t` operation of the
  source is reduced modulo `2 ^ 64`.
* `std::vector`, `std::queue`, `std::deque` and `boost::dynamic_bitset` are lists;
  the front of a queue is the head of the list.
* An access that is undefined in C++ (index past the end of a vector, `front()` of
  an empty queue, division by zero) and a failing `ASSERT` make the embedded
  function return `none`.
* The calls the handler makes on its collaborators (`post_upstream`,
  `post_downstream`, `Work`) are recorded, in order, in the field `log`.
  Console output is not recorded.
* A `double` is the rational number it is equal to, and every operation on `double`s
  rounds its exact result to the nearest `double`, a tie going to the even significand.
* `std::sort` is a parameter `srt` of the handler: any function that returns its argument
  rearranged in ascending order of `offset`.
-/

namespace Sandhi

/-! ## Machine integers -/

/-- The number of values of a `size_t`. -/
def SIZE_MOD : Nat := 2 ^ 64

/-- Addition of two `size_t`. -/
def size_add (a b : Nat) : Nat := (a + b) % SIZE_MOD

/-- Subtraction of two `size_t` (wraps below zero). -/
def size_sub (a b : Nat) : Nat := (a % SIZE_MOD + (SIZE_MOD - b % SIZE_MOD)) % SIZE_MOD

/-- Multiplication of two `size_t`. -/
def size_mul (a b : Nat) : Nat := (a * b) % SIZE_MOD

/-- The conversion `size_t(ret)` of an `int`. -/
def size_of_int (r : Int) : Nat := (r % (SIZE_MOD : Int)).toNat

/-- The conversion of a `size_t` to `int` (stored into a `gr_vector_int`). -/
def int_of_size (n : Nat) : Int :=
  if n % 2 ^ 32 < 2 ^ 31 then Int.ofNat (n % 2 ^ 32) else Int.ofNat (n % 2 ^ 32) - 2 ^ 32

/-! ## Double-precision arithmetic

`relative_rate` is a `double`, and lines 150, 215 and 226 of `block_task.cpp` and the
rate conveniences of `gr_block.cpp` compute with it in double precision. A finite
`double` is represented by the rational number it is equal to; the sign of a zero is not
represented. An operation whose result is no finite `double` (an overflow, a division by
zero) gives `none`: in the sources such a result goes on to a conversion to an integer
type, for which it is undefined. -/

/-- Rounding of a rational to the nearest integer, a tie going to the even one. -/
def round_half_even (t : ℚ) : ℤ :=
  if t - ⌊t⌋ < 1 / 2 then ⌊t⌋
  else if 1 / 2 < t - ⌊t⌋ then ⌊t⌋ + 1
  else if ⌊t⌋ % 2 = 0 then ⌊t⌋ else ⌊t⌋ + 1

/-- The position of the leading bit of `n`, found by halving `n` at most `fuel` times. -/
def bit_position : Nat → Nat → Nat
  | 0, _ => 0
  | fuel + 1, n => if n < 2 then 0 else bit_position fuel (n / 2) + 1

/-- The power `2 ^ e` for an integer exponent `e`. -/
def pow2 (e : ℤ) : ℚ :=
  if 0 ≤ e then ((2 ^ e.toNat : ℕ) : ℚ) else 1 / ((2 ^ (-e).toNat : ℕ) : ℚ)

/-- The exponent `e` of the binade of a non-zero `x`: `2 ^ e ≤ |x| < 2 ^ (e + 1)`. -/
def binade (x : ℚ) : ℤ :=
  if pow2 ((bit_position x.num.natAbs x.num.natAbs : ℤ) - (bit_position x.den x.den : ℤ)) ≤ |x|
  then (bit_position x.num.natAbs x.num.natAbs : ℤ) - (bit_position x.den x.den : ℤ)
  else (bit_position x.num.natAbs x.num.natAbs : ℤ) - (bit_position x.den x.den : ℤ) - 1

/-- The spacing of the `double`s in the binade of `x`: 52 binary places below the leading
bit of `x`, and `2 ^ -1074`, the spacing of the subnormal numbers, below `2 ^ -1022`. -/
def double_ulp (x : ℚ) : ℚ := pow2 (max (binade x) (-1022) - 52)

/-- The `double` nearest to `x`, a tie going to the even significand (the rounding mode
of IEEE 754 that C++ programs run in), the exponent being taken as unbounded above. -/
def double_nearest (x : ℚ) : ℚ :=
  if x = 0 then 0 else (round_half_even (x / double_ulp x) : ℚ) * double_ulp x

/-- The `double` that an operation with the exact result `x` returns; `none` when the
rounded result reaches `2 ^ 1024`, where the operation overflows. -/
def double_round (x : ℚ) : Option ℚ :=
  if |double_nearest x| < ((2 ^ 1024 : ℕ) : ℚ) then some (double_nearest x) else none

/-- The conversion of a `size_t` or an `unsigned long long` to `double`. -/
def double_of_unsigned (n : Nat) : Option ℚ := double_round (n : ℚ)

/-- The product `a * b` of two `double`s. -/
def double_mul (a b : ℚ) : Option ℚ := double_round (a * b)

/-- The quotient `a / b` of two `double`s; `none` for a zero divisor, where the quotient
is an infinity or no number. -/
def double_div (a b : ℚ) : Option ℚ := if b = 0 then none else double_round (a / b)

/-- Modelled from the spec: `myulround` is declared in `element_impl.hpp`, which is
not among the sources. Section 6 of the specification: round half away from zero on
unsigned integers, for a non-negative argument `x`, which is a `double`. The conversion of
a value outside the range of `unsigned long` is undefined and gives `none`. -/
def myulround (x : ℚ) : Option Nat :=
  if -1 < x + 1 / 2 ∧ x + 1 / 2 < (SIZE_MOD : ℚ) then some (Int.toNat ⌊x + 1 / 2⌋) else none

/-- Modelled from the spec: `myullround`, the `unsigned long long` sibling of
`myulround`, also declared in `element_impl.hpp`. -/
def myullround (x : ℚ) : Option Nat :=
  if -1 < x + 1 / 2 ∧ x + 1 / 2 < (SIZE_MOD : ℚ) then some (Int.toNat ⌊x + 1 / 2⌋) else none

/-! ## Vectors and loops -/

/-- Assignment `xs[i] = v` to an element of a vector. -/
def vset {α : Type} (xs : List α) (i : Nat) (v : α) : Option (List α) :=
  if i < xs.length then some (xs.set i v) else none

/-- The loop `for (size_t i = start; i < start + count; i++) body(i)`. -/
def forLoop {σ : Type} (body : Nat → σ → Option σ) : Nat → Nat → σ → Option σ
  | 0, _, s => some s
  | k + 1, i, s => (body i s).bind (forLoop body k (i + 1))

/-! ## Data of the block task handler -/

/-- A `tsbe::Buffer`: a handle on memory and a length in bytes. -/
structure Buffer where
  memory : Nat
  length : Nat
deriving DecidableEq, Repr

/-- A stream tag. -/
structure Tag where
  offset : Nat
  key : Nat
  value : Nat
deriving DecidableEq, Repr

/-- What the handler posts through the task interface. -/
inductive Message where
  | CheckTokensMessage : Message
  | buffer : Buffer → Message
  | tag : Tag → Message
deriving DecidableEq, Repr

/-- A call of the handler on one of its collaborators. -/
inductive Event where
  | post_upstream : Nat → Message → Event
  | post_downstream : Nat → Message → Event
  | Work : Event
deriving DecidableEq, Repr

/-- The tag propagation policies of `Block`. -/
inductive TagPropPolicy where
  | TPP_DONT : TagPropPolicy
  | TPP_ALL_TO_ALL : TagPropPolicy
  | TPP_ONE_TO_ONE : TagPropPolicy
deriving DecidableEq, Repr

/-- The part of `tsbe::TaskInterface` the handler reads. -/
structure TaskInterface where
  num_inputs : Nat
  num_outputs : Nat
deriving DecidableEq, Repr

/-- The two sentinels of `Block`, declared in `block.hpp`, which is not among the
sources; they are taken as parameters, known to be negative and distinct. -/
structure WorkSentinels where
  WORK_DONE : Int
  WORK_CALLED_PRODUCE : Int
  done_neg : WORK_DONE < 0
  produce_neg : WORK_CALLED_PRODUCE < 0
  distinct : WORK_DONE ≠ WORK_CALLED_PRODUCE

/-- The state of an `ElementImpl` that `block_task.cpp` reads or writes. A token is
represented by its `use_count()`. `log` records the calls on collaborators. -/
structure ElementImpl where
  active : Bool
  done : Bool
  token_pool : List Nat
  output_buffer_tokens : List Nat
  input_queues : List (List Buffer)
  output_queues : List (List Buffer)
  inputs_ready : List Bool
  outputs_ready : List Bool
  input_tags_changed : List Bool
  input_tags : List (List Tag)
  output_tags : List (List Tag)
  input_tokens : List Nat
  output_tokens : List Nat
  input_history_items : List Nat
  input_buff_offsets : List Nat
  input_items_sizes : List Nat
  output_items_sizes : List Nat
  input_items : List (Nat × Nat)
  output_items : List (Nat × Nat)
  work_input_items : List Nat
  work_ninput_items : List Int
  work_output_items : List Nat
  consume_items : List Nat
  produce_items : List Nat
  items_consumed : List Nat
  items_produced : List Nat
  enable_fixed_rate : Bool
  relative_rate : ℚ
  tag_prop_policy : TagPropPolicy
  log : List Event
deriving DecidableEq

/-- What a call of the user's `Work` leaves behind: its return value and the
mailboxes it may write. -/
structure WorkOut where
  ret : Int
  consume_items : List Nat
  produce_items : List Nat
  output_tags : List (List Tag)

/-! ## `ElementImpl::mark_done` -/

/-- The check-token messages of `mark_done`: one upstream per input port, then one
downstream per output port. -/
def check_tokens_posts (ti : TaskInterface) : List Event :=
  (List.range ti.num_inputs).map (fun i => Event.post_upstream i Message.CheckTokensMessage) ++
  (List.range ti.num_outputs).map (fun i => Event.post_downstream i Message.CheckTokensMessage)

/-- `ElementImpl::mark_done`. -/
def mark_done (ti : TaskInterface) (s : ElementImpl) : ElementImpl :=
  if s.done then s
  else
    { s with
      active := false
      done := true
      token_pool := []
      output_buffer_tokens := []
      input_queues := []
      output_queues := []
      log := s.log ++ check_tokens_posts ti }

/-! ## `ElementImpl::handle_task` -/

/-- The test `(~bits).none()` on a `dynamic_bitset`: every bit is set. -/
def all_ready (bits : List Bool) : Bool := bits.all (fun b => b)

/-- Modelled from the spec: the call `std::sort(tags_i.begin(), tags_i.end(),
Tag::offset_compare)` of line 78, with `Tag::offset_compare` declared outside the
sources. Section 4.1 of the specification: the tags are sorted by `offset`, ascending,
stable not required. `std::sort` leaves some rearrangement of the tags that is in
ascending order of `offset`; the order it gives to tags with equal offsets is not
specified, so the rearrangement is a parameter of the embedding. -/
structure TagSort where
  sort : List Tag → List Tag
  perm : ∀ tags, (sort tags).Perm tags
  sorted : ∀ tags, List.Sorted (fun a b : Tag => a.offset ≤ b.offset) (sort tags)

/-- The tags of a port after the sort of line 78. -/
def sort_tags (srt : TagSort) (tags : List Tag) : List Tag := srt.sort tags

/-- Body of the loop of lines 74-80: sort the tags of input port `i` when they changed. -/
def sort_input_tags (srt : TagSort) (i : Nat) (s : ElementImpl) : Option ElementImpl := do
  let changed ← s.input_tags_changed[i]?
  if changed = false then pure s
  else do
    let tags_i ← s.input_tags[i]?
    pure { s with
      input_tags := s.input_tags.set i (sort_tags srt tags_i)
      input_tags_changed := s.input_tags_changed.set i false }

/-- Body of the loop of lines 90-106 on input port `i`; the second component is the
local `input_tokens_count`. -/
def prepare_input (i : Nat) (p : ElementImpl × Nat) : Option (ElementImpl × Nat) := do
  let s := p.1
  let use_count ← s.input_tokens[i]?
  let history ← s.input_history_items[i]?
  if history ≠ 0 then none
  else do
    let queue ← s.input_queues[i]?
    let buff ← queue.head?
    let offset ← s.input_buff_offsets[i]?
    let mem := buff.memory + offset
    let bytes := size_sub buff.length offset
    let size ← s.input_items_sizes[i]?
    if size = 0 then none
    else do
      let items := bytes / size
      let input_items ← vset s.input_items i (mem, items)
      let work_input_items ← vset s.work_input_items i mem
      let work_ninput_items ← vset s.work_ninput_items i (int_of_size items)
      pure ({ s with
        input_items := input_items
        work_input_items := work_input_items
        work_ninput_items := work_ninput_items }, size_add p.2 use_count)

/-- Body of the loop of lines 110-124 on output port `i`; the second component is the
local `output_tokens_count`. The local `num_output_items` is computed by the source
and never read, so it is left out. -/
def prepare_output (i : Nat) (p : ElementImpl × Nat) : Option (ElementImpl × Nat) := do
  let s := p.1
  let use_count ← s.output_tokens[i]?
  let queue ← s.output_queues[i]?
  let buff ← queue.head?
  let mem := buff.memory
  let bytes := buff.length
  let size ← s.output_items_sizes[i]?
  if size = 0 then none
  else do
    let items := bytes / size
    let output_items ← vset s.output_items i (mem, items)
    let work_output_items ← vset s.work_output_items i mem
    pure ({ s with
      output_items := output_items
      work_output_items := work_output_items }, size_add p.2 use_count)

/-- Lines 74-124: the tag sort and the two preparation loops. The result is the
prepared state with `input_tokens_count` and `output_tokens_count`. -/
def gather (srt : TagSort) (ti : TaskInterface) (s : ElementImpl) :
    Option (ElementImpl × Nat × Nat) := do
  let s1 ← forLoop (sort_input_tags srt) ti.num_inputs 0 s
  let p2 ← forLoop prepare_input ti.num_inputs 0 (s1, 0)
  let p3 ← forLoop prepare_output ti.num_outputs 0 (p2.1, 0)
  pure (p3.1, p2.2, p3.2)

/-- The condition of lines 127-130. -/
def no_peer_interested (ti : TaskInterface) (input_tokens_count output_tokens_count : Nat) :
    Bool :=
  (ti.num_inputs != 0 && input_tokens_count == ti.num_inputs) ||
  (ti.num_outputs != 0 && output_tokens_count == ti.num_outputs)

/-- The call `block_ptr->Work(...)` of line 137: the mailboxes take the values the
user code left, and the call is logged. -/
def call_work (work : ElementImpl → WorkOut) (s : ElementImpl) : ElementImpl :=
  { s with
    consume_items := (work s).consume_items
    produce_items := (work s).produce_items
    output_tags := (work s).output_tags
    log := s.log ++ [Event.Work] }

/-- The expression `myulround((noutput_items/this->relative_rate))` of line 150: the
`size_t` is converted to `double`, the quotient is the one of two `double`s, and
`myulround` rounds it to an `unsigned long`. It is undefined for a zero rate and for a
quotient outside `unsigned long`. -/
def fixed_rate_items (noutput_items : Nat) (relative_rate : ℚ) : Option Nat :=
  (double_of_unsigned noutput_items).bind
    (fun n => (double_div n relative_rate).bind myulround)

/-- The number of items consumed on input port `i` (line 150): for a fixed-rate block
`myulround(noutput_items / relative_rate)`; otherwise what `Work` left in
`consume_items[i]`. -/
def items_to_consume (ret : Int) (i : Nat) (s : ElementImpl) : Option Nat :=
  if s.enable_fixed_rate then fixed_rate_items (size_of_int ret) s.relative_rate
  else s.consume_items[i]?

/-- Body of the loop of lines 147-163: consumption on input port `i`. -/
def account_input (k : WorkSentinels) (ret : Int) (i : Nat) (s : ElementImpl) :
    Option ElementImpl := do
  if ¬ (s.enable_fixed_rate = true ∨ ret ≠ k.WORK_CALLED_PRODUCE) then none
  else do
    let items ← items_to_consume ret i s
    let consume_items ← vset s.consume_items i 0
    let consumed ← s.items_consumed[i]?
    let items_consumed ← vset s.items_consumed i (size_add consumed items)
    let size ← s.input_items_sizes[i]?
    let bytes := size_mul items size
    let offset ← s.input_buff_offsets[i]?
    let input_buff_offsets ← vset s.input_buff_offsets i (size_add offset bytes)
    let queue ← s.input_queues[i]?
    let buff ← queue.head?
    if buff.length ≥ size_add offset bytes then do
      let inputs_ready ← vset s.inputs_ready i (!queue.tail.isEmpty)
      pure { s with
        consume_items := consume_items
        items_consumed := items_consumed
        input_queues := s.input_queues.set i queue.tail
        inputs_ready := inputs_ready
        input_buff_offsets := s.input_buff_offsets.set i 0 }
    else
      pure { s with
        consume_items := consume_items
        items_consumed := items_consumed
        input_buff_offsets := input_buff_offsets }

/-- The number of items produced on output port `i` (line 166). -/
def items_to_produce (k : WorkSentinels) (ret : Int) (i : Nat) (s : ElementImpl) :
    Option Nat :=
  if ret = k.WORK_CALLED_PRODUCE then s.produce_items[i]? else some (size_of_int ret)

/-- Body of the loop of lines 164-176: production on output port `i`. -/
def account_output (k : WorkSentinels) (ret : Int) (i : Nat) (s : ElementImpl) :
    Option ElementImpl := do
  let items ← items_to_produce k ret i s
  let produce_items ← vset s.produce_items i 0
  let produced ← s.items_produced[i]?
  let items_produced ← vset s.items_produced i (size_add produced items)
  let size ← s.output_items_sizes[i]?
  let bytes := size_mul items size
  let queue ← s.output_queues[i]?
  let buff ← queue.head?
  let outputs_ready ← vset s.outputs_ready i (!queue.tail.isEmpty)
  pure { s with
    produce_items := produce_items
    items_produced := items_produced
    output_queues := s.output_queues.set i queue.tail
    outputs_ready := outputs_ready
    log := s.log ++ [Event.post_downstream i (Message.buffer { buff with length := bytes })] }

/-- The expression `myullround(t.offset * this->relative_rate)` of lines 215 and 226:
the offset is converted to `double`, the product is the one of two `double`s, and
`myullround` rounds it to an `unsigned long long`. -/
def scaled_offset (relative_rate : ℚ) (offset : Nat) : Option Nat :=
  (double_of_unsigned offset).bind (fun o => (double_mul o relative_rate).bind myullround)

/-- The copies of the trimmed tags with `offset` scaled by the relative rate
(lines 214-215 and 225-226). -/
def scale_tags (rate : ℚ) : List Tag → Option (List Tag)
  | [] => some []
  | t :: ts => do
    let offset ← scaled_offset rate t.offset
    let rest ← scale_tags rate ts
    pure ({ t with offset := offset } :: rest)

/-- The posts of the `switch` of lines 206-231 for input port `i` and the tags
`trimmed` = `tags_i[0 .. last)`. -/
def propagate_tags (ti : TaskInterface) (policy : TagPropPolicy) (rate : ℚ) (i : Nat)
    (trimmed : List Tag) : Option (List Event) :=
  match policy with
  | TagPropPolicy.TPP_DONT => some []
  | TagPropPolicy.TPP_ALL_TO_ALL =>
    if ti.num_outputs = 0 then some []
    else (scale_tags rate trimmed).map (fun scaled =>
      (List.range ti.num_outputs).flatMap (fun out_i =>
        scaled.map (fun t => Event.post_downstream out_i (Message.tag t))))
  | TagPropPolicy.TPP_ONE_TO_ONE =>
    if i < ti.num_outputs then
      (scale_tags rate trimmed).map (fun scaled =>
        scaled.map (fun t => Event.post_downstream i (Message.tag t)))
    else some []

/-- Body of the loop of lines 195-235: trim the tags of input port `i` that lie before
`items_consumed[i]` and post them downstream as the policy says. -/
def trim_input_tags (ti : TaskInterface) (i : Nat) (s : ElementImpl) : Option ElementImpl := do
  let tags_i ← s.input_tags[i]?
  let items_consumed_i ← s.items_consumed[i]?
  let trimmed := tags_i.takeWhile (fun t => decide (t.offset < items_consumed_i))
  let posts ← propagate_tags ti s.tag_prop_policy s.relative_rate i trimmed
  pure { s with
    input_tags := s.input_tags.set i (tags_i.drop trimmed.length)
    log := s.log ++ posts }

/-- Body of the loop of lines 240-247: post and clear the output tags of port `i`. -/
def flush_output_tags (i : Nat) (s : ElementImpl) : Option ElementImpl := do
  let tags ← s.output_tags[i]?
  pure { s with
    output_tags := s.output_tags.set i []
    log := s.log ++ tags.map (fun t => Event.post_downstream i (Message.tag t)) }

/-- Lines 144-247: what `handle_task` does with a return value of `Work` other than
`WORK_DONE`. -/
def account (k : WorkSentinels) (ti : TaskInterface) (ret : Int) (s : ElementImpl) :
    Option ElementImpl := do
  let s1 ← forLoop (account_input k ret) ti.num_inputs 0 s
  let s2 ← forLoop (account_output k ret) ti.num_outputs 0 s1
  let s3 ← forLoop (trim_input_tags ti) ti.num_inputs 0 s2
  forLoop flush_output_tags ti.num_outputs 0 s3

/-- `ElementImpl::handle_task`. `work` is the user's `Work`, a function of the state it
is called in. -/
def handle_task (k : WorkSentinels) (srt : TagSort) (work : ElementImpl → WorkOut)
    (ti : TaskInterface) (s : ElementImpl) : Option ElementImpl :=
  if ¬ (s.active = true ∧ all_ready s.inputs_ready = true ∧ all_ready s.outputs_ready = true)
  then some s
  else
    match gather srt ti s with
    | none => none
    | some (s3, input_tokens_count, output_tokens_count) =>
      if no_peer_interested ti input_tokens_count output_tokens_count = true then
        some (mark_done ti s3)
      else if (work s3).ret = k.WORK_DONE then some (mark_done ti (call_work work s3))
      else account k ti (work s3).ret (call_work work s3)

/-- The shape `handle_task` relies on: every per-port vector has one entry per port,
every port has a buffer at the front of its queue, no input port has history (the
assertion of line 95), and no item size is zero. -/
structure WellFormed (ti : TaskInterface) (s : ElementImpl) : Prop where
  input_queues : s.input_queues.length = ti.num_inputs
  inputs_ready : s.inputs_ready.length = ti.num_inputs
  input_tags_changed : s.input_tags_changed.length = ti.num_inputs
  input_tags : s.input_tags.length = ti.num_inputs
  input_tokens : s.input_tokens.length = ti.num_inputs
  input_history_items : s.input_history_items.length = ti.num_inputs
  input_buff_offsets : s.input_buff_offsets.length = ti.num_inputs
  input_items_sizes : s.input_items_sizes.length = ti.num_inputs
  input_items : s.input_items.length = ti.num_inputs
  work_input_items : s.work_input_items.length = ti.num_inputs
  work_ninput_items : s.work_ninput_items.length = ti.num_inputs
  consume_items : s.consume_items.length = ti.num_inputs
  items_consumed : s.items_consumed.length = ti.num_inputs
  output_queues : s.output_queues.length = ti.num_outputs
  outputs_ready : s.outputs_ready.length = ti.num_outputs
  output_tags : s.output_tags.length = ti.num_outputs
  output_tokens : s.output_tokens.length = ti.num_outputs
  output_items_sizes : s.output_items_sizes.length = ti.num_outputs
  output_items : s.output_items.length = ti.num_outputs
  work_output_items : s.work_output_items.length = ti.num_outputs
  produce_items : s.produce_items.length = ti.num_outputs
  items_produced : s.items_produced.length = ti.num_outputs
  input_fronts : ∀ q, q ∈ s.input_queues → q ≠ []
  output_fronts : ∀ q, q ∈ s.output_queues → q ≠ []
  no_history : ∀ h, h ∈ s.input_history_items → h = 0
  input_sizes_pos : ∀ n, n ∈ s.input_items_sizes → n ≠ 0
  output_sizes_pos : ∀ n, n ∈ s.output_items_sizes → n ≠ 0

/-- The sum of the use counts of a vector of tokens, as the `size_t` the loops of lines
90-92 and 110-112 accumulate. -/
def tokens_count (tokens : List Nat) : Nat := tokens.sum % SIZE_MOD

/-- A call the dispatcher makes on a block: `mark_done`, or `handle_task` with the user
`Work` in force at that call. -/
inductive Call where
  | mark_done : Call
  | handle_task : (ElementImpl → WorkOut) → Call

/-- A finite sequence of calls, made one after the other. -/
def run_calls (k : WorkSentinels) (srt : TagSort) (ti : TaskInterface) :
    List Call → ElementImpl → Option ElementImpl
  | [], s => some s
  | Call.mark_done :: rest, s => run_calls k srt ti rest (mark_done ti s)
  | Call.handle_task work :: rest, s => (handle_task k srt work ti s).bind (run_calls k srt ti rest)

/-- The state of a block that is done is the one `mark_done` leaves: inactive, with no
tokens and no queues. -/
def DoneReleased (s : ElementImpl) : Prop :=
  s.done = true → s.active = false ∧ s.token_pool = [] ∧ s.output_buffer_tokens = [] ∧
    s.input_queues = [] ∧ s.output_queues = []

/-! ## `InputBufferQueues` -/

/-- Modelled from the spec: `SBuffer` is declared in `gnuradio/sbuffer.hpp`, which is
not among the sources. Section 3 of the specification: shared ownership of a backing
byte region of `actual_length` bytes, with a current `offset` and `length` that define
the live window `[offset, offset + length)`, and the query `unique()`. `memory`
identifies the backing region, `bytes` gives its contents by byte index, and `unique`
is the answer of `unique()` for the copy held by the queue. -/
structure SBuffer where
  memory : Nat
  actual_length : Nat
  bytes : Nat → Nat
  offset : Nat
  length : Nat
  unique : Bool

/-- Modelled from the spec: `BufferQueue` is declared in `gras_impl/buffer_queue.hpp`,
which is not among the sources. Section 3 of the specification: a small pool of
preallocated `SBuffer`s; its front is the head of the list. The return of a released
buffer to its pool by the deleter is not part of the embedding: a run that takes from the
pool a buffer that was released before ends in `none` there, and the theorems that
conclude that a call returns take a pool that holds the buffers they need. -/
abbrev BufferQueue := List SBuffer

/-- A region handed out by the allocator: its identity and what it happens to contain. -/
structure Region where
  memory : Nat
  content : Nat → Nat

/-- Modelled from the spec: `BufferQueue::allocate_one(num_bytes)` adds to the pool a
buffer of `num_bytes` bytes that the pool alone holds. `region` is what the allocator
returns. -/
def BufferQueue.allocate_one (q : BufferQueue) (num_bytes : Nat) (region : Region) :
    BufferQueue :=
  q ++ [{ memory := region.memory, actual_length := num_bytes, bytes := region.content,
          offset := 0, length := num_bytes, unique := true }]

/-- The call `std::memset(buff.get_actual_memory(), 0, n)`. -/
def SBuffer.memset_zero (b : SBuffer) (n : Nat) : SBuffer :=
  { b with bytes := fun a => if a < n then 0 else b.bytes a }

/-- The contents of a region after `n` bytes were copied to its index `start` from
index `from_index` of the contents `source`. -/
def copy_bytes (target source : Nat → Nat) (start from_index n : Nat) : Nat → Nat :=
  fun a => if start ≤ a ∧ a < start + n then source (from_index + (a - start)) else target a

/-- The call `std::memcpy(dst.get(dst.length), src.get(), n)`, where `get(k)` is the
address of byte `offset + k` of the backing region; `none` when a range leaves its
region. -/
def SBuffer.memcpy_tail (dst src : SBuffer) (n : Nat) : Option SBuffer :=
  if dst.offset + dst.length + n ≤ dst.actual_length ∧ src.offset + n ≤ src.actual_length then
    some { dst with
      bytes := copy_bytes dst.bytes src.bytes (dst.offset + dst.length) src.offset n }
  else none

/-- The bytes of the live window of a buffer, in order. -/
def SBuffer.window (b : SBuffer) : List Nat :=
  (List.range b.length).map (fun k => b.bytes (b.offset + k))

/-- The members of `struct InputBufferQueues`. An entry of `_aux_queues` is `none` while
the shared pointer is null. -/
structure InputBufferQueues where
  _bitset : List Bool
  _enqueued_bytes : List Nat
  _queues : List (List SBuffer)
  _history_bytes : List Nat
  _reserve_bytes : List Nat
  _multiple_bytes : List Nat
  _post_bytes : List Nat
  _aux_queues : List (Option BufferQueue)
  _in_hist_buff : List Bool

/-- The call `v.resize(size, value)` of a vector. -/
def vresize {α : Type} (xs : List α) (size : Nat) (value : α) : List α :=
  xs.take size ++ List.replicate (size - xs.length) value

namespace InputBufferQueues

/-- What the default constructor leaves: every member empty. -/
def empty : InputBufferQueues :=
  { _bitset := [], _enqueued_bytes := [], _queues := [], _history_bytes := [],
    _reserve_bytes := [], _multiple_bytes := [], _post_bytes := [], _aux_queues := [],
    _in_hist_buff := [] }

/-- `InputBufferQueues::size`. -/
def size (q : InputBufferQueues) : Nat := q._queues.length

/-- `InputBufferQueues::resize`. -/
def resize (q : InputBufferQueues) (size : Nat) : InputBufferQueues :=
  { _bitset := vresize q._bitset size false
    _enqueued_bytes := vresize q._enqueued_bytes size 0
    _queues := vresize q._queues size []
    _history_bytes := vresize q._history_bytes size 0
    _reserve_bytes := vresize q._reserve_bytes size 0
    _multiple_bytes := vresize q._multiple_bytes size 0
    _post_bytes := vresize q._post_bytes size 0
    _aux_queues := vresize q._aux_queues size none
    _in_hist_buff := vresize q._in_hist_buff size false }

/-- `InputBufferQueues::__update`. -/
def __update (q : InputBufferQueues) (i : Nat) : Option InputBufferQueues := do
  let enqueued ← q._enqueued_bytes[i]?
  let reserve ← q._reserve_bytes[i]?
  let bitset ← vset q._bitset i (decide (enqueued ≥ reserve))
  pure { q with _bitset := bitset }

/-- `InputBufferQueues::push`. -/
def push (q : InputBufferQueues) (i : Nat) (buffer : SBuffer) : Option InputBufferQueues := do
  let queue ← q._queues[i]?
  let enqueued ← q._enqueued_bytes[i]?
  let enqueued_bytes ← vset q._enqueued_bytes i (size_add enqueued buffer.length)
  __update { q with
    _queues := q._queues.set i (queue ++ [buffer])
    _enqueued_bytes := enqueued_bytes } i

/-- `InputBufferQueues::flush`. -/
def flush (q : InputBufferQueues) (i : Nat) : Option InputBufferQueues := do
  let queues ← vset q._queues i []
  let bitset ← vset q._bitset i false
  pure { q with _queues := queues, _bitset := bitset }

/-- `InputBufferQueues::flush_all`. -/
def flush_all (q : InputBufferQueues) : InputBufferQueues :=
  (q.resize 0).resize q.size

/-- `InputBufferQueues::ready`. -/
def ready (q : InputBufferQueues) (i : Nat) : Option Bool := q._bitset[i]?

/-- The loop of lines 169-172 of `init`, from a current value of `_reserve_bytes[i]`;
`none` when the fuel runs out. -/
def reserve_loop (history_bytes multiple_bytes : Nat) : Nat → Nat → Option Nat
  | 0, _ => none
  | fuel + 1, reserve =>
    if reserve < size_add history_bytes multiple_bytes then
      reserve_loop history_bytes multiple_bytes fuel (size_add reserve multiple_bytes)
    else some reserve

/-- Body of the loop of `init` (lines 154-199) on port `i`. `alloc i 0` and `alloc i 1`
are the two regions the allocator returns for the port; `fuel` bounds the loop of lines
169-172. -/
def init_port (fuel : Nat) (alloc : Nat → Nat → Region)
    (input_history_items input_multiple_items input_item_sizes : List Nat)
    (i : Nat) (q : InputBufferQueues) : Option InputBufferQueues := do
  let multiple_items ← input_multiple_items[i]?
  if ¬ (multiple_items > 0) then none
  else do
    let _ ← q._aux_queues[i]?
    let item_size ← input_item_sizes[i]?
    let history_items ← input_history_items[i]?
    let history_bytes := size_mul item_size history_items
    let multiple_bytes := max 1 (size_mul item_size multiple_items)
    let reserve_bytes ← reserve_loop history_bytes multiple_bytes fuel multiple_bytes
    let num_bytes := 2 ^ 17
    let aux : BufferQueue :=
      (BufferQueue.allocate_one [] num_bytes (alloc i 0)).allocate_one num_bytes (alloc i 1)
    let q1 : InputBufferQueues := { q with
      _aux_queues := q._aux_queues.set i (some aux)
      _history_bytes := q._history_bytes.set i history_bytes
      _multiple_bytes := q._multiple_bytes.set i multiple_bytes
      _reserve_bytes := q._reserve_bytes.set i reserve_bytes }
    if i < q._history_bytes.length ∧ i < q._multiple_bytes.length ∧
        i < q._reserve_bytes.length then do
      let enqueued ← q1._enqueued_bytes[i]?
      if history_bytes ≠ 0 ∧ enqueued < history_bytes then do
        let buff ← aux.head?
        if history_bytes ≤ buff.actual_length then
          push { q1 with _aux_queues := q1._aux_queues.set i (some aux.tail) } i
            { buff.memset_zero history_bytes with offset := 0, length := history_bytes }
        else none
      else pure q1
    else none

/-- `InputBufferQueues::init`. -/
def init (fuel : Nat) (alloc : Nat → Nat → Region) (q : InputBufferQueues)
    (input_history_items input_multiple_items input_item_sizes : List Nat) :
    Option InputBufferQueues :=
  if q.size = 0 then some q
  else
    forLoop (init_port fuel alloc input_history_items input_multiple_items
      input_item_sizes) q.size 0 q

/-- Lines 259-262 of `__prepare`: a buffer taken from the pool, with `offset` and
`length` reset. -/
def staging_buffer (d : SBuffer) : SBuffer := { d with offset := 0, length := 0 }

/-- Lines 245-264 of `__prepare`: the destination buffer of a pass of the merge loop,
with the deque and the pool it leaves. The front of the deque is taken when it has room
for `reserve_bytes` and the queue alone holds it; otherwise a buffer of the pool `aux` is
taken, with `offset` and `length` reset. `aux` is `none` while the shared pointer is
null. -/
def pick_destination (reserve_bytes : Nat) (queue : List SBuffer) (aux : Option BufferQueue) :
    Option (SBuffer × List SBuffer × Option BufferQueue) :=
  match queue.head? with
  | none => none
  | some front =>
    if front.actual_length ≥ size_add reserve_bytes front.offset ∧ front.unique = true then
      some (front, queue.tail, aux)
    else
      match aux with
      | none => none
      | some pool =>
        match pool.head? with
        | none => none
        | some d => some (staging_buffer d, queue, some pool.tail)

/-- Lines 266-282 of `__prepare`: the front of the deque is popped as the source, as
many of its bytes as fit are appended to the destination, the source goes back to the
front if bytes remain in it, and the destination becomes the front. -/
def merge_source (dst : SBuffer) (queue : List SBuffer) : Option (List SBuffer) :=
  match queue with
  | [] => none
  | src :: rest =>
    match dst.memcpy_tail src
        (min (size_sub dst.actual_length (size_add dst.offset dst.length)) src.length) with
    | none => none
    | some copied =>
      some ({ copied with
          length := size_add dst.length
            (min (size_sub dst.actual_length (size_add dst.offset dst.length)) src.length) } ::
        (if size_sub src.length
            (min (size_sub dst.actual_length (size_add dst.offset dst.length)) src.length) ≠ 0
         then
          { src with
            offset := size_add src.offset
              (min (size_sub dst.actual_length (size_add dst.offset dst.length)) src.length)
            length := size_sub src.length
              (min (size_sub dst.actual_length (size_add dst.offset dst.length)) src.length) }
            :: rest
         else rest))

/-- One pass of the body of the loop of `__prepare` (lines 245-282) on the deque
`queue` and the pool `aux` of a port with reserve `reserve_bytes`. -/
def prepare_step (reserve_bytes : Nat) (queue : List SBuffer) (aux : Option BufferQueue) :
    Option (List SBuffer × Option BufferQueue) :=
  (pick_destination reserve_bytes queue aux).bind
    (fun picked => (merge_source picked.1 picked.2.1).map (fun merged => (merged, picked.2.2)))

/-- The loop of `__prepare` (lines 238-283); `none` when the fuel runs out or a pass
fails. -/
def prepare_loop (reserve_bytes : Nat) : Nat → List SBuffer → Option BufferQueue →
    Option (List SBuffer × Option BufferQueue)
  | 0, _, _ => none
  | fuel + 1, queue, aux =>
    match queue.head? with
    | none => none
    | some front =>
      if front.length < reserve_bytes then
        (prepare_step reserve_bytes queue aux).bind
          (fun r => prepare_loop reserve_bytes fuel r.1 r.2)
      else some (queue, aux)

/-- `InputBufferQueues::__prepare`. -/
def __prepare (fuel : Nat) (q : InputBufferQueues) (i : Nat) : Option InputBufferQueues := do
  let queue ← q._queues[i]?
  let front ← queue.head?
  let history_bytes ← q._history_bytes[i]?
  if ¬ (front.length ≥ history_bytes) then none
  else do
    let reserve_bytes ← q._reserve_bytes[i]?
    let aux ← q._aux_queues[i]?
    let r ← prepare_loop reserve_bytes fuel queue aux
    pure { q with
      _queues := q._queues.set i r.1
      _aux_queues := q._aux_queues.set i r.2 }

/-- `InputBufferQueues::front`: the buffer returned, the flag `potential_inline`, and
the state left behind. -/
def front (fuel : Nat) (q : InputBufferQueues) (i : Nat) :
    Option (SBuffer × Bool × InputBufferQueues) := do
  let queue ← q._queues[i]?
  if queue.isEmpty then none
  else do
    let is_ready ← q.ready i
    if is_ready = false then none
    else do
      let q1 ← __prepare fuel q i
      let queue1 ← q1._queues[i]?
      let front ← queue1.head?
      let history_bytes ← q1._history_bytes[i]?
      if ¬ (front.length ≥ history_bytes) then none
      else do
        let multiple_bytes ← q1._multiple_bytes[i]?
        if multiple_bytes = 0 then none
        else do
          let length := size_mul (size_sub front.length history_bytes / multiple_bytes) multiple_bytes
          let buff := { front with length := length }
          let potential_inline :=
            front.unique && decide (history_bytes = 0) && decide (buff.length = front.length)
          pure (buff, potential_inline, q1)

/-- `InputBufferQueues::consume`: the state left behind and the value returned. -/
def consume (q : InputBufferQueues) (i : Nat) (bytes_consumed : Nat) :
    Option (InputBufferQueues × Bool) := do
  let queue ← q._queues[i]?
  let front ← queue.head?
  if ¬ (front.length ≥ bytes_consumed) then none
  else do
    let front1 := { front with
      offset := size_add front.offset bytes_consumed
      length := size_sub front.length bytes_consumed }
    let history_bytes ← q._history_bytes[i]?
    let queue1 := if front1.length = 0 ∧ history_bytes = 0 then queue.tail else front1 :: queue.tail
    let enqueued ← q._enqueued_bytes[i]?
    if ¬ (enqueued ≥ bytes_consumed) then none
    else do
      let q1 ← __update { q with
        _queues := q._queues.set i queue1
        _enqueued_bytes := q._enqueued_bytes.set i (size_sub enqueued bytes_consumed) } i
      let in_hist_buff ← q1._in_hist_buff[i]?
      pure (q1, !in_hist_buff)

end InputBufferQueues

/-- What the tag sort of lines 74-80 has done to a state `s` once ports below `j` are
treated. -/
structure SortedUpTo (srt : TagSort) (s : ElementImpl) (j : Nat) (t : ElementImpl) : Prop where
  frame : t = { s with input_tags := t.input_tags, input_tags_changed := t.input_tags_changed }
  tags_length : t.input_tags.length = s.input_tags.length
  changed_length : t.input_tags_changed.length = s.input_tags_changed.length
  tags : ∀ p, t.input_tags[p]? =
    if p < j then (s.input_tags[p]?).map
      (fun tags => if s.input_tags_changed[p]? = some true then sort_tags srt tags else tags)
    else s.input_tags[p]?
  changed : ∀ p, t.input_tags_changed[p]? =
    if p < j then (s.input_tags_changed[p]?).map (fun _ => false) else s.input_tags_changed[p]?

/-- What the loop of lines 90-106 has done to a state `s` once ports below `j` are
treated; `p.2` is `input_tokens_count`. -/
structure InputsPreparedUpTo (s : ElementImpl) (j : Nat) (p : ElementImpl × Nat) : Prop where
  frame : p.1 = { s with input_items := p.1.input_items,
                         work_input_items := p.1.work_input_items,
                         work_ninput_items := p.1.work_ninput_items }
  input_items : p.1.input_items.length = s.input_items.length
  work_input_items : p.1.work_input_items.length = s.work_input_items.length
  work_ninput_items : p.1.work_ninput_items.length = s.work_ninput_items.length
  count : p.2 = tokens_count (s.input_tokens.take j)

/-- What the loop of lines 110-124 has done to a state `s` once ports below `j` are
treated; `p.2` is `output_tokens_count`. -/
structure OutputsPreparedUpTo (s : ElementImpl) (j : Nat) (p : ElementImpl × Nat) : Prop where
  frame : p.1 = { s with output_items := p.1.output_items,
                         work_output_items := p.1.work_output_items }
  output_items : p.1.output_items.length = s.output_items.length
  work_output_items : p.1.work_output_items.length = s.work_output_items.length
  count : p.2 = tokens_count (s.output_tokens.take j)

/-- The state `s3` in which `Work` is called, in terms of the state `s` that
`handle_task` was given: the tags of the ports flagged as changed are sorted and the
flags cleared, the work vectors are filled in, and everything else is as in `s`. -/
structure Gathered (srt : TagSort) (s s3 : ElementImpl) : Prop where
  frame : s3 = { s with
    input_tags := s3.input_tags
    input_tags_changed := s3.input_tags_changed
    input_items := s3.input_items
    work_input_items := s3.work_input_items
    work_ninput_items := s3.work_ninput_items
    output_items := s3.output_items
    work_output_items := s3.work_output_items }
  input_tags_length : s3.input_tags.length = s.input_tags.length
  input_tags_changed_length : s3.input_tags_changed.length = s.input_tags_changed.length
  input_items : s3.input_items.length = s.input_items.length
  work_input_items : s3.work_input_items.length = s.work_input_items.length
  work_ninput_items : s3.work_ninput_items.length = s.work_ninput_items.length
  output_items : s3.output_items.length = s.output_items.length
  work_output_items : s3.work_output_items.length = s.work_output_items.length
  tags : ∀ p : Nat, s3.input_tags[p]? = (s.input_tags[p]?).map
    (fun tags => if s.input_tags_changed[p]? = some true then sort_tags srt tags else tags)
  changed : ∀ p : Nat,
    s3.input_tags_changed[p]? = (s.input_tags_changed[p]?).map (fun _ => false)

/-- What the accounting of lines 144-247 may change in a state `s`: the mailboxes, the
counters, the queues with their ready bits and offsets, the tags, and the log, which
only grows. -/
structure Accounted (s t : ElementImpl) : Prop where
  frame : t = { s with
    consume_items := t.consume_items
    items_consumed := t.items_consumed
    input_queues := t.input_queues
    inputs_ready := t.inputs_ready
    input_buff_offsets := t.input_buff_offsets
    produce_items := t.produce_items
    items_produced := t.items_produced
    output_queues := t.output_queues
    outputs_ready := t.outputs_ready
    input_tags := t.input_tags
    output_tags := t.output_tags
    log := t.log }
  log : ∃ l, t.log = s.log ++ l

/-- What `handle_task` returns when it leaves through the gate of lines 127-133: the
prepared state after `mark_done`, with `Work` not called. -/
def disinterest_exit (srt : TagSort) (ti : TaskInterface) (s : ElementImpl) : Option ElementImpl :=
  (gather srt ti s).map (fun g => mark_done ti g.1)

/-- The block passes the gate of lines 63-65. -/
def Ready (s : ElementImpl) : Prop :=
  s.active = true ∧ all_ready s.inputs_ready = true ∧ all_ready s.outputs_ready = true

/-! ## Example blocks -/

/-- The sentinels of GNU Radio blocks. -/
def example_sentinels : WorkSentinels :=
  { WORK_DONE := -1, WORK_CALLED_PRODUCE := -2, done_neg := by decide,
    produce_neg := by decide, distinct := by decide }

/-- A sort of the tags by insertion, which keeps the order of tags with equal offsets. -/
def insertion_sort : TagSort :=
  { sort := fun tags => tags.insertionSort (fun a b => a.offset ≤ b.offset)
    perm := fun tags => List.perm_insertionSort _ tags
    sorted := fun tags => by
      haveI : IsTotal Tag (fun a b => a.offset ≤ b.offset) := ⟨fun a b => Nat.le_total _ _⟩
      haveI : IsTrans Tag (fun a b => a.offset ≤ b.offset) :=
        ⟨fun _ _ _ h1 h2 => Nat.le_trans h1 h2⟩
      exact List.sorted_insertionSort _ tags }

/-- An active block with no port. -/
def portless_block : ElementImpl :=
  { active := true, done := false, token_pool := [1], output_buffer_tokens := [],
    input_queues := [], output_queues := [], inputs_ready := [], outputs_ready := [],
    input_tags_changed := [], input_tags := [], output_tags := [], input_tokens := [],
    output_tokens := [], input_history_items := [], input_buff_offsets := [],
    input_items_sizes := [], output_items_sizes := [], input_items := [], output_items := [],
    work_input_items := [], work_ninput_items := [], work_output_items := [],
    consume_items := [], produce_items := [], items_consumed := [], items_produced := [],
    enable_fixed_rate := false, relative_rate := 1,
    tag_prop_policy := TagPropPolicy.TPP_DONT, log := [] }

/-- A user `Work` that returns `ret` and leaves the mailboxes alone. -/
def work_returning (ret : Int) : ElementImpl → WorkOut :=
  fun s => { ret := ret, consume_items := s.consume_items, produce_items := s.produce_items,
             output_tags := s.output_tags }

/-- A user `Work` that returns `ret` after it set `consume_items`. -/
def work_consuming (ret : Int) (items : List Nat) : ElementImpl → WorkOut :=
  fun s => { ret := ret, consume_items := items, produce_items := s.produce_items,
             output_tags := s.output_tags }

/-- A ready block with two input ports of 4-byte items, a 2048-byte buffer at the
front of each, and no output port; `tokens` are the use counts of its input tokens. -/
def two_input_sink (tokens : List Nat) : ElementImpl :=
  { portless_block with
    input_queues := [[{ memory := 4096, length := 2048 }], [{ memory := 8192, length := 2048 }]]
    inputs_ready := [true, true]
    input_tags_changed := [false, false]
    input_tags := [[], []]
    input_tokens := tokens
    input_history_items := [0, 0]
    input_buff_offsets := [0, 0]
    input_items_sizes := [4, 4]
    input_items := [(0, 0), (0, 0)]
    work_input_items := [0, 0]
    work_ninput_items := [0, 0]
    consume_items := [0, 0]
    items_consumed := [0, 0] }

/-- A ready source block with one output port of 4-byte items, a 1024-byte buffer at
the front of its queue, and an output token that a peer also holds. -/
def source_block : ElementImpl :=
  { portless_block with
    output_queues := [[{ memory := 4096, length := 1024 }]]
    outputs_ready := [true]
    output_tags := [[]]
    output_tokens := [2]
    output_items_sizes := [4]
    output_items := [(0, 0)]
    work_output_items := [0]
    produce_items := [0]
    items_produced := [0] }

/-- A ready block with one input port of 4-byte items, a 2048-byte buffer at the front
of its queue, an input token that a peer also holds, and no output port. -/
def sink_block : ElementImpl :=
  { portless_block with
    input_queues := [[{ memory := 4096, length := 2048 }]]
    inputs_ready := [true]
    input_tags_changed := [false]
    input_tags := [[]]
    input_tokens := [2]
    input_history_items := [0]
    input_buff_offsets := [0]
    input_items_sizes := [4]
    input_items := [(0, 0)]
    work_input_items := [0]
    work_ninput_items := [0]
    consume_items := [0]
    items_consumed := [0] }

/-- The state in which `Work` is called: the state `handle_task` was given, after the
tag sort and the preparation loops of lines 74-124. -/
def prepared (srt : TagSort) (ti : TaskInterface) (s : ElementImpl) : ElementImpl :=
  ((gather srt ti s).map (fun g => g.1)).getD s

/-- The mailboxes the user `Work` leaves have one entry per port. -/
def WorkFits (ti : TaskInterface) (w : WorkOut) : Prop :=
  w.consume_items.length = ti.num_inputs ∧ w.produce_items.length = ti.num_outputs ∧
  w.output_tags.length = ti.num_outputs

/-- The consumption loop of lines 147-163 meets no failing assertion and no undefined
conversion: when there is an input port, the assertion of line 149 holds and, for a
fixed-rate block, the relative rate is not zero and `noutput_items / relative_rate`
rounds to an `unsigned long`. -/
def CanConsume (k : WorkSentinels) (ti : TaskInterface) (ret : Int) (s : ElementImpl) : Prop :=
  ti.num_inputs ≠ 0 →
    (s.enable_fixed_rate = true ∨ ret ≠ k.WORK_CALLED_PRODUCE) ∧
    (s.enable_fixed_rate = true →
      (fixed_rate_items (size_of_int ret) s.relative_rate).isSome)

/-- The tag propagation of lines 206-231 meets no undefined conversion: the policy is
`TPP_DONT`, or every input tag has an offset that, scaled by the relative rate, rounds
to an `unsigned long long`. -/
def TagsScale (s : ElementImpl) : Prop :=
  s.tag_prop_policy = TagPropPolicy.TPP_DONT ∨
  ∀ tags, tags ∈ s.input_tags → ∀ t, t ∈ tags →
    (scaled_offset s.relative_rate t.offset).isSome

/-- What the consumption loop of lines 147-163 has done to a state `s` once the input
ports below `j` are treated. -/
structure ConsumedUpTo (ret : Int) (s : ElementImpl) (j : Nat) (t : ElementImpl) : Prop where
  frame : t = { s with
    consume_items := t.consume_items
    items_consumed := t.items_consumed
    input_queues := t.input_queues
    inputs_ready := t.inputs_ready
    input_buff_offsets := t.input_buff_offsets }
  consume_items_length : t.consume_items.length = s.consume_items.length
  items_consumed_length : t.items_consumed.length = s.items_consumed.length
  input_queues_length : t.input_queues.length = s.input_queues.length
  inputs_ready_length : t.inputs_ready.length = s.inputs_ready.length
  input_buff_offsets_length : t.input_buff_offsets.length = s.input_buff_offsets.length
  consume_items_rest : ∀ p : Nat, j ≤ p → t.consume_items[p]? = s.consume_items[p]?
  items_consumed_rest : ∀ p : Nat, j ≤ p → t.items_consumed[p]? = s.items_consumed[p]?
  input_queues_rest : ∀ p : Nat, j ≤ p → t.input_queues[p]? = s.input_queues[p]?
  input_buff_offsets_rest : ∀ p : Nat, j ≤ p →
    t.input_buff_offsets[p]? = s.input_buff_offsets[p]?
  items_consumed_done : ∀ p : Nat, p < j →
    t.items_consumed[p]? = (s.items_consumed[p]?).bind
      (fun c => (items_to_consume ret p s).map (fun n => size_add c n))

/-- The shape the production loop of lines 164-176 relies on: one entry per output port
in every vector it touches, and a buffer at the front of every output queue. -/
structure OutputSide (ti : TaskInterface) (s : ElementImpl) : Prop where
  output_queues : s.output_queues.length = ti.num_outputs
  outputs_ready : s.outputs_ready.length = ti.num_outputs
  output_items_sizes : s.output_items_sizes.length = ti.num_outputs
  produce_items : s.produce_items.length = ti.num_outputs
  items_produced : s.items_produced.length = ti.num_outputs
  output_fronts : ∀ q, q ∈ s.output_queues → q ≠ []

/-- The post of line 173 on output port `p`, from the state `s` in which the production
loop starts: the front buffer of the port with its length set to the bytes produced. -/
def posted_buffer (k : WorkSentinels) (ret : Int) (s : ElementImpl) (p : Nat) : Option Event := do
  let items ← items_to_produce k ret p s
  let size ← s.output_items_sizes[p]?
  let queue ← s.output_queues[p]?
  let buff ← queue.head?
  pure (Event.post_downstream p (Message.buffer { buff with length := size_mul items size }))

/-- What the production loop of lines 164-176 has done to a state `s` once the output
ports below `j` are treated. -/
structure ProducedUpTo (k : WorkSentinels) (ret : Int) (s : ElementImpl) (j : Nat)
    (t : ElementImpl) : Prop where
  frame : t = { s with
    produce_items := t.produce_items
    items_produced := t.items_produced
    output_queues := t.output_queues
    outputs_ready := t.outputs_ready
    log := t.log }
  produce_items_length : t.produce_items.length = s.produce_items.length
  items_produced_length : t.items_produced.length = s.items_produced.length
  output_queues_length : t.output_queues.length = s.output_queues.length
  outputs_ready_length : t.outputs_ready.length = s.outputs_ready.length
  produce_items_rest : ∀ p : Nat, j ≤ p → t.produce_items[p]? = s.produce_items[p]?
  items_produced_rest : ∀ p : Nat, j ≤ p → t.items_produced[p]? = s.items_produced[p]?
  output_queues_rest : ∀ p : Nat, j ≤ p → t.output_queues[p]? = s.output_queues[p]?
  produce_items_done : ∀ p : Nat, p < j → t.produce_items[p]? = some 0
  items_produced_done : ∀ p : Nat, p < j →
    t.items_produced[p]? = (s.items_produced[p]?).bind
      (fun c => (items_to_produce k ret p s).map (fun n => size_add c n))
  output_queues_done : ∀ p : Nat, p < j →
    t.output_queues[p]? = (s.output_queues[p]?).map List.tail
  outputs_ready_done : ∀ p : Nat, p < j →
    t.outputs_ready[p]? = (s.output_queues[p]?).map (fun q => !q.tail.isEmpty)
  log : t.log = s.log ++ (List.range j).filterMap (posted_buffer k ret s)

/-- The posts of the tag loop of lines 195-235 on input port `p`, from the state `s` in
which the loop starts. -/
def trim_posts (ti : TaskInterface) (s : ElementImpl) (p : Nat) : Option (List Event) := do
  let tags_i ← s.input_tags[p]?
  let items_consumed_i ← s.items_consumed[p]?
  propagate_tags ti s.tag_prop_policy s.relative_rate p
    (tags_i.takeWhile (fun t => decide (t.offset < items_consumed_i)))

/-- The tags of input port `p` that the tag loop of lines 195-235 leaves in place, from
the state `s` in which the loop starts. -/
def kept_tags (s : ElementImpl) (p : Nat) : Option (List Tag) := do
  let tags_i ← s.input_tags[p]?
  let items_consumed_i ← s.items_consumed[p]?
  pure (tags_i.drop (tags_i.takeWhile (fun t => decide (t.offset < items_consumed_i))).length)

/-- What the tag loop of lines 195-235 has done to a state `s` once the input ports
below `j` are treated. -/
structure TrimmedUpTo (ti : TaskInterface) (s : ElementImpl) (j : Nat) (t : ElementImpl) :
    Prop where
  frame : t = { s with input_tags := t.input_tags, log := t.log }
  input_tags_length : t.input_tags.length = s.input_tags.length
  input_tags_rest : ∀ p : Nat, j ≤ p → t.input_tags[p]? = s.input_tags[p]?
  input_tags_done : ∀ p : Nat, p < j → t.input_tags[p]? = kept_tags s p
  log : t.log = s.log ++ (List.range j).flatMap (fun p => (trim_posts ti s p).getD [])

/-- The posts of the loop of lines 240-247 on output port `p`, from the state `s` in
which the loop starts. -/
def flush_posts (s : ElementImpl) (p : Nat) : List Event :=
  ((s.output_tags[p]?).getD []).map (fun t => Event.post_downstream p (Message.tag t))

/-- What the loop of lines 240-247 has done to a state `s` once the output ports below
`j` are treated. -/
structure FlushedUpTo (s : ElementImpl) (j : Nat) (t : ElementImpl) : Prop where
  frame : t = { s with output_tags := t.output_tags, log := t.log }
  output_tags_length : t.output_tags.length = s.output_tags.length
  output_tags_rest : ∀ p : Nat, j ≤ p → t.output_tags[p]? = s.output_tags[p]?
  output_tags_done : ∀ p : Nat, p < j → t.output_tags[p]? = some []
  log : t.log = s.log ++ (List.range j).flatMap (flush_posts s)

/-- The buffers posted downstream on output port `i` among the events of a log. -/
def buffers_posted_on (i : Nat) (log : List Event) : List Buffer :=
  log.filterMap (fun e =>
    match e with
    | Event.post_downstream p (Message.buffer b) => if p = i then some b else none
    | _ => none)

/-- The event is the post of a tag downstream. -/
def is_tag_post (e : Event) : Prop :=
  ∃ i t, e = Event.post_downstream i (Message.tag t)

/-- The states `handle_task` goes through when `Work` returns `ret`, other than
`WORK_DONE`, in the state `s4`: after the consumption loop, the production loop, the
tag loop and the output tag loop, which gives the state `s8` it returns. -/
structure AccountSteps (k : WorkSentinels) (ti : TaskInterface) (ret : Int)
    (s4 s5 s6 s7 s8 : ElementImpl) : Prop where
  consumed : ConsumedUpTo ret s4 ti.num_inputs s5
  produced : ProducedUpTo k ret s5 ti.num_outputs s6
  trimmed : TrimmedUpTo ti s6 ti.num_inputs s7
  flushed : FlushedUpTo s7 ti.num_outputs s8

/-- Every member vector of the queues has `n` entries, as `resize(n)` leaves them. -/
structure Sized (q : InputBufferQueues) (n : Nat) : Prop where
  bitset : q._bitset.length = n
  enqueued_bytes : q._enqueued_bytes.length = n
  queues : q._queues.length = n
  history_bytes : q._history_bytes.length = n
  reserve_bytes : q._reserve_bytes.length = n
  multiple_bytes : q._multiple_bytes.length = n
  post_bytes : q._post_bytes.length = n
  aux_queues : q._aux_queues.length = n
  in_hist_buff : q._in_hist_buff.length = n

/-- The sizes `init` is to compute for the ports below `j`, from the item sizes, the
history item counts and the multiple item counts it is given. -/
structure InitUpTo (n : Nat) (input_history_items input_multiple_items input_item_sizes : List Nat)
    (j : Nat) (q : InputBufferQueues) : Prop where
  sized : Sized q n
  history : ∀ p : Nat, p < j → ∀ s H, input_item_sizes[p]? = some s →
    input_history_items[p]? = some H → q._history_bytes[p]? = some (H * s)
  multiple : ∀ p : Nat, p < j → ∀ s M, input_item_sizes[p]? = some s →
    input_multiple_items[p]? = some M → q._multiple_bytes[p]? = some (max 1 (M * s))
  reserve : ∀ p : Nat, p < j → ∀ s H M, input_item_sizes[p]? = some s →
    input_history_items[p]? = some H → input_multiple_items[p]? = some M →
    ∃ r, q._reserve_bytes[p]? = some r ∧ max 1 (M * s) ∣ r ∧
      H * s + max 1 (M * s) ≤ r ∧ r < H * s + max 1 (M * s) + max 1 (M * s)

/-- An allocator that hands out zeroed regions, numbered by port. -/
def example_alloc : Nat → Nat → Region :=
  fun i k => { memory := 2 * i + k, content := fun _ => 0 }

/-- The window of a buffer lies in its backing region, and the sizes the merge loop adds
to `reserve_bytes` fit a `size_t`. -/
def SBuffer.Valid (reserve_bytes : Nat) (b : SBuffer) : Prop :=
  b.offset + b.length ≤ b.actual_length ∧ b.actual_length + reserve_bytes < SIZE_MOD

/-- The sum of `length` over the entries of a deque. -/
def total_length (queue : List SBuffer) : Nat := (queue.map (fun b => b.length)).sum

/-- The merge loop can proceed from the front buffer `front` with the pool `aux`: the
front already holds the reserve, or it can be extended in place (the queue alone holds
it and it has room for the reserve), or the pool has a buffer at its front that the pool
alone holds and that is large enough for the reserve. -/
def CanStage (reserve_bytes : Nat) (front : SBuffer) (aux : Option BufferQueue) : Prop :=
  reserve_bytes ≤ front.length ∨
  (front.unique = true ∧ reserve_bytes + front.offset ≤ front.actual_length) ∨
  ∃ d pool, aux = some (d :: pool) ∧ d.unique = true ∧ reserve_bytes ≤ d.actual_length ∧
    d.actual_length + reserve_bytes < SIZE_MOD

/-- The state of port `i` on which `front` is called: the deque is `f :: rest` and the
ready bit is set; the sizes are `h` history bytes, `m ≥ 1` multiple bytes and `R ≥ h + m`
reserve bytes, as `init` computes them (invariant I1); `enqueued_bytes[i]` is the sum of
the lengths of the deque entries, which, the port being ready, is at least the reserve
(invariant I3); the front holds the history (the assertion of line 236); the windows lie
in their regions; and the merge loop can proceed. -/
structure FrontReady (q : InputBufferQueues) (i : Nat) (f : SBuffer) (rest : List SBuffer)
    (h m R : Nat) (aux : Option BufferQueue) : Prop where
  queue : q._queues[i]? = some (f :: rest)
  ready : q._bitset[i]? = some true
  history : q._history_bytes[i]? = some h
  multiple : q._multiple_bytes[i]? = some m
  reserve : q._reserve_bytes[i]? = some R
  aux_queue : q._aux_queues[i]? = some aux
  enqueued : q._enqueued_bytes[i]? = some (total_length (f :: rest))
  reserved : R ≤ total_length (f :: rest)
  multiple_pos : 1 ≤ m
  reserve_ge : h + m ≤ R
  front_history : h ≤ f.length
  valid : ∀ b, b ∈ f :: rest → b.Valid R
  stage : CanStage R f aux

/-- The buffer `init` seeds a port with for 12 bytes of history: a 128 KiB buffer of
the pool, zeroed, holding 12 bytes at offset 0. -/
def example_history_buffer : SBuffer :=
  { memory := 0, actual_length := 2 ^ 17, bytes := fun _ => 0, offset := 0, length := 12,
    unique := true }

/-- A buffer of 100 bytes as upstream delivers it: full, at offset 0, held by the queue
alone. -/
def example_pushed_buffer : SBuffer :=
  { memory := 4096, actual_length := 100, bytes := fun a => a % 256, offset := 0, length := 100,
    unique := true }

/-- The queues of one port with 12 history bytes, 4 multiple bytes and 16 reserve bytes,
after `init` seeded the history and `example_pushed_buffer` was pushed. -/
def example_queues : InputBufferQueues :=
  { _bitset := [true], _enqueued_bytes := [112],
    _queues := [[example_history_buffer, example_pushed_buffer]],
    _history_bytes := [12], _reserve_bytes := [16], _multiple_bytes := [4], _post_bytes := [0],
    _aux_queues := [some [{ memory := 1, actual_length := 2 ^ 17, bytes := fun _ => 0,
                            offset := 0, length := 2 ^ 17, unique := true }]],
    _in_hist_buff := [false] }

/-- A call on an `InputBufferQueues` object: one of its member functions with its
arguments. `front` and `init` carry the fuel of their loops, `init` the allocator. -/
inductive QueueCall where
  | resize (size : Nat) : QueueCall
  | init (fuel : Nat) (alloc : Nat → Nat → Region)
      (input_history_items input_multiple_items input_item_sizes : List Nat) : QueueCall
  | push (i : Nat) (buffer : SBuffer) : QueueCall
  | front (fuel : Nat) (i : Nat) : QueueCall
  | consume (i : Nat) (bytes_consumed : Nat) : QueueCall
  | flush (i : Nat) : QueueCall
  | flush_all : QueueCall

/-- The state a call leaves; what `front` and `consume` return is dropped. -/
def QueueCall.apply (c : QueueCall) (q : InputBufferQueues) : Option InputBufferQueues :=
  match c with
  | QueueCall.resize size => some (q.resize size)
  | QueueCall.init fuel alloc input_history_items input_multiple_items input_item_sizes =>
    q.init fuel alloc input_history_items input_multiple_items input_item_sizes
  | QueueCall.push i buffer => q.push i buffer
  | QueueCall.front fuel i => (q.front fuel i).map (fun r => r.2.2)
  | QueueCall.consume i bytes_consumed => (q.consume i bytes_consumed).map (fun r => r.1)
  | QueueCall.flush i => q.flush i
  | QueueCall.flush_all => some q.flush_all

/-- A finite sequence of calls on an `InputBufferQueues` object, made one after the
other. -/
def run_queue_calls : List QueueCall → InputBufferQueues → Option InputBufferQueues
  | [], q => some q
  | c :: rest, q => (c.apply q).bind (run_queue_calls rest)

/-- The call is a `push`, a `front` or a `consume`. -/
def QueueCall.is_transfer : QueueCall → Bool
  | QueueCall.push _ _ => true
  | QueueCall.front _ _ => true
  | QueueCall.consume _ _ => true
  | _ => false

/-- Invariant I3 of the queues: on every port the ready bit says that
`enqueued_bytes` has reached `reserve_bytes`. -/
def ReadyIsReserved (q : InputBufferQueues) : Prop :=
  ∀ (i : Nat) (b : Bool) (en R : Nat), q._bitset[i]? = some b → q._enqueued_bytes[i]? = some en →
    q._reserve_bytes[i]? = some R → (b = true ↔ en ≥ R)

/-- The ports from `j` on are as `resize` creates them: not ready, with nothing
enqueued and an empty deque. -/
def FreshFrom (j : Nat) (q : InputBufferQueues) : Prop :=
  ∀ p : Nat, j ≤ p → (∀ b, q._bitset[p]? = some b → b = false) ∧
    (∀ en, q._enqueued_bytes[p]? = some en → en = 0) ∧
    (∀ queue, q._queues[p]? = some queue → queue = [])

/-- The bytes of the live windows of the entries of a deque, concatenated from front to
back. -/
def deque_bytes (queue : List SBuffer) : List Nat := queue.flatMap SBuffer.window

/-- Every `size_t` member of the buffer holds a value of a `size_t`. -/
def SBuffer.InRange (b : SBuffer) : Prop :=
  b.actual_length < SIZE_MOD ∧ b.offset < SIZE_MOD ∧ b.length < SIZE_MOD

/-- The buffer `init` seeds a port with for `h` bytes of history (lines 187-195): the
first buffer of the pool, on the region `region`, zeroed on its first `h` bytes, with
`offset` 0 and `length` `h`. -/
def history_seed (region : Region) (h : Nat) : SBuffer :=
  { memory := region.memory, actual_length := 2 ^ 17,
    bytes := fun a => if a < h then 0 else region.content a,
    offset := 0, length := h, unique := true }

/-- The queues of a single port after `resize(1)` and `init` with `h > 0` history bytes,
`m` multiple bytes and `r` reserve bytes: the deque holds the history seed, the pool the
second of its two buffers, and the port is not ready. -/
def seeded_queues (alloc : Nat → Nat → Region) (h m r : Nat) : InputBufferQueues :=
  { _bitset := [false], _enqueued_bytes := [h], _queues := [[history_seed (alloc 0 0) h]],
    _history_bytes := [h], _reserve_bytes := [r], _multiple_bytes := [m], _post_bytes := [0],
    _aux_queues := [some [{ memory := (alloc 0 1).memory, actual_length := 2 ^ 17,
                            bytes := (alloc 0 1).content, offset := 0, length := 2 ^ 17,
                            unique := true }]],
    _in_hist_buff := [false] }

/-- The destination `dst` once a pass of the merge loop has appended the whole window of
`src` to it in place. -/
def appended (dst src : SBuffer) : SBuffer :=
  { dst with
    bytes := copy_bytes dst.bytes src.bytes (dst.offset + dst.length) src.offset src.length
    length := dst.length + src.length }

/-- Rounding half away from zero of a non-negative rational to an unsigned integer, the
`round` of section 6 of the specification. -/
def round_half_away (x : ℚ) : Nat := Int.toNat ⌊x + 1 / 2⌋

/-- The product `offset * rate` as double precision gives it: the offset is converted to
`double`, and the product of the two `double`s is rounded to `double`. -/
def double_product (offset : Nat) (rate : ℚ) : ℚ :=
  double_nearest (double_nearest (offset : ℚ) * rate)

/-- The copy of a tag with `offset` replaced by `round(offset * rate)`, the product being
the one of double precision. -/
def Tag.scaled (rate : ℚ) (t : Tag) : Tag :=
  { t with offset := round_half_away (double_product t.offset rate) }

/-- The tags of a list that lie before the item count `c`. -/
def tags_before (c : Nat) (tags : List Tag) : List Tag :=
  tags.filter (fun t => decide (t.offset < c))

/-- The tags of a list that lie at or after the item count `c`. -/
def tags_from (c : Nat) (tags : List Tag) : List Tag :=
  tags.filter (fun t => decide (c ≤ t.offset))

/-- The tags section 4.1 of the specification has posted downstream for the tags
`trimmed` of input port `i`: none under `DONT`; under `ALL_TO_ALL`, on every output port
each trimmed tag, scaled; under `ONE_TO_ONE`, the scaled tags on output port `i` when
there is such a port. -/
def propagated (ti : TaskInterface) (policy : TagPropPolicy) (rate : ℚ) (i : Nat)
    (trimmed : List Tag) : List Event :=
  match policy with
  | TagPropPolicy.TPP_DONT => []
  | TagPropPolicy.TPP_ALL_TO_ALL =>
    (List.range ti.num_outputs).flatMap (fun j =>
      trimmed.map (fun t => Event.post_downstream j (Message.tag (t.scaled rate))))
  | TagPropPolicy.TPP_ONE_TO_ONE =>
    if i < ti.num_outputs then
      trimmed.map (fun t => Event.post_downstream i (Message.tag (t.scaled rate)))
    else []

/-- The posts of the loop of lines 240-247 for the output tags `output_tags` that `Work`
queued: on every output port, the tags of the port. -/
def flushed (ti : TaskInterface) (output_tags : List (List Tag)) : List Event :=
  (List.range ti.num_outputs).flatMap (fun j =>
    ((output_tags[j]?).getD []).map (fun t => Event.post_downstream j (Message.tag t)))

/-- A ready block with one input port and two output ports of 4-byte items, a relative
rate of 2 and the policy `ALL_TO_ALL`. Tags at offsets 30 and 10 have arrived on the input
port, flagged as changed; peers hold every token. -/
def tagged_block : ElementImpl :=
  { portless_block with
    input_queues := [[{ memory := 4096, length := 2048 }]]
    inputs_ready := [true]
    input_tags_changed := [true]
    input_tags := [[{ offset := 30, key := 1, value := 7 }, { offset := 10, key := 2, value := 9 }]]
    input_tokens := [2]
    input_history_items := [0]
    input_buff_offsets := [0]
    input_items_sizes := [4]
    input_items := [(0, 0)]
    work_input_items := [0]
    work_ninput_items := [0]
    consume_items := [0]
    items_consumed := [0]
    output_queues := [[{ memory := 8192, length := 1024 }], [{ memory := 12288, length := 1024 }]]
    outputs_ready := [true, true]
    output_tags := [[], []]
    output_tokens := [2, 2]
    output_items_sizes := [4, 4]
    output_items := [(0, 0), (0, 0)]
    work_output_items := [0, 0]
    produce_items := [0, 0]
    items_produced := [0, 0]
    relative_rate := 2
    tag_prop_policy := TagPropPolicy.TPP_ALL_TO_ALL }

/-- A ready block with one input port and one output port of 4-byte items, a relative
rate of 1 and the policy `ONE_TO_ONE`, that has consumed 100 items so far; `tags` are the
tags of its input port. Peers hold every token. -/
def one_to_one_block (tags : List Tag) : ElementImpl :=
  { portless_block with
    input_queues := [[{ memory := 4096, length := 2048 }]]
    inputs_ready := [true]
    input_tags_changed := [false]
    input_tags := [tags]
    input_tokens := [2]
    input_history_items := [0]
    input_buff_offsets := [0]
    input_items_sizes := [4]
    input_items := [(0, 0)]
    work_input_items := [0]
    work_ninput_items := [0]
    consume_items := [0]
    items_consumed := [100]
    output_queues := [[{ memory := 8192, length := 1024 }]]
    outputs_ready := [true]
    output_tags := [[]]
    output_tokens := [2]
    output_items_sizes := [4]
    output_items := [(0, 0)]
    work_output_items := [0]
    produce_items := [0]
    items_produced := [100]
    relative_rate := 1
    tag_prop_policy := TagPropPolicy.TPP_ONE_TO_ONE }

/-- A user `Work` that returns `ret` after it set `consume_items` and queued the output
tags `output_tags`. -/
def work_tagging (ret : Int) (items : List Nat) (output_tags : List (List Tag)) :
    ElementImpl → WorkOut :=
  fun s => { ret := ret, consume_items := items, produce_items := s.produce_items,
             output_tags := output_tags }

/-! ## The rate conveniences of `gr_block` -/

/-- The conversion `size_t(x)` of a finite `double`: truncation toward zero, undefined
when the truncated value is outside the range of `size_t`. -/
def size_of_double (x : ℚ) : Option Nat :=
  if -1 < x ∧ x < (SIZE_MOD : ℚ) then some (Int.toNat ⌊x⌋) else none

namespace gr_block

/-- Modelled from the spec: `Block::relative_rate()` is declared in `block.hpp`, which
is not among the sources. Sections 3 and 6 of the specification: the relative rate is a
member of the block state, read here. -/
def relative_rate (s : ElementImpl) : ℚ := s.relative_rate

/-- Modelled from the spec: `Block::set_relative_rate(double)` is declared in
`block.hpp`, which is not among the sources. Section 6 of the specification: a
configuration knob, which stores the relative rate in the block state. -/
def set_relative_rate (s : ElementImpl) (rate : ℚ) : ElementImpl :=
  { s with relative_rate := rate }

/-- `gr_block::interpolation`: `size_t(1.0*this->relative_rate())`. -/
def interpolation (s : ElementImpl) : Option Nat :=
  (double_mul 1 (relative_rate s)).bind size_of_double

/-- `gr_block::set_interpolation`: `this->set_relative_rate(1.0*interp)`, with `interp`
converted to `double`. -/
def set_interpolation (s : ElementImpl) (interp : Nat) : Option ElementImpl :=
  ((double_of_unsigned interp).bind (double_mul 1)).map (set_relative_rate s)

/-- `gr_block::decimation`: `size_t(1.0/this->relative_rate())`. The quotient by a zero
rate is an infinity, and its conversion is undefined. -/
def decimation (s : ElementImpl) : Option Nat :=
  (double_div 1 (relative_rate s)).bind size_of_double

/-- `gr_block::set_decimation`: `this->set_relative_rate(1.0/decim)`, with `decim`
converted to `double`. The quotient by a zero `decim` is an infinity, which the
embedding does not represent, so no state is given for it. -/
def set_decimation (s : ElementImpl) (decim : Nat) : Option ElementImpl :=
  ((double_of_unsigned decim).bind (double_div 1)).map (set_relative_rate s)

end gr_block

/-- A full buffer of 128 KiB as upstream delivers it, on the region `memory`, held by the
queue alone. -/
def example_full_buffer (memory : Nat) : SBuffer :=
  { memory := memory, actual_length := 2 ^ 17, bytes := fun a => a % 256, offset := 0,
    length := 2 ^ 17, unique := true }

/-- The calls that bring a port of items of 256 KiB, without history, to a ready state:
`resize(1)`, `init`, and two buffers of 128 KiB pushed. -/
def big_item_calls : List QueueCall :=
  [QueueCall.resize 1, QueueCall.init 2 example_alloc [0] [1] [2 ^ 18],
   QueueCall.push 0 (example_full_buffer 4096), QueueCall.push 0 (example_full_buffer 8192)]

/-- A buffer of 40 bytes as upstream delivers it: full, so without room to grow. -/
def example_small_buffer (memory : Nat) : SBuffer :=
  { memory := memory, actual_length := 40, bytes := fun a => a % 256, offset := 0,
    length := 40, unique := true }

/-- The queues of one port without history, with 64 multiple bytes and 64 reserve bytes,
after `init` and two pushes of 40 bytes. -/
def staging_queues : InputBufferQueues :=
  { _bitset := [true], _enqueued_bytes := [80],
    _queues := [[example_small_buffer 4096, example_small_buffer 8192]],
    _history_bytes := [0], _reserve_bytes := [64], _multiple_bytes := [64], _post_bytes := [0],
    _aux_queues := [some [{ memory := 0, actual_length := 2 ^ 17, bytes := fun _ => 0,
                            offset := 0, length := 2 ^ 17, unique := true },
                          { memory := 1, actual_length := 2 ^ 17, bytes := fun _ => 0,
                            offset := 0, length := 2 ^ 17, unique := true }]],
    _in_hist_buff := [false] }

/-- On every port `enqueued_bytes` is the sum of `length` over the entries of the
deque. -/
def EnqueuedIsSum (q : InputBufferQueues) : Prop :=
  ∀ (i : Nat) (queue : List SBuffer) (en : Nat), q._queues[i]? = some queue →
    q._enqueued_bytes[i]? = some en → en = total_length queue

/-- The buffers of the deque and of the pool of port `i` hold `size_t` values. -/
def BuffersInRange (q : InputBufferQueues) (i : Nat) : Prop :=
  (∀ queue, q._queues[i]? = some queue → ∀ b, b ∈ queue → b.InRange) ∧
  (∀ pool, q._aux_queues[i]? = some (some pool) → ∀ b, b ∈ pool → b.InRange)

/-- The call is a `push`, a `front`, a `consume` or a `flush`. -/
def QueueCall.is_port_call : QueueCall → Bool
  | QueueCall.push _ _ => true
  | QueueCall.front _ _ => true
  | QueueCall.consume _ _ => true
  | QueueCall.flush _ => true
  | _ => false

/-- The calls that configure a port of 4-byte items with 3 history items, then flush every
port and push a buffer of 100 bytes: `resize(1)`, `init`, `flush_all()`, `push`. -/
def flushed_then_pushed_calls : List QueueCall :=
  [QueueCall.resize 1, QueueCall.init 13 example_alloc [3] [1] [4], QueueCall.flush_all,
   QueueCall.push 0 example_pushed_buffer]

/-- A block as `one_to_one_block` that has consumed `2 ^ 53 + 1` items so far, with a tag
at offset `2 ^ 53 + 1` on its input port. -/
def far_block : ElementImpl :=
  { one_to_one_block [{ offset := 2 ^ 53 + 1, key := 1, value := 7 }] with
    items_consumed := [2 ^ 53 + 1] }

/-- A block as `tagged_block` with a relative rate of `0.3`, that is, of the `double`
nearest to 3/10, and a single tag, at offset 5, on its input port. -/
def slow_tagged_block : ElementImpl :=
  { tagged_block with
    input_tags_changed := [false]
    input_tags := [[{ offset := 5, key := 1, value := 7 }]]
    relative_rate := 5404319552844595 / 18014398509481984 }

/-- The calls that leave a port with a stale byte count: on a port of 64-byte items,
without history, a buffer of 100 bytes is pushed and flushed, then a buffer of 40 bytes
is pushed. -/
def flushed_port_calls : List QueueCall :=
  [QueueCall.resize 1, QueueCall.init 2 example_alloc [0] [1] [64],
   QueueCall.push 0 example_pushed_buffer, QueueCall.flush 0,
   QueueCall.push 0 (example_small_buffer 8192)]

/-- The calls that consume the history seed of a port: on a port of 4-byte items with 3
history items, the 12 bytes that `init` seeded are consumed, then a buffer of 100 bytes is
pushed. -/
def history_consumed_calls : List QueueCall :=
  [QueueCall.resize 1, QueueCall.init 13 example_alloc [3] [1] [4], QueueCall.consume 0 12,
   QueueCall.push 0 example_pushed_buffer]

/-! # Theorems -/

/-! ## Double-precision arithmetic -/

theorem bit_position_spec : ∀ (fuel n : Nat), 0 < n → n < 2 ^ fuel →
    2 ^ bit_position fuel n ≤ n ∧ n < 2 ^ (bit_position fuel n + 1) := by
  intro fuel
  induction fuel with
  | zero => intro n h0 h1; simp at h1; omega
  | succ f ih =>
    intro n h0 h1
    rw [bit_position]
    by_cases h2 : n < 2
    · rw [if_pos h2]; simp; omega
    · rw [if_neg h2]
      have h3 : n / 2 < 2 ^ f := by
        rw [Nat.pow_succ] at h1
        omega
      obtain ⟨a, b⟩ := ih (n / 2) (by omega) h3
      rw [Nat.pow_succ, Nat.pow_succ]
      constructor <;> omega

theorem bit_position_self (n : Nat) (h : 0 < n) :
    2 ^ bit_position n n ≤ n ∧ n < 2 ^ (bit_position n n + 1) :=
  bit_position_spec n n h (Nat.lt_two_pow n)

theorem pow2_eq (e : ℤ) : pow2 e = (2 : ℚ) ^ e := by
  rw [pow2]
  by_cases h : 0 ≤ e
  · rw [if_pos h]
    obtain ⟨n, rfl⟩ := Int.eq_ofNat_of_zero_le h
    simp
  · rw [if_neg h]
    obtain ⟨n, rfl⟩ : ∃ n : ℕ, e = -(n : ℤ) := ⟨(-e).toNat, by omega⟩
    simp

theorem pow2_pos (e : ℤ) : 0 < pow2 e := by
  rw [pow2_eq]; positivity

theorem binade_spec (x : ℚ) (hx : x ≠ 0) :
    (2 : ℚ) ^ binade x ≤ |x| ∧ |x| < (2 : ℚ) ^ (binade x + 1) := by
  have hnum : x.num.natAbs ≠ 0 := by
    simpa using hx
  obtain ⟨a1, a2⟩ := bit_position_self x.num.natAbs (Nat.pos_of_ne_zero hnum)
  obtain ⟨b1, b2⟩ := bit_position_self x.den x.den_pos
  have habs : |x| = (x.num.natAbs : ℚ) / (x.den : ℚ) := by
    conv_lhs => rw [← Rat.num_div_den x]
    rw [abs_div, Nat.cast_natAbs, Int.cast_abs]
    congr 1
    exact abs_of_pos (by exact_mod_cast x.den_pos)
  have hden : (0 : ℚ) < (x.den : ℚ) := by exact_mod_cast x.den_pos
  set la := bit_position x.num.natAbs x.num.natAbs
  set lb := bit_position x.den x.den
  have A1 : (2 : ℚ) ^ (la : ℤ) ≤ (x.num.natAbs : ℚ) := by
    rw [zpow_natCast]; exact_mod_cast a1
  have A2 : (x.num.natAbs : ℚ) < (2 : ℚ) ^ ((la : ℤ) + 1) := by
    rw [show ((la : ℤ) + 1) = ((la + 1 : ℕ) : ℤ) by push_cast; ring, zpow_natCast]
    exact_mod_cast a2
  have B1 : (2 : ℚ) ^ (lb : ℤ) ≤ (x.den : ℚ) := by
    rw [zpow_natCast]; exact_mod_cast b1
  have B2 : (x.den : ℚ) < (2 : ℚ) ^ ((lb : ℤ) + 1) := by
    rw [show ((lb : ℤ) + 1) = ((lb + 1 : ℕ) : ℤ) by push_cast; ring, zpow_natCast]
    exact_mod_cast b2
  have two : (0 : ℚ) < 2 := by norm_num
  have up : |x| < (2 : ℚ) ^ ((la : ℤ) - lb + 1) := by
    rw [habs, div_lt_iff₀ hden]
    calc (x.num.natAbs : ℚ) < (2 : ℚ) ^ ((la : ℤ) + 1) := A2
      _ = (2 : ℚ) ^ ((la : ℤ) - lb + 1) * (2 : ℚ) ^ (lb : ℤ) := by
        rw [← zpow_add₀ (ne_of_gt two)]; congr 1; ring
      _ ≤ (2 : ℚ) ^ ((la : ℤ) - lb + 1) * (x.den : ℚ) :=
        mul_le_mul_of_nonneg_left B1 (by positivity)
  have lo : (2 : ℚ) ^ ((la : ℤ) - lb - 1) ≤ |x| := by
    rw [habs, le_div_iff₀ hden]
    calc (2 : ℚ) ^ ((la : ℤ) - lb - 1) * (x.den : ℚ)
        ≤ (2 : ℚ) ^ ((la : ℤ) - lb - 1) * (2 : ℚ) ^ ((lb : ℤ) + 1) :=
          mul_le_mul_of_nonneg_left (le_of_lt B2) (by positivity)
      _ = (2 : ℚ) ^ (la : ℤ) := by
        rw [← zpow_add₀ (ne_of_gt two)]; congr 1; ring
      _ ≤ (x.num.natAbs : ℚ) := A1
  rw [binade]
  by_cases h : pow2 ((la : ℤ) - (lb : ℤ)) ≤ |x|
  · rw [if_pos h]
    rw [pow2_eq] at h
    exact ⟨h, up⟩
  · rw [if_neg h]
    rw [pow2_eq] at h
    refine ⟨lo, ?_⟩
    rw [show (la : ℤ) - lb - 1 + 1 = (la : ℤ) - lb by ring]
    exact lt_of_not_le h


theorem round_half_even_cases (t : ℚ) :
    (round_half_even t = ⌊t⌋ ∧ t - ⌊t⌋ ≤ 1 / 2) ∨
    (round_half_even t = ⌊t⌋ + 1 ∧ 1 / 2 ≤ t - ⌊t⌋) := by
  rw [round_half_even]
  by_cases h1 : t - ⌊t⌋ < 1 / 2
  · rw [if_pos h1]; exact Or.inl ⟨rfl, le_of_lt h1⟩
  · rw [if_neg h1]
    by_cases h2 : 1 / 2 < t - ⌊t⌋
    · rw [if_pos h2]; exact Or.inr ⟨rfl, le_of_lt h2⟩
    · rw [if_neg h2]
      by_cases h3 : ⌊t⌋ % 2 = 0
      · rw [if_pos h3]; exact Or.inl ⟨rfl, not_lt.mp h2⟩
      · rw [if_neg h3]; exact Or.inr ⟨rfl, not_lt.mp h1⟩

theorem le_round_half_even {t : ℚ} {n : ℤ} (h : (n : ℚ) ≤ t) : n ≤ round_half_even t := by
  have := Int.le_floor.mpr h
  rcases round_half_even_cases t with ⟨e, -⟩ | ⟨e, -⟩ <;> omega

theorem round_half_even_le {t : ℚ} {n : ℤ} (h : t ≤ (n : ℚ)) : round_half_even t ≤ n := by
  have h1 : ⌊t⌋ ≤ n := by
    have := Int.floor_le_floor h
    rwa [Int.floor_intCast] at this
  rcases round_half_even_cases t with ⟨e, -⟩ | ⟨e, hf⟩
  · omega
  · rw [e]
    by_contra hc
    have h2 : ⌊t⌋ = n := by omega
    rw [h2] at hf
    linarith

theorem round_half_even_intCast (n : ℤ) : round_half_even (n : ℚ) = n :=
  le_antisymm (round_half_even_le (le_refl _)) (le_round_half_even (le_refl _))

theorem round_half_even_mono {a b : ℚ} (h : a ≤ b) : round_half_even a ≤ round_half_even b := by
  have hf := Int.floor_le_floor h
  by_cases heq : ⌊a⌋ = ⌊b⌋
  · rw [round_half_even, round_half_even, heq]
    have hfr : a - ⌊b⌋ ≤ b - ⌊b⌋ := by linarith
    by_cases a1 : a - (⌊b⌋ : ℚ) < 1 / 2
    · rw [if_pos a1]
      split_ifs <;> omega
    · rw [if_neg a1]
      have b1 : ¬ (b - (⌊b⌋ : ℚ) < 1 / 2) := by linarith
      rw [if_neg b1]
      by_cases a2 : 1 / 2 < a - (⌊b⌋ : ℚ)
      · have b2 : 1 / 2 < b - (⌊b⌋ : ℚ) := by linarith
        rw [if_pos a2, if_pos b2]
      · rw [if_neg a2]
        split_ifs <;> omega
  · have hlt : ⌊a⌋ + 1 ≤ ⌊b⌋ := by omega
    have h1 : round_half_even a ≤ ⌊a⌋ + 1 := by
      rcases round_half_even_cases a with ⟨e, -⟩ | ⟨e, -⟩ <;> omega
    have h2 : ⌊b⌋ ≤ round_half_even b := by
      rcases round_half_even_cases b with ⟨e, -⟩ | ⟨e, -⟩ <;> omega
    omega


theorem two_pow_cast53 : (((2 : ℤ) ^ 53 : ℤ) : ℚ) = (2 : ℚ) ^ (53 : ℤ) := by norm_num

theorem two_pow_cast52 : (((2 : ℤ) ^ 52 : ℤ) : ℚ) = (2 : ℚ) ^ (52 : ℤ) := by norm_num

theorem double_ulp_eq (x : ℚ) : double_ulp x = (2 : ℚ) ^ (max (binade x) (-1022) - 52) := by
  rw [double_ulp, pow2_eq]

theorem double_ulp_pos (x : ℚ) : 0 < double_ulp x := pow2_pos _

theorem double_nearest_nonneg {x : ℚ} (h : 0 ≤ x) : 0 ≤ double_nearest x := by
  rw [double_nearest]
  by_cases h0 : x = 0
  · rw [if_pos h0]
  · rw [if_neg h0]
    have hu := double_ulp_pos x
    have : (0 : ℤ) ≤ round_half_even (x / double_ulp x) :=
      le_round_half_even (by simpa using div_nonneg h (le_of_lt hu))
    have : (0 : ℚ) ≤ (round_half_even (x / double_ulp x) : ℚ) := by exact_mod_cast this
    positivity

theorem binade_mono {x y : ℚ} (hx : 0 < x) (h : x ≤ y) : binade x ≤ binade y := by
  have hy : 0 < y := lt_of_lt_of_le hx h
  obtain ⟨a1, -⟩ := binade_spec x (ne_of_gt hx)
  obtain ⟨-, b2⟩ := binade_spec y (ne_of_gt hy)
  rw [abs_of_pos hx] at a1
  rw [abs_of_pos hy] at b2
  have : (2 : ℚ) ^ binade x < (2 : ℚ) ^ (binade y + 1) := lt_of_le_of_lt (le_trans a1 h) b2
  have := (zpow_lt_zpow_iff_right₀ (by norm_num : (1 : ℚ) < 2)).mp this
  omega

theorem double_nearest_mono {x y : ℚ} (hx : 0 ≤ x) (h : x ≤ y) :
    double_nearest x ≤ double_nearest y := by
  by_cases h0 : x = 0
  · subst h0
    have : double_nearest 0 = 0 := by simp [double_nearest]
    rw [this]; exact double_nearest_nonneg h
  · have hxp : 0 < x := lt_of_le_of_ne hx (Ne.symm h0)
    have hyp : 0 < y := lt_of_lt_of_le hxp h
    have hy0 : y ≠ 0 := ne_of_gt hyp
    have hb := binade_mono hxp h
    rw [double_nearest, double_nearest, if_neg h0, if_neg hy0, double_ulp_eq, double_ulp_eq]
    have two : (0 : ℚ) < 2 := by norm_num
    have two0 : (2 : ℚ) ≠ 0 := by norm_num
    by_cases he : max (binade x) (-1022) = max (binade y) (-1022)
    · rw [he]
      have hu : (0 : ℚ) < (2 : ℚ) ^ (max (binade y) (-1022) - 52) := by positivity
      have := round_half_even_mono (div_le_div_of_nonneg_right h (le_of_lt hu))
      have : (round_half_even (x / (2 : ℚ) ^ (max (binade y) (-1022) - 52)) : ℚ) ≤
          (round_half_even (y / (2 : ℚ) ^ (max (binade y) (-1022) - 52)) : ℚ) := by
        exact_mod_cast this
      exact mul_le_mul_of_nonneg_right this (le_of_lt hu)
    · have hlt : max (binade x) (-1022) < max (binade y) (-1022) := by omega
      have hEy : max (binade y) (-1022) = binade y := by omega
      obtain ⟨-, a2⟩ := binade_spec x h0
      obtain ⟨b1, -⟩ := binade_spec y hy0
      rw [abs_of_pos hxp] at a2
      rw [abs_of_pos hyp] at b1
      set Ex := max (binade x) (-1022)
      rw [hEy]
      have hux : (0 : ℚ) < (2 : ℚ) ^ (Ex - 52) := by positivity
      have huy : (0 : ℚ) < (2 : ℚ) ^ (binade y - 52) := by positivity
      -- x / ux ≤ 2^53
      have c1 : x / (2 : ℚ) ^ (Ex - 52) ≤ (((2 : ℤ) ^ 53 : ℤ) : ℚ) := by
        rw [div_le_iff₀ hux]
        have : x ≤ (2 : ℚ) ^ (Ex + 1) :=
          le_trans (le_of_lt a2) (zpow_le_zpow_right₀ (by norm_num) (by omega))
        calc x ≤ (2 : ℚ) ^ (Ex + 1) := this
          _ = (((2 : ℤ) ^ 53 : ℤ) : ℚ) * (2 : ℚ) ^ (Ex - 52) := by
            rw [two_pow_cast53, ← zpow_add₀ two0]; congr 1; ring
      have c2 : (((2 : ℤ) ^ 52 : ℤ) : ℚ) ≤ y / (2 : ℚ) ^ (binade y - 52) := by
        rw [le_div_iff₀ huy]
        calc (((2 : ℤ) ^ 52 : ℤ) : ℚ) * (2 : ℚ) ^ (binade y - 52) = (2 : ℚ) ^ binade y := by
              rw [two_pow_cast52, ← zpow_add₀ two0]; congr 1; ring
          _ ≤ y := b1
      have d1 : (round_half_even (x / (2 : ℚ) ^ (Ex - 52)) : ℚ) ≤ (((2 : ℤ) ^ 53 : ℤ) : ℚ) := by
        exact_mod_cast round_half_even_le c1
      have d2 : (((2 : ℤ) ^ 52 : ℤ) : ℚ) ≤ (round_half_even (y / (2 : ℚ) ^ (binade y - 52)) : ℚ) := by
        exact_mod_cast le_round_half_even c2
      calc (round_half_even (x / (2 : ℚ) ^ (Ex - 52)) : ℚ) * (2 : ℚ) ^ (Ex - 52)
          ≤ (((2 : ℤ) ^ 53 : ℤ) : ℚ) * (2 : ℚ) ^ (Ex - 52) :=
            mul_le_mul_of_nonneg_right d1 (le_of_lt hux)
        _ = (2 : ℚ) ^ (Ex + 1) := by
            rw [two_pow_cast53, ← zpow_add₀ two0]; congr 1; ring
        _ ≤ (2 : ℚ) ^ binade y := zpow_le_zpow_right₀ (by norm_num) (by omega)
        _ = (((2 : ℤ) ^ 52 : ℤ) : ℚ) * (2 : ℚ) ^ (binade y - 52) := by
            rw [two_pow_cast52, ← zpow_add₀ two0]; congr 1; ring
        _ ≤ (round_half_even (y / (2 : ℚ) ^ (binade y - 52)) : ℚ) * (2 : ℚ) ^ (binade y - 52) :=
            mul_le_mul_of_nonneg_right d2 (le_of_lt huy)

/-- A positive multiple `m * 2 ^ j` of a power of two with `m < 2 ^ 53` and `j ≥ -1074`
is a `double`. -/
theorem double_nearest_exact (m : ℕ) (j : ℤ) (hm0 : 0 < m) (hm : m < 2 ^ 53) (hj : -1074 ≤ j) :
    double_nearest ((m : ℚ) * (2 : ℚ) ^ j) = (m : ℚ) * (2 : ℚ) ^ j := by
  have two : (0 : ℚ) < 2 := by norm_num
  have two0 : (2 : ℚ) ≠ 0 := by norm_num
  have hmq : (0 : ℚ) < (m : ℚ) := by exact_mod_cast hm0
  have hx : (0 : ℚ) < (m : ℚ) * (2 : ℚ) ^ j := by positivity
  have hx0 := ne_of_gt hx
  obtain ⟨a1, -⟩ := binade_spec _ hx0
  rw [abs_of_pos hx] at a1
  have hlt : (m : ℚ) * (2 : ℚ) ^ j < (2 : ℚ) ^ (j + 53) := by
    have : (m : ℚ) < (2 : ℚ) ^ (53 : ℤ) := by
      rw [show ((53 : ℤ)) = ((53 : ℕ) : ℤ) by rfl, zpow_natCast]; exact_mod_cast hm
    calc (m : ℚ) * (2 : ℚ) ^ j < (2 : ℚ) ^ (53 : ℤ) * (2 : ℚ) ^ j :=
          mul_lt_mul_of_pos_right this (by positivity)
      _ = (2 : ℚ) ^ (j + 53) := by rw [← zpow_add₀ two0]; congr 1; ring
  have hb : binade ((m : ℚ) * (2 : ℚ) ^ j) < j + 53 :=
    (zpow_lt_zpow_iff_right₀ (by norm_num : (1 : ℚ) < 2)).mp (lt_of_le_of_lt a1 hlt)
  rw [double_nearest, if_neg hx0, double_ulp_eq]
  set E := max (binade ((m : ℚ) * (2 : ℚ) ^ j)) (-1022)
  have hE : E - 52 ≤ j := by omega
  obtain ⟨d, hd⟩ : ∃ d : ℕ, j = E - 52 + d := ⟨(j - (E - 52)).toNat, by omega⟩
  have hdiv : (m : ℚ) * (2 : ℚ) ^ j / (2 : ℚ) ^ (E - 52) = (((m * 2 ^ d : ℕ) : ℤ) : ℚ) := by
    rw [hd, zpow_add₀ two0, zpow_natCast]
    field_simp
    ring
  rw [hdiv, round_half_even_intCast]
  rw [← hdiv]
  field_simp

/-- An unsigned integer below `2 ^ 53` is a `double`. -/
theorem double_nearest_natCast (n : Nat) (h : n < 2 ^ 53) : double_nearest (n : ℚ) = n := by
  by_cases h0 : n = 0
  · subst h0; simp [double_nearest]
  · have := double_nearest_exact n 0 (Nat.pos_of_ne_zero h0) h (by norm_num)
    simpa using this

theorem double_round_natCast (n : Nat) (h : n < 2 ^ 53) : double_round (n : ℚ) = some (n : ℚ) := by
  have hlt : |(n : ℚ)| < ((2 ^ 1024 : ℕ) : ℚ) := by
    rw [abs_of_nonneg (Nat.cast_nonneg n)]
    have : n < 2 ^ 1024 := lt_of_lt_of_le h (Nat.pow_le_pow_right (by decide) (by decide))
    exact_mod_cast this
  rw [double_round, double_nearest_natCast n h, if_pos hlt]

/-! ## The readiness gate and `mark_done` -/

theorem all_ready_eq_false {bits : List Bool} : all_ready bits = false ↔ false ∈ bits := by
  induction bits with
  | nil => simp [all_ready]
  | cons b bs ih =>
    cases b <;> simp_all [all_ready]

theorem count_post_upstream_range (n i : Nat) (m : Message) :
    ((List.range n).map (fun j => Event.post_upstream j m)).count (Event.post_upstream i m) =
      if i < n then 1 else 0 := by
  induction n with
  | zero => simp
  | succ n ih =>
    rw [List.range_succ, List.map_append, List.count_append, ih]
    by_cases h : i < n
    · have h1 : n ≠ i := by omega
      have h2 : i < n + 1 := by omega
      simp [h, h1, h2, List.count_cons]
    · by_cases h2 : i = n
      · subst h2; simp [List.count_cons]
      · have : n ≠ i := fun e => h2 e.symm
        have h3 : ¬ i < n + 1 := by omega
        simp [h, h3, this, List.count_cons]

theorem count_post_downstream_range (n i : Nat) (m : Message) :
    ((List.range n).map (fun j => Event.post_downstream j m)).count (Event.post_downstream i m) =
      if i < n then 1 else 0 := by
  induction n with
  | zero => simp
  | succ n ih =>
    rw [List.range_succ, List.map_append, List.count_append, ih]
    by_cases h : i < n
    · have h1 : n ≠ i := by omega
      have h2 : i < n + 1 := by omega
      simp [h, h1, h2, List.count_cons]
    · by_cases h2 : i = n
      · subst h2; simp [List.count_cons]
      · have : n ≠ i := fun e => h2 e.symm
        have h3 : ¬ i < n + 1 := by omega
        simp [h, h3, this, List.count_cons]

theorem count_up_in_down (n i : Nat) (m m' : Message) :
    ((List.range n).map (fun j => Event.post_downstream j m)).count (Event.post_upstream i m') = 0 := by
  rw [List.count_eq_zero]
  simp

theorem count_down_in_up (n i : Nat) (m m' : Message) :
    ((List.range n).map (fun j => Event.post_upstream j m)).count (Event.post_downstream i m') = 0 := by
  rw [List.count_eq_zero]
  simp

theorem mem_check_tokens_posts {ti : TaskInterface} {e : Event} :
    e ∈ check_tokens_posts ti ↔
      (∃ i, i < ti.num_inputs ∧ e = Event.post_upstream i Message.CheckTokensMessage) ∨
      (∃ i, i < ti.num_outputs ∧ e = Event.post_downstream i Message.CheckTokensMessage) := by
  simp only [check_tokens_posts, List.mem_append, List.mem_map, List.mem_range]
  constructor
  · rintro (⟨i, hi, rfl⟩ | ⟨i, hi, rfl⟩)
    · exact Or.inl ⟨i, hi, rfl⟩
    · exact Or.inr ⟨i, hi, rfl⟩
  · rintro (⟨i, hi, rfl⟩ | ⟨i, hi, rfl⟩)
    · exact Or.inl ⟨i, hi, rfl⟩
    · exact Or.inr ⟨i, hi, rfl⟩

theorem mark_done_of_done {ti : TaskInterface} {s : ElementImpl} (h : s.done = true) :
    mark_done ti s = s := by
  simp [mark_done, h]

theorem handle_task_of_inactive (k : WorkSentinels) (srt : TagSort) (work : ElementImpl → WorkOut)
    (ti : TaskInterface) {s : ElementImpl} (h : s.active = false) :
    handle_task k srt work ti s = some s := by
  simp [handle_task, h]

theorem run_calls_of_done_inactive (k : WorkSentinels) (srt : TagSort) (ti : TaskInterface)
    (calls : List Call) {s : ElementImpl} (hd : s.done = true) (ha : s.active = false) :
    run_calls k srt ti calls s = some s := by
  induction calls with
  | nil => rfl
  | cons c rest ih =>
    cases c with
    | mark_done => rw [run_calls, mark_done_of_done hd, ih]
    | handle_task work => rw [run_calls, handle_task_of_inactive k srt work ti ha]; exact ih

/-- C1. In a block state where `active` is false, or some bit of `inputs_ready` is clear,
or some bit of `outputs_ready` is clear, `handle_task` returns the state it was given:
every field is unchanged, and the log of posts and `Work` calls among them, so nothing
was posted and `Work` was not invoked. A block with no input port has an empty
`inputs_ready`, which the gate counts as all inputs ready. -/
theorem handle_task_not_ready (k : WorkSentinels) (srt : TagSort) (work : ElementImpl → WorkOut)
    (ti : TaskInterface) (s : ElementImpl)
    (h : s.active = false ∨ false ∈ s.inputs_ready ∨ false ∈ s.outputs_ready) :
    handle_task k srt work ti s = some s ∧ all_ready ([] : List Bool) = true := by
  refine ⟨?_, rfl⟩
  have h2 : ¬ (s.active = true ∧ all_ready s.inputs_ready = true ∧
      all_ready s.outputs_ready = true) := by
    rintro ⟨ha, hi, ho⟩
    rcases h with h | h | h
    · rw [ha] at h; exact Bool.noConfusion h
    · rw [← all_ready_eq_false, hi] at h; exact Bool.noConfusion h
    · rw [← all_ready_eq_false, ho] at h; exact Bool.noConfusion h
  rw [handle_task, if_pos h2]

/-- C2. From a block state with `done == false`, `mark_done` sets `done` and clears
`active`, leaves the token pool, the output buffer tokens and both queue vectors empty,
and appends to the log exactly one `CheckTokensMessage` upstream for each input port
below `num_inputs`, exactly one downstream for each output port below `num_outputs`, and
nothing else. -/
theorem mark_done_effect (ti : TaskInterface) (s : ElementImpl) (h : s.done = false) :
    (mark_done ti s).done = true ∧ (mark_done ti s).active = false ∧
    (mark_done ti s).token_pool = [] ∧ (mark_done ti s).output_buffer_tokens = [] ∧
    (mark_done ti s).input_queues = [] ∧ (mark_done ti s).output_queues = [] ∧
    ∃ posts : List Event, (mark_done ti s).log = s.log ++ posts ∧
      (∀ i, i < ti.num_inputs →
        posts.count (Event.post_upstream i Message.CheckTokensMessage) = 1) ∧
      (∀ i, i < ti.num_outputs →
        posts.count (Event.post_downstream i Message.CheckTokensMessage) = 1) ∧
      (∀ e, e ∈ posts →
        (∃ i, i < ti.num_inputs ∧ e = Event.post_upstream i Message.CheckTokensMessage) ∨
        (∃ i, i < ti.num_outputs ∧ e = Event.post_downstream i Message.CheckTokensMessage)) ∧
      posts.length = ti.num_inputs + ti.num_outputs := by
  simp only [mark_done, h, Bool.false_eq_true, if_false, true_and]
  refine ⟨check_tokens_posts ti, rfl, ?_, ?_, ?_, ?_⟩
  · intro i hi
    rw [check_tokens_posts, List.count_append, count_post_upstream_range, count_up_in_down,
      if_pos hi]
  · intro i hi
    rw [check_tokens_posts, List.count_append, count_post_downstream_range, count_down_in_up,
      if_pos hi]
  · intro e he
    exact mem_check_tokens_posts.mp he
  · simp [check_tokens_posts]

/-- C3. Done is absorbing. Take a block state that is not done, or is done the way
`mark_done` leaves a block (inactive, pools and queues empty), and call `mark_done`. From
the state this gives, every finite sequence of `mark_done` and `handle_task` calls, with
any user `Work`, returns that very state: `done` stays true, the token pools and queue
vectors stay empty, and the log is the same, so no message was posted. In particular a
second `mark_done` changes nothing and posts nothing. -/
theorem done_absorbing (k : WorkSentinels) (srt : TagSort) (ti : TaskInterface) (s : ElementImpl)
    (calls : List Call) (h : DoneReleased s) :
    run_calls k srt ti calls (mark_done ti s) = some (mark_done ti s) ∧
    (mark_done ti s).done = true ∧
    (mark_done ti s).token_pool = [] ∧ (mark_done ti s).output_buffer_tokens = [] ∧
    (mark_done ti s).input_queues = [] ∧ (mark_done ti s).output_queues = [] ∧
    mark_done ti (mark_done ti s) = mark_done ti s := by
  have key : (mark_done ti s).done = true ∧ (mark_done ti s).active = false ∧
      (mark_done ti s).token_pool = [] ∧ (mark_done ti s).output_buffer_tokens = [] ∧
      (mark_done ti s).input_queues = [] ∧ (mark_done ti s).output_queues = [] := by
    cases hd : s.done with
    | false => simp [mark_done, hd]
    | true =>
      rw [mark_done_of_done hd]
      exact ⟨hd, h hd⟩
  obtain ⟨h1, h2, h3, h4, h5, h6⟩ := key
  exact ⟨run_calls_of_done_inactive k srt ti calls h1 h2, h1, h3, h4, h5, h6, mark_done_of_done h1⟩

/-! ## The loops of `handle_task` -/

theorem forLoop_total {σ : Type} (body : Nat → σ → Option σ) (P : Nat → σ → Prop) :
    ∀ (n i : Nat) (s : σ), P i s →
      (∀ j t, i ≤ j → j < i + n → P j t → ∃ t', body j t = some t' ∧ P (j + 1) t') →
      ∃ t', forLoop body n i s = some t' ∧ P (i + n) t' := by
  intro n
  induction n with
  | zero => intro i s h0 _; exact ⟨s, rfl, h0⟩
  | succ n ih =>
    intro i s h0 hstep
    obtain ⟨t, ht, hP⟩ := hstep i s (le_refl _) (by omega) h0
    obtain ⟨t', ht', hP'⟩ :=
      ih (i + 1) t hP (fun j u h1 h2 hu => hstep j u (by omega) (by omega) hu)
    refine ⟨t', ?_, ?_⟩
    · simp [forLoop, ht, ht']
    · have : i + (n + 1) = i + 1 + n := by omega
      rw [this]; exact hP'

theorem vset_eq_some {α : Type} {xs : List α} {i : Nat} (v : α) (h : i < xs.length) :
    vset xs i v = some (xs.set i v) := by
  simp [vset, h]

theorem sort_loop_total (srt : TagSort) (ti : TaskInterface) (s : ElementImpl)
    (wf : WellFormed ti s) :
    ∃ t, forLoop (sort_input_tags srt) ti.num_inputs 0 s = some t ∧
      SortedUpTo srt s ti.num_inputs t := by
  have := forLoop_total (sort_input_tags srt) (SortedUpTo srt s) ti.num_inputs 0 s
    ⟨rfl, rfl, rfl, fun p => by simp, fun p => by simp⟩ ?_
  · simpa using this
  intro j t _ hj inv
  have hj1 : j < t.input_tags_changed.length := by rw [inv.changed_length, wf.input_tags_changed]; omega
  have hj2 : j < t.input_tags.length := by rw [inv.tags_length, wf.input_tags]; omega
  have hc := inv.changed j
  have ht := inv.tags j
  simp only [lt_irrefl, if_false] at hc ht
  obtain ⟨c, hcj⟩ : ∃ c, t.input_tags_changed[j]? = some c := ⟨_, List.getElem?_eq_getElem hj1⟩
  obtain ⟨tg, htj⟩ : ∃ tg, t.input_tags[j]? = some tg := ⟨_, List.getElem?_eq_getElem hj2⟩
  cases c with
  | false =>
    refine ⟨t, by simp [sort_input_tags, hcj], inv.frame, inv.tags_length, inv.changed_length, ?_, ?_⟩
    · intro p
      rcases Nat.lt_trichotomy p j with h | h | h
      · have := inv.tags p; simp [h, Nat.lt_succ_of_lt h] at this ⊢; exact this
      · subst h; rw [← hc] at *; rw [← ht]; simp [hcj, htj]
      · have := inv.tags p
        have h1 : ¬ p < j := by omega
        have h2 : ¬ p < j + 1 := by omega
        simp [h1, h2] at this ⊢; exact this
    · intro p
      rcases Nat.lt_trichotomy p j with h | h | h
      · have := inv.changed p; simp [h, Nat.lt_succ_of_lt h] at this ⊢; exact this
      · subst h; rw [← hc]; simp [hcj]
      · have := inv.changed p
        have h1 : ¬ p < j := by omega
        have h2 : ¬ p < j + 1 := by omega
        simp [h1, h2] at this ⊢; exact this
  | true =>
    refine ⟨_, by simp [sort_input_tags, hcj, htj]; rfl, ?_, ?_, ?_, ?_, ?_⟩
    · conv_lhs => rw [inv.frame]
    · simp [inv.tags_length]
    · simp [inv.changed_length]
    · intro p
      rcases Nat.lt_trichotomy p j with h | h | h
      · have := inv.tags p
        have h' : j ≠ p := by omega
        simp [h, Nat.lt_succ_of_lt h, List.getElem?_set_ne h'] at this ⊢; exact this
      · subst h; rw [← hc, ← ht]; simp [hcj, htj, hj2]
      · have := inv.tags p
        have h1 : ¬ p < j := by omega
        have h2 : ¬ p < j + 1 := by omega
        have h' : j ≠ p := by omega
        simp [h1, h2, List.getElem?_set_ne h'] at this ⊢; exact this
    · intro p
      rcases Nat.lt_trichotomy p j with h | h | h
      · have := inv.changed p
        have h' : j ≠ p := by omega
        simp [h, Nat.lt_succ_of_lt h, List.getElem?_set_ne h'] at this ⊢; exact this
      · subst h; rw [← hc]; simp [hcj, hj1]
      · have := inv.changed p
        have h1 : ¬ p < j := by omega
        have h2 : ¬ p < j + 1 := by omega
        have h' : j ≠ p := by omega
        simp [h1, h2, List.getElem?_set_ne h'] at this ⊢; exact this

theorem getElem?_some_of_lt {α : Type} (xs : List α) (i : Nat) (h : i < xs.length) :
    ∃ x, xs[i]? = some x ∧ x ∈ xs :=
  ⟨xs[i], List.getElem?_eq_getElem h, List.getElem_mem h⟩

theorem tokens_count_take_succ {tokens : List Nat} {j c : Nat} (h : tokens[j]? = some c) :
    size_add (tokens_count (tokens.take j)) c = tokens_count (tokens.take (j + 1)) := by
  obtain ⟨hj, rfl⟩ := List.getElem?_eq_some.mp h
  simp [size_add, tokens_count, List.sum_take_succ tokens j hj, Nat.add_mod]

theorem prepare_input_total (ti : TaskInterface) (s : ElementImpl) (wf : WellFormed ti s) :
    ∃ p, forLoop prepare_input ti.num_inputs 0 (s, 0) = some p ∧
      InputsPreparedUpTo s ti.num_inputs p := by
  have := forLoop_total prepare_input (InputsPreparedUpTo s) ti.num_inputs 0 (s, 0)
    ⟨rfl, rfl, rfl, rfl, by simp [tokens_count]⟩ ?_
  · simpa using this
  rintro j ⟨t, c⟩ _ hj inv
  have hf := inv.frame
  simp only at hf
  obtain ⟨u, hu, -⟩ := getElem?_some_of_lt s.input_tokens j
    (by rw [wf.input_tokens]; omega)
  obtain ⟨h, hh, hh0⟩ := getElem?_some_of_lt s.input_history_items j
    (by rw [wf.input_history_items]; omega)
  obtain ⟨q, hq, hq0⟩ := getElem?_some_of_lt s.input_queues j
    (by rw [wf.input_queues]; omega)
  obtain ⟨o, ho, -⟩ := getElem?_some_of_lt s.input_buff_offsets j
    (by rw [wf.input_buff_offsets]; omega)
  obtain ⟨z, hz, hz0⟩ := getElem?_some_of_lt s.input_items_sizes j
    (by rw [wf.input_items_sizes]; omega)
  have hh1 := wf.no_history h hh0
  have hz1 := wf.input_sizes_pos z hz0
  obtain ⟨b, bs, rfl⟩ := List.exists_cons_of_ne_nil (wf.input_fronts q hq0)
  have e1 : t.input_tokens = s.input_tokens := by rw [hf]
  have e2 : t.input_history_items = s.input_history_items := by rw [hf]
  have e3 : t.input_queues = s.input_queues := by rw [hf]
  have e4 : t.input_buff_offsets = s.input_buff_offsets := by rw [hf]
  have e5 : t.input_items_sizes = s.input_items_sizes := by rw [hf]
  have l1 : j < t.input_items.length := by rw [inv.input_items, wf.input_items]; omega
  have l2 : j < t.work_input_items.length := by
    rw [inv.work_input_items, wf.work_input_items]; omega
  have l3 : j < t.work_ninput_items.length := by
    rw [inv.work_ninput_items, wf.work_ninput_items]; omega
  have hc : c = tokens_count (s.input_tokens.take j) := inv.count
  refine ⟨_, by simp [prepare_input, e1, e2, e3, e4, e5, hu, hh, hh1, hq, ho, hz, hz1,
    vset_eq_some, l1, l2, l3]; rfl, ?_, ?_, ?_, ?_, ?_⟩
  · simp only; conv_lhs => rw [hf]
  · simp [inv.input_items]
  · simp [inv.work_input_items]
  · simp [inv.work_ninput_items]
  · simp only; rw [hc]; exact tokens_count_take_succ hu

theorem wf_of_sorted {srt : TagSort} {ti : TaskInterface} {s t : ElementImpl} {j : Nat}
    (wf : WellFormed ti s) (inv : SortedUpTo srt s j t) : WellFormed ti t := by
  have hf := inv.frame
  have h1 := inv.tags_length
  have h2 := inv.changed_length
  cases wf
  constructor <;> first
    | (rw [hf]; assumption)
    | (rw [h1]; assumption)
    | (rw [h2]; assumption)

theorem prepare_output_total (ti : TaskInterface) (s : ElementImpl) (wf : WellFormed ti s) :
    ∃ p, forLoop prepare_output ti.num_outputs 0 (s, 0) = some p ∧
      OutputsPreparedUpTo s ti.num_outputs p := by
  have := forLoop_total prepare_output (OutputsPreparedUpTo s) ti.num_outputs 0 (s, 0)
    ⟨rfl, rfl, rfl, by simp [tokens_count]⟩ ?_
  · simpa using this
  rintro j ⟨t, c⟩ _ hj inv
  have hf := inv.frame
  simp only at hf
  obtain ⟨u, hu, -⟩ := getElem?_some_of_lt s.output_tokens j
    (by rw [wf.output_tokens]; omega)
  obtain ⟨q, hq, hq0⟩ := getElem?_some_of_lt s.output_queues j
    (by rw [wf.output_queues]; omega)
  obtain ⟨z, hz, hz0⟩ := getElem?_some_of_lt s.output_items_sizes j
    (by rw [wf.output_items_sizes]; omega)
  have hz1 := wf.output_sizes_pos z hz0
  obtain ⟨b, bs, rfl⟩ := List.exists_cons_of_ne_nil (wf.output_fronts q hq0)
  have e1 : t.output_tokens = s.output_tokens := by rw [hf]
  have e3 : t.output_queues = s.output_queues := by rw [hf]
  have e5 : t.output_items_sizes = s.output_items_sizes := by rw [hf]
  have l1 : j < t.output_items.length := by rw [inv.output_items, wf.output_items]; omega
  have l2 : j < t.work_output_items.length := by
    rw [inv.work_output_items, wf.work_output_items]; omega
  have hc : c = tokens_count (s.output_tokens.take j) := inv.count
  refine ⟨_, by simp [prepare_output, e1, e3, e5, hu, hq, hz, hz1, vset_eq_some, l1, l2]; rfl,
    ?_, ?_, ?_, ?_⟩
  · simp only; conv_lhs => rw [hf]
  · simp [inv.output_items]
  · simp [inv.work_output_items]
  · simp only; rw [hc]; exact tokens_count_take_succ hu

theorem wf_of_inputs_prepared {ti : TaskInterface} {s : ElementImpl} {p : ElementImpl × Nat}
    {j : Nat} (wf : WellFormed ti s) (inv : InputsPreparedUpTo s j p) : WellFormed ti p.1 := by
  have hf := inv.frame
  have h1 := inv.input_items
  have h2 := inv.work_input_items
  have h3 := inv.work_ninput_items
  cases wf
  constructor <;> first
    | (rw [hf]; assumption)
    | (rw [h1]; assumption)
    | (rw [h2]; assumption)
    | (rw [h3]; assumption)

theorem gather_total (srt : TagSort) (ti : TaskInterface) (s : ElementImpl) (wf : WellFormed ti s) :
    ∃ s3, gather srt ti s =
        some (s3, tokens_count s.input_tokens, tokens_count s.output_tokens) ∧
      Gathered srt s s3 := by
  obtain ⟨s1, h1, inv1⟩ := sort_loop_total srt ti s wf
  have wf1 := wf_of_sorted wf inv1
  obtain ⟨⟨s2, c2⟩, h2, inv2⟩ := prepare_input_total ti s1 wf1
  have wf2 := wf_of_inputs_prepared wf1 inv2
  obtain ⟨⟨s3, c3⟩, h3, inv3⟩ := prepare_output_total ti s2 wf2
  have f1 := inv1.frame
  have f2 := inv2.frame
  have f3 := inv3.frame
  simp only at f2 f3
  have hc2 : c2 = tokens_count s.input_tokens := by
    have := inv2.count
    simp only at this
    rw [this, f1]
    simp only
    rw [← wf.input_tokens, List.take_length]
  have hc3 : c3 = tokens_count s.output_tokens := by
    have := inv3.count
    simp only at this
    rw [this, f2, f1]
    simp only
    rw [← wf.output_tokens, List.take_length]
  refine ⟨s3, by simp [gather, h1, h2, h3, hc2, hc3], ?_, ?_, ?_, ?_, ?_, ?_, ?_, ?_, ?_, ?_⟩
  · conv_lhs => rw [f3, f2, f1]
    rw [f3, f2]
  · rw [f3, f2]; exact inv1.tags_length
  · rw [f3, f2]; exact inv1.changed_length
  · rw [f3]; simp only; rw [inv2.input_items, f1]
  · rw [f3]; simp only; rw [inv2.work_input_items, f1]
  · rw [f3]; simp only; rw [inv2.work_ninput_items, f1]
  · rw [inv3.output_items, f2, f1]
  · rw [inv3.work_output_items, f2, f1]
  · intro p
    have := inv1.tags p
    rw [f3, f2]; simp only
    rw [this]
    by_cases hp : p < ti.num_inputs
    · simp [hp]
    · have : s.input_tags[p]? = none := by
        rw [List.getElem?_eq_none_iff, wf.input_tags]; omega
      simp [hp, this]
  · intro p
    have := inv1.changed p
    rw [f3, f2]; simp only
    rw [this]
    by_cases hp : p < ti.num_inputs
    · simp [hp]
    · have : s.input_tags_changed[p]? = none := by
        rw [List.getElem?_eq_none_iff, wf.input_tags_changed]; omega
      simp [hp, this]

theorem wf_of_gathered {srt : TagSort} {ti : TaskInterface} {s s3 : ElementImpl}
    (wf : WellFormed ti s) (g : Gathered srt s s3) : WellFormed ti s3 := by
  have hf := g.frame
  have h1 := g.input_tags_length
  have h2 := g.input_tags_changed_length
  have h3 := g.input_items
  have h4 := g.work_input_items
  have h5 := g.work_ninput_items
  have h6 := g.output_items
  have h7 := g.work_output_items
  cases wf
  constructor <;> first
    | (rw [hf]; assumption)
    | (rw [h1]; assumption)
    | (rw [h2]; assumption)
    | (rw [h3]; assumption)
    | (rw [h4]; assumption)
    | (rw [h5]; assumption)
    | (rw [h6]; assumption)
    | (rw [h7]; assumption)

theorem forLoop_preserves {σ : Type} (body : Nat → σ → Option σ) (P : σ → Prop)
    (hstep : ∀ j t t', P t → body j t = some t' → P t') :
    ∀ (n i : Nat) (s s' : σ), P s → forLoop body n i s = some s' → P s' := by
  intro n
  induction n with
  | zero => intro i s s' h0 h; simp [forLoop] at h; rw [← h]; exact h0
  | succ n ih =>
    intro i s s' h0 h
    simp only [forLoop, Option.bind_eq_some] at h
    obtain ⟨t, ht, h'⟩ := h
    exact ih (i + 1) t s' (hstep i s t h0 ht) h'

theorem Accounted.refl (s : ElementImpl) : Accounted s s := ⟨rfl, [], by simp⟩

theorem account_input_accounted (k : WorkSentinels) (ret : Int) (s : ElementImpl)
    (j : Nat) (t t' : ElementImpl) (h : Accounted s t) (e : account_input k ret j t = some t') :
    Accounted s t' := by
  have hf := h.frame
  obtain ⟨l, hl⟩ := h.log
  simp only [account_input, bind, pure] at e
  by_cases c : ¬(t.enable_fixed_rate = true ∨ ret ≠ k.WORK_CALLED_PRODUCE)
  · rw [if_pos c] at e; exact Option.noConfusion e
  rw [if_neg c] at e
  simp only [Option.bind_eq_some] at e
  obtain ⟨a, -, a1, -, a2, -, a3, -, a4, -, a5, -, a6, -, a7, -, a8, -, e⟩ := e
  by_cases c2 : a8.length ≥ size_add a5 (size_mul a a4)
  · rw [if_pos c2] at e
    simp only [Option.bind_eq_some, Option.some.injEq] at e
    obtain ⟨_, _, rfl⟩ := e
    exact ⟨by simp only; conv_lhs => rw [hf], l, hl⟩
  · rw [if_neg c2] at e
    simp only [Option.some.injEq] at e
    subst e
    exact ⟨by simp only; conv_lhs => rw [hf], l, hl⟩

theorem account_output_accounted (k : WorkSentinels) (ret : Int) (s : ElementImpl)
    (j : Nat) (t t' : ElementImpl) (h : Accounted s t)
    (e : account_output k ret j t = some t') : Accounted s t' := by
  have hf := h.frame
  obtain ⟨l, hl⟩ := h.log
  simp only [account_output, bind, pure, Option.bind_eq_some, Option.some.injEq] at e
  obtain ⟨a, -, a1, -, a2, -, a3, -, a4, -, a5, -, a6, -, a7, -, rfl⟩ := e
  exact ⟨by simp only; conv_lhs => rw [hf], _, by simp only; rw [hl, List.append_assoc]⟩

theorem trim_input_tags_accounted (ti : TaskInterface) (s : ElementImpl)
    (j : Nat) (t t' : ElementImpl) (h : Accounted s t)
    (e : trim_input_tags ti j t = some t') : Accounted s t' := by
  have hf := h.frame
  obtain ⟨l, hl⟩ := h.log
  simp only [trim_input_tags, bind, pure, Option.bind_eq_some, Option.some.injEq] at e
  obtain ⟨a, -, a1, -, a2, -, rfl⟩ := e
  exact ⟨by simp only; conv_lhs => rw [hf], _, by simp only; rw [hl, List.append_assoc]⟩

theorem flush_output_tags_accounted (s : ElementImpl)
    (j : Nat) (t t' : ElementImpl) (h : Accounted s t)
    (e : flush_output_tags j t = some t') : Accounted s t' := by
  have hf := h.frame
  obtain ⟨l, hl⟩ := h.log
  simp only [flush_output_tags, bind, pure, Option.bind_eq_some, Option.some.injEq] at e
  obtain ⟨a, -, rfl⟩ := e
  exact ⟨by simp only; conv_lhs => rw [hf], _, by simp only; rw [hl, List.append_assoc]⟩

theorem account_accounted (k : WorkSentinels) (ti : TaskInterface) (ret : Int)
    (s t : ElementImpl) (e : account k ti ret s = some t) : Accounted s t := by
  simp only [account, bind, Option.bind_eq_some] at e
  obtain ⟨s1, e1, s2, e2, s3, e3, e4⟩ := e
  have h1 := forLoop_preserves _ (Accounted s) (account_input_accounted k ret s) _ _ _ _
    (Accounted.refl s) e1
  have h2 := forLoop_preserves _ (Accounted s) (account_output_accounted k ret s) _ _ _ _ h1 e2
  have h3 := forLoop_preserves _ (Accounted s) (trim_input_tags_accounted ti s) _ _ _ _ h2 e3
  exact forLoop_preserves _ (Accounted s) (flush_output_tags_accounted s) _ _ _ _ h3 e4

/-! ## The gate of lines 127-133 -/

theorem work_not_in_check_tokens_posts (ti : TaskInterface) :
    Event.Work ∉ check_tokens_posts ti := by
  intro h
  rcases mem_check_tokens_posts.mp h with ⟨_, _, h⟩ | ⟨_, _, h⟩ <;> exact Event.noConfusion h

theorem mark_done_log (ti : TaskInterface) (s : ElementImpl) :
    (mark_done ti s).log = s.log ++ (if s.done = true then [] else check_tokens_posts ti) := by
  by_cases h : s.done = true <;> simp [mark_done, h]

theorem sum_eq_length_iff {l : List Nat} (h : ∀ c, c ∈ l → 1 ≤ c) :
    l.sum = l.length ↔ ∀ c, c ∈ l → c = 1 := by
  have key : ∀ l : List Nat, (∀ c, c ∈ l → 1 ≤ c) →
      l.length ≤ l.sum ∧ (l.sum = l.length → ∀ c, c ∈ l → c = 1) := by
    intro l
    induction l with
    | nil => intro _; simp
    | cons a as ih =>
      intro h
      have ha := h a (List.mem_cons_self _ _)
      obtain ⟨h1, h2⟩ := ih (fun c hc => h c (List.mem_cons_of_mem _ hc))
      refine ⟨by simp only [List.sum_cons, List.length_cons]; omega, ?_⟩
      intro e c hc
      simp only [List.sum_cons, List.length_cons] at e
      rcases List.mem_cons.mp hc with rfl | hc
      · omega
      · exact h2 (by omega) c hc
  constructor
  · exact (key l h).2
  · intro h1
    have : l = List.replicate l.length 1 := List.eq_replicate_iff.mpr ⟨rfl, h1⟩
    rw [this]; simp

/-- The run of `handle_task` past the gate of lines 127-133 logs the call of `Work`,
which the exit through the gate does not. -/
theorem handle_task_gate (k : WorkSentinels) (srt : TagSort) (work : ElementImpl → WorkOut)
    (ti : TaskInterface) (s : ElementImpl) (wf : WellFormed ti s) (hr : Ready s) :
    handle_task k srt work ti s = disinterest_exit srt ti s ↔
      no_peer_interested ti (tokens_count s.input_tokens) (tokens_count s.output_tokens)
        = true := by
  obtain ⟨s3, hg, -⟩ := gather_total srt ti s wf
  have hr' : ¬¬(s.active = true ∧ all_ready s.inputs_ready = true ∧
      all_ready s.outputs_ready = true) := not_not.mpr hr
  rw [handle_task, if_neg hr', disinterest_exit, hg]
  simp only [Option.map_some']
  constructor
  · intro h
    by_contra hn
    rw [if_neg hn] at h
    have hlog : (mark_done ti s3).log =
        s3.log ++ (if s3.done = true then [] else check_tokens_posts ti) := mark_done_log ti s3
    by_cases hd : (work s3).ret = k.WORK_DONE
    · rw [if_pos hd, Option.some.injEq] at h
      have h2 := congrArg ElementImpl.log h
      rw [mark_done_log, hlog] at h2
      have h3 : (call_work work s3).log = s3.log ++ [Event.Work] := rfl
      have h4 : (call_work work s3).done = s3.done := rfl
      rw [h3, h4, List.append_assoc, List.append_cancel_left_eq] at h2
      have := congrArg List.length h2
      simp at this
    · rw [if_neg hd] at h
      obtain ⟨l, hl⟩ := (account_accounted k ti _ _ _ h).log
      have h3 : (call_work work s3).log = s3.log ++ [Event.Work] := rfl
      rw [hlog, h3, List.append_assoc, List.append_cancel_left_eq] at hl
      have hm : Event.Work ∈ (if s3.done = true then [] else check_tokens_posts ti) := by
        rw [hl]; simp
      by_cases hd2 : s3.done = true
      · simp [hd2] at hm
      · rw [if_neg hd2] at hm
        exact work_not_in_check_tokens_posts ti hm
  · intro h
    rw [if_pos h]


theorem wf_two_input_sink (tokens : List Nat) (h : tokens.length = 2) :
    WellFormed { num_inputs := 2, num_outputs := 0 } (two_input_sink tokens) := by
  constructor <;> first | rfl | exact h | (simp [two_input_sink, portless_block])

theorem ready_two_input_sink (tokens : List Nat) : Ready (two_input_sink tokens) := by
  simp [Ready, two_input_sink, portless_block, all_ready]

theorem tokens_count_eq_sum {tokens : List Nat} (h : tokens.sum < SIZE_MOD) :
    tokens_count tokens = tokens.sum := Nat.mod_eq_of_lt h

theorem no_peer_interested_iff (ti : TaskInterface) (a b : Nat) :
    no_peer_interested ti a b = true ↔
      (ti.num_inputs ≠ 0 ∧ a = ti.num_inputs) ∨ (ti.num_outputs ≠ 0 ∧ b = ti.num_outputs) := by
  simp [no_peer_interested]

/-- C4. For a ready, well-formed block whose tokens are handles the block holds, so that
every use count is at least 1, with use counts whose sums fit a `size_t`: `handle_task`
leaves through the gate of lines 127-133 if and only if `num_inputs > 0` and every input
token has use count 1, or `num_outputs > 0` and every output token has use count 1. To
leave through the gate is to return the prepared state after `mark_done`, with no call of
`Work` in the log; when the condition fails and `handle_task` returns, the log shows the
call of `Work`. -/
theorem disinterest_gate (k : WorkSentinels) (srt : TagSort) (work : ElementImpl → WorkOut)
    (ti : TaskInterface) (s : ElementImpl) (wf : WellFormed ti s) (hr : Ready s)
    (hi : ∀ c, c ∈ s.input_tokens → 1 ≤ c) (ho : ∀ c, c ∈ s.output_tokens → 1 ≤ c)
    (hsi : s.input_tokens.sum < SIZE_MOD) (hso : s.output_tokens.sum < SIZE_MOD) :
    (handle_task k srt work ti s = disinterest_exit srt ti s ↔
      (ti.num_inputs ≠ 0 ∧ ∀ c, c ∈ s.input_tokens → c = 1) ∨
      (ti.num_outputs ≠ 0 ∧ ∀ c, c ∈ s.output_tokens → c = 1)) ∧
    (∃ r posts, disinterest_exit srt ti s = some r ∧ r = mark_done ti (prepared srt ti s) ∧
      r.log = s.log ++ posts ∧ Event.Work ∉ posts) ∧
    (∀ r, handle_task k srt work ti s = some r →
      ¬ ((ti.num_inputs ≠ 0 ∧ ∀ c, c ∈ s.input_tokens → c = 1) ∨
         (ti.num_outputs ≠ 0 ∧ ∀ c, c ∈ s.output_tokens → c = 1)) →
      ∃ l, r.log = s.log ++ Event.Work :: l) := by
  have h1 := (handle_task_gate k srt work ti s wf hr).trans (no_peer_interested_iff ti _ _)
  have h2 : handle_task k srt work ti s = disinterest_exit srt ti s ↔
      (ti.num_inputs ≠ 0 ∧ ∀ c, c ∈ s.input_tokens → c = 1) ∨
      (ti.num_outputs ≠ 0 ∧ ∀ c, c ∈ s.output_tokens → c = 1) := by
    rw [h1, tokens_count_eq_sum hsi, tokens_count_eq_sum hso, ← wf.input_tokens,
      ← wf.output_tokens, sum_eq_length_iff hi, sum_eq_length_iff ho]
  obtain ⟨s3, hg, g⟩ := gather_total srt ti s wf
  have hp : prepared srt ti s = s3 := by simp [prepared, hg]
  have l3 : s3.log = s.log := by rw [g.frame]
  refine ⟨h2, ?_, ?_⟩
  · refine ⟨mark_done ti s3, if s3.done = true then [] else check_tokens_posts ti, ?_, ?_, ?_, ?_⟩
    · simp [disinterest_exit, hg]
    · rw [hp]
    · rw [mark_done_log, l3]
    · by_cases hd : s3.done = true
      · simp [hd]
      · rw [if_neg hd]; exact work_not_in_check_tokens_posts ti
  · intro r hrun hcond
    have hne : no_peer_interested ti (tokens_count s.input_tokens)
        (tokens_count s.output_tokens) ≠ true := fun hgt =>
      hcond (h2.mp ((handle_task_gate k srt work ti s wf hr).mpr hgt))
    have hr' : ¬¬(s.active = true ∧ all_ready s.inputs_ready = true ∧
        all_ready s.outputs_ready = true) := not_not.mpr hr
    rw [handle_task, if_neg hr', hg] at hrun
    simp only [if_neg hne] at hrun
    have hw : (call_work work s3).log = s.log ++ [Event.Work] := by
      rw [← l3]; rfl
    by_cases hd : (work s3).ret = k.WORK_DONE
    · rw [if_pos hd, Option.some.injEq] at hrun
      refine ⟨if (call_work work s3).done = true then [] else check_tokens_posts ti, ?_⟩
      rw [← hrun, mark_done_log, hw, List.append_assoc]
      rfl
    · rw [if_neg hd] at hrun
      obtain ⟨l, hl⟩ := (account_accounted k ti _ _ _ hrun).log
      exact ⟨l, by rw [hl, hw, List.append_assoc]; rfl⟩

theorem disinterest_gate_witness :
    WellFormed { num_inputs := 2, num_outputs := 0 } (two_input_sink [1, 1]) ∧
    Ready (two_input_sink [1, 1]) ∧
    (handle_task example_sentinels insertion_sort (work_returning 0)
        { num_inputs := 2, num_outputs := 0 } (two_input_sink [1, 1]) =
      disinterest_exit insertion_sort { num_inputs := 2, num_outputs := 0 }
        (two_input_sink [1, 1]) ↔
      ((2 : Nat) ≠ 0 ∧ ∀ c, c ∈ (two_input_sink [1, 1]).input_tokens → c = 1) ∨
      ((0 : Nat) ≠ 0 ∧ ∀ c, c ∈ (two_input_sink [1, 1]).output_tokens → c = 1)) ∧
    (handle_task example_sentinels insertion_sort (work_returning 0)
        { num_inputs := 2, num_outputs := 0 } (two_input_sink [1, 1])).map
      (fun r => (r.done, r.log)) =
      some (true, [Event.post_upstream 0 Message.CheckTokensMessage,
        Event.post_upstream 1 Message.CheckTokensMessage]) ∧
    (handle_task example_sentinels insertion_sort (work_returning 0)
        { num_inputs := 2, num_outputs := 0 } (two_input_sink [1, 2])).map
      (fun r => (r.done, r.log)) = some (false, [Event.Work]) :=
  ⟨wf_two_input_sink [1, 1] rfl, ready_two_input_sink [1, 1],
    (disinterest_gate example_sentinels insertion_sort (work_returning 0)
      { num_inputs := 2, num_outputs := 0 } (two_input_sink [1, 1])
      (wf_two_input_sink [1, 1] rfl) (ready_two_input_sink [1, 1])
      (by decide) (by decide) (by decide) (by decide)).1,
    by decide, by decide⟩

/-! ## Instances of the first three theorems -/

theorem handle_task_not_ready_witness :
    ({ source_block with outputs_ready := [false] }.active = false ∨
      false ∈ { source_block with outputs_ready := [false] }.inputs_ready ∨
      false ∈ { source_block with outputs_ready := [false] }.outputs_ready) ∧
    handle_task example_sentinels insertion_sort (work_returning 64)
      { num_inputs := 0, num_outputs := 1 } { source_block with outputs_ready := [false] } =
        some { source_block with outputs_ready := [false] } :=
  ⟨by decide, (handle_task_not_ready example_sentinels insertion_sort (work_returning 64)
    { num_inputs := 0, num_outputs := 1 } { source_block with outputs_ready := [false] }
    (by decide)).1⟩

theorem mark_done_effect_witness :
    source_block.done = false ∧
    (mark_done { num_inputs := 0, num_outputs := 1 } source_block).done = true ∧
    (mark_done { num_inputs := 0, num_outputs := 1 } source_block).output_queues = [] :=
  ⟨rfl, (mark_done_effect { num_inputs := 0, num_outputs := 1 } source_block rfl).1,
    (mark_done_effect { num_inputs := 0, num_outputs := 1 } source_block rfl).2.2.2.2.2.1⟩

theorem done_absorbing_witness :
    DoneReleased source_block ∧
    run_calls example_sentinels insertion_sort { num_inputs := 0, num_outputs := 1 }
      [Call.handle_task (work_returning 64), Call.mark_done, Call.handle_task (work_returning 64)]
      (mark_done { num_inputs := 0, num_outputs := 1 } source_block) =
        some (mark_done { num_inputs := 0, num_outputs := 1 } source_block) :=
  ⟨fun h => Bool.noConfusion h,
    (done_absorbing example_sentinels insertion_sort { num_inputs := 0, num_outputs := 1 }
      source_block
      [Call.handle_task (work_returning 64), Call.mark_done, Call.handle_task (work_returning 64)]
      (fun h => Bool.noConfusion h)).1⟩

/-! ## The accounting of lines 144-247 -/

theorem getElem?_set_of_ne {α : Type} (xs : List α) {j p : Nat} (v : α) (h : j ≠ p) :
    (xs.set j v)[p]? = xs[p]? := List.getElem?_set_ne h

theorem consume_loop_total (k : WorkSentinels) (ti : TaskInterface) (ret : Int)
    (s : ElementImpl) (wf : WellFormed ti s) (hc : CanConsume k ti ret s) :
    ∃ t, forLoop (account_input k ret) ti.num_inputs 0 s = some t ∧
      ConsumedUpTo ret s ti.num_inputs t := by
  have := forLoop_total (account_input k ret) (ConsumedUpTo ret s) ti.num_inputs 0 s
    ⟨rfl, rfl, rfl, rfl, rfl, rfl, fun _ _ => rfl, fun _ _ => rfl, fun _ _ => rfl,
      fun _ _ => rfl, fun p hp => absurd hp (Nat.not_lt_zero p)⟩ ?_
  · simpa using this
  intro j t _ hj inv
  have hf := inv.frame
  have hn : ti.num_inputs ≠ 0 := by omega
  obtain ⟨hassert, hfixed⟩ := hc hn
  have e1 : t.enable_fixed_rate = s.enable_fixed_rate := by rw [hf]
  have e2 : t.relative_rate = s.relative_rate := by rw [hf]
  have e3 : t.input_items_sizes = s.input_items_sizes := by rw [hf]
  obtain ⟨ci, hci, -⟩ := getElem?_some_of_lt s.consume_items j (by rw [wf.consume_items]; omega)
  obtain ⟨c, hcn, -⟩ := getElem?_some_of_lt s.items_consumed j (by rw [wf.items_consumed]; omega)
  obtain ⟨q, hq, hq0⟩ := getElem?_some_of_lt s.input_queues j (by rw [wf.input_queues]; omega)
  obtain ⟨o, ho, -⟩ := getElem?_some_of_lt s.input_buff_offsets j
    (by rw [wf.input_buff_offsets]; omega)
  obtain ⟨z, hz, -⟩ := getElem?_some_of_lt s.input_items_sizes j
    (by rw [wf.input_items_sizes]; omega)
  obtain ⟨b, bs, rfl⟩ := List.exists_cons_of_ne_nil (wf.input_fronts q hq0)
  have l1 : j < t.consume_items.length := by
    rw [inv.consume_items_length, wf.consume_items]; omega
  have l2 : j < t.items_consumed.length := by
    rw [inv.items_consumed_length, wf.items_consumed]; omega
  have l3 : j < t.input_buff_offsets.length := by
    rw [inv.input_buff_offsets_length, wf.input_buff_offsets]; omega
  have l4 : j < t.inputs_ready.length := by
    rw [inv.inputs_ready_length, wf.inputs_ready]; omega
  have r1 := (inv.consume_items_rest j (le_refl j)).trans hci
  have r2 := (inv.items_consumed_rest j (le_refl j)).trans hcn
  have r3 := (inv.input_queues_rest j (le_refl j)).trans hq
  have r4 := (inv.input_buff_offsets_rest j (le_refl j)).trans ho
  have hitems : items_to_consume ret j t = items_to_consume ret j s := by
    simp only [items_to_consume, e1, e2, r1, hci]
  obtain ⟨n, hn1⟩ : ∃ n, items_to_consume ret j s = some n := by
    by_cases hfr : s.enable_fixed_rate = true
    · obtain ⟨n, hn⟩ := Option.isSome_iff_exists.mp (hfixed hfr)
      exact ⟨n, by simp [items_to_consume, hfr, hn]⟩
    · exact ⟨ci, by simp [items_to_consume, hfr, hci]⟩
  have hassert' : ¬¬(t.enable_fixed_rate = true ∨ ret ≠ k.WORK_CALLED_PRODUCE) := by
    rw [e1]; exact not_not.mpr hassert
  by_cases hpop : b.length ≥ size_add o (size_mul n z)
  · refine ⟨_, by
      simp only [account_input, bind, pure, if_neg hassert', hitems, hn1, Option.some_bind,
        vset_eq_some, l1, l2, l3, l4, r2, r3, r4, e3, hz, List.head?_cons, if_pos hpop,
        Option.bind]; rfl, ?_⟩
    constructor
    · simp only; conv_lhs => rw [hf]
    · simp [inv.consume_items_length]
    · simp [inv.items_consumed_length]
    · simp [inv.input_queues_length]
    · simp [inv.inputs_ready_length]
    · simp [inv.input_buff_offsets_length]
    · intro p hp
      simp only
      rw [getElem?_set_of_ne _ _ (by omega)]
      exact inv.consume_items_rest p (by omega)
    · intro p hp
      simp only
      rw [getElem?_set_of_ne _ _ (by omega)]
      exact inv.items_consumed_rest p (by omega)
    · intro p hp
      simp only
      rw [getElem?_set_of_ne _ _ (by omega)]
      exact inv.input_queues_rest p (by omega)
    · intro p hp
      simp only
      rw [getElem?_set_of_ne _ _ (by omega)]
      exact inv.input_buff_offsets_rest p (by omega)
    · intro p hp
      simp only
      by_cases hpj : p = j
      · subst hpj
        simp [l2, hcn, hn1]
      · rw [getElem?_set_of_ne _ _ (fun h => hpj h.symm)]
        exact inv.items_consumed_done p (by omega)
  · refine ⟨_, by
      simp only [account_input, bind, pure, if_neg hassert', hitems, hn1, Option.some_bind,
        vset_eq_some, l1, l2, l3, l4, r2, r3, r4, e3, hz, List.head?_cons, if_neg hpop,
        Option.bind]; rfl, ?_⟩
    constructor
    · simp only; conv_lhs => rw [hf]
    · simp [inv.consume_items_length]
    · simp [inv.items_consumed_length]
    · exact inv.input_queues_length
    · exact inv.inputs_ready_length
    · simp [inv.input_buff_offsets_length]
    · intro p hp
      simp only
      rw [getElem?_set_of_ne _ _ (by omega)]
      exact inv.consume_items_rest p (by omega)
    · intro p hp
      simp only
      rw [getElem?_set_of_ne _ _ (by omega)]
      exact inv.items_consumed_rest p (by omega)
    · intro p hp
      exact inv.input_queues_rest p (by omega)
    · intro p hp
      simp only
      rw [getElem?_set_of_ne _ _ (by omega)]
      exact inv.input_buff_offsets_rest p (by omega)
    · intro p hp
      simp only
      by_cases hpj : p = j
      · subst hpj
        simp [l2, hcn, hn1]
      · rw [getElem?_set_of_ne _ _ (fun h => hpj h.symm)]
        exact inv.items_consumed_done p (by omega)

theorem produce_loop_total (k : WorkSentinels) (ti : TaskInterface) (ret : Int)
    (s : ElementImpl) (os : OutputSide ti s) :
    ∃ t, forLoop (account_output k ret) ti.num_outputs 0 s = some t ∧
      ProducedUpTo k ret s ti.num_outputs t := by
  have := forLoop_total (account_output k ret) (ProducedUpTo k ret s) ti.num_outputs 0 s
    ⟨rfl, rfl, rfl, rfl, rfl, fun _ _ => rfl, fun _ _ => rfl, fun _ _ => rfl,
      fun p hp => absurd hp (Nat.not_lt_zero p), fun p hp => absurd hp (Nat.not_lt_zero p),
      fun p hp => absurd hp (Nat.not_lt_zero p), fun p hp => absurd hp (Nat.not_lt_zero p),
      by simp⟩ ?_
  · simpa using this
  intro j t _ hj inv
  have hf := inv.frame
  have e3 : t.output_items_sizes = s.output_items_sizes := by rw [hf]
  obtain ⟨pi, hpi, -⟩ := getElem?_some_of_lt s.produce_items j (by rw [os.produce_items]; omega)
  obtain ⟨c, hcn, -⟩ := getElem?_some_of_lt s.items_produced j (by rw [os.items_produced]; omega)
  obtain ⟨q, hq, hq0⟩ := getElem?_some_of_lt s.output_queues j (by rw [os.output_queues]; omega)
  obtain ⟨z, hz, -⟩ := getElem?_some_of_lt s.output_items_sizes j
    (by rw [os.output_items_sizes]; omega)
  obtain ⟨b, bs, rfl⟩ := List.exists_cons_of_ne_nil (os.output_fronts q hq0)
  have l1 : j < t.produce_items.length := by
    rw [inv.produce_items_length, os.produce_items]; omega
  have l2 : j < t.items_produced.length := by
    rw [inv.items_produced_length, os.items_produced]; omega
  have l4 : j < t.outputs_ready.length := by
    rw [inv.outputs_ready_length, os.outputs_ready]; omega
  have l5 : j < t.output_queues.length := by
    rw [inv.output_queues_length, os.output_queues]; omega
  have r1 := (inv.produce_items_rest j (le_refl j)).trans hpi
  have r2 := (inv.items_produced_rest j (le_refl j)).trans hcn
  have r3 := (inv.output_queues_rest j (le_refl j)).trans hq
  have hitems : items_to_produce k ret j t = items_to_produce k ret j s := by
    simp only [items_to_produce, r1, hpi]
  obtain ⟨n, hn1⟩ : ∃ n, items_to_produce k ret j s = some n := by
    by_cases hwcp : ret = k.WORK_CALLED_PRODUCE
    · exact ⟨pi, by simp [items_to_produce, hwcp, hpi]⟩
    · exact ⟨size_of_int ret, by simp [items_to_produce, hwcp]⟩
  have hpost : posted_buffer k ret s j = some (Event.post_downstream j
      (Message.buffer { b with length := size_mul n z })) := by
    simp [posted_buffer, hn1, hz, hq]
  refine ⟨_, by
    simp only [account_output, bind, pure, hitems, hn1, Option.some_bind,
      vset_eq_some, l1, l2, l4, r2, r3, e3, hz, List.head?_cons, Option.bind]; rfl, ?_⟩
  constructor
  · simp only; conv_lhs => rw [hf]
  · simp [inv.produce_items_length]
  · simp [inv.items_produced_length]
  · simp [inv.output_queues_length]
  · simp [inv.outputs_ready_length]
  · intro p hp
    simp only
    rw [getElem?_set_of_ne _ _ (by omega)]
    exact inv.produce_items_rest p (by omega)
  · intro p hp
    simp only
    rw [getElem?_set_of_ne _ _ (by omega)]
    exact inv.items_produced_rest p (by omega)
  · intro p hp
    simp only
    rw [getElem?_set_of_ne _ _ (by omega)]
    exact inv.output_queues_rest p (by omega)
  · intro p hp
    simp only
    by_cases hpj : p = j
    · subst hpj; simp [l1]
    · rw [getElem?_set_of_ne _ _ (fun h => hpj h.symm)]
      exact inv.produce_items_done p (by omega)
  · intro p hp
    simp only
    by_cases hpj : p = j
    · subst hpj; simp [l2, hcn, hn1]
    · rw [getElem?_set_of_ne _ _ (fun h => hpj h.symm)]
      exact inv.items_produced_done p (by omega)
  · intro p hp
    simp only
    by_cases hpj : p = j
    · subst hpj; simp [l5, hq]
    · rw [getElem?_set_of_ne _ _ (fun h => hpj h.symm)]
      exact inv.output_queues_done p (by omega)
  · intro p hp
    simp only
    by_cases hpj : p = j
    · subst hpj; simp [l4, hq]
    · rw [getElem?_set_of_ne _ _ (fun h => hpj h.symm)]
      exact inv.outputs_ready_done p (by omega)
  · simp only
    rw [inv.log, List.range_succ, List.filterMap_append, List.append_assoc]
    simp [hpost]

theorem scale_tags_some (rate : ℚ) (tags : List Tag)
    (h : ∀ t, t ∈ tags → (scaled_offset rate t.offset).isSome) :
    ∃ scaled, scale_tags rate tags = some scaled := by
  induction tags with
  | nil => exact ⟨[], rfl⟩
  | cons t ts ih =>
    obtain ⟨o, ho⟩ := Option.isSome_iff_exists.mp (h t (List.mem_cons_self _ _))
    obtain ⟨r, hr⟩ := ih (fun u hu => h u (List.mem_cons_of_mem _ hu))
    exact ⟨_, by simp [scale_tags, ho, hr]; rfl⟩

theorem propagate_tags_some (ti : TaskInterface) (policy : TagPropPolicy) (rate : ℚ) (i : Nat)
    (tags : List Tag)
    (h : policy = TagPropPolicy.TPP_DONT ∨
      ∀ t, t ∈ tags → (scaled_offset rate t.offset).isSome) :
    ∃ posts, propagate_tags ti policy rate i tags = some posts := by
  cases policy with
  | TPP_DONT => exact ⟨[], rfl⟩
  | TPP_ALL_TO_ALL =>
    rcases h with h | h
    · exact TagPropPolicy.noConfusion h
    obtain ⟨r, hr⟩ := scale_tags_some rate tags h
    by_cases hn : ti.num_outputs = 0
    · exact ⟨[], by simp [propagate_tags, hn]⟩
    · exact ⟨_, by simp [propagate_tags, hn, hr]; rfl⟩
  | TPP_ONE_TO_ONE =>
    rcases h with h | h
    · exact TagPropPolicy.noConfusion h
    obtain ⟨r, hr⟩ := scale_tags_some rate tags h
    by_cases hn : i < ti.num_outputs
    · exact ⟨_, by simp [propagate_tags, hn, hr]; rfl⟩
    · exact ⟨[], by simp [propagate_tags, hn]⟩

theorem trim_loop_total (ti : TaskInterface) (s : ElementImpl)
    (h1 : s.input_tags.length = ti.num_inputs) (h2 : s.items_consumed.length = ti.num_inputs)
    (hs : TagsScale s) :
    ∃ t, forLoop (trim_input_tags ti) ti.num_inputs 0 s = some t ∧
      TrimmedUpTo ti s ti.num_inputs t := by
  have := forLoop_total (trim_input_tags ti) (TrimmedUpTo ti s) ti.num_inputs 0 s
    ⟨rfl, rfl, fun _ _ => rfl, fun p hp => absurd hp (Nat.not_lt_zero p), by simp⟩ ?_
  · simpa using this
  intro j t _ hj inv
  have hf := inv.frame
  have e1 : t.items_consumed = s.items_consumed := by rw [hf]
  have e2 : t.tag_prop_policy = s.tag_prop_policy := by rw [hf]
  have e3 : t.relative_rate = s.relative_rate := by rw [hf]
  obtain ⟨tags, htags, hmem⟩ := getElem?_some_of_lt s.input_tags j (by rw [h1]; omega)
  obtain ⟨c, hcn, -⟩ := getElem?_some_of_lt s.items_consumed j (by rw [h2]; omega)
  have r1 := (inv.input_tags_rest j (le_refl j)).trans htags
  have l1 : j < t.input_tags.length := by rw [inv.input_tags_length, h1]; omega
  obtain ⟨posts, hposts⟩ := propagate_tags_some ti s.tag_prop_policy s.relative_rate j
    (tags.takeWhile (fun t => decide (t.offset < c)))
    (hs.imp id (fun h t ht => h tags hmem t ((List.takeWhile_sublist _).subset ht)))
  have htp : trim_posts ti s j = some posts := by
    simp [trim_posts, htags, hcn, hposts]
  have hkt : kept_tags s j = some (tags.drop (tags.takeWhile
      (fun t => decide (t.offset < c))).length) := by
    simp [kept_tags, htags, hcn]
  refine ⟨_, by
    simp only [trim_input_tags, bind, pure, r1, e1, e2, e3, hcn, hposts, Option.some_bind,
      Option.bind]; rfl, ?_⟩
  constructor
  · simp only; conv_lhs => rw [hf]
  · simp [inv.input_tags_length]
  · intro p hp
    simp only
    rw [getElem?_set_of_ne _ _ (by omega)]
    exact inv.input_tags_rest p (by omega)
  · intro p hp
    simp only
    by_cases hpj : p = j
    · subst hpj; simp [l1, hkt]
    · rw [getElem?_set_of_ne _ _ (fun h => hpj h.symm)]
      exact inv.input_tags_done p (by omega)
  · simp only
    rw [inv.log, List.range_succ, List.flatMap_append, List.append_assoc]
    simp [htp]

theorem flush_loop_total (ti : TaskInterface) (s : ElementImpl)
    (h1 : s.output_tags.length = ti.num_outputs) :
    ∃ t, forLoop flush_output_tags ti.num_outputs 0 s = some t ∧
      FlushedUpTo s ti.num_outputs t := by
  have := forLoop_total flush_output_tags (FlushedUpTo s) ti.num_outputs 0 s
    ⟨rfl, rfl, fun _ _ => rfl, fun p hp => absurd hp (Nat.not_lt_zero p), by simp⟩ ?_
  · simpa using this
  intro j t _ hj inv
  have hf := inv.frame
  obtain ⟨tags, htags, -⟩ := getElem?_some_of_lt s.output_tags j (by rw [h1]; omega)
  have r1 := (inv.output_tags_rest j (le_refl j)).trans htags
  have l1 : j < t.output_tags.length := by rw [inv.output_tags_length, h1]; omega
  refine ⟨_, by
    simp only [flush_output_tags, bind, pure, r1, Option.some_bind, Option.bind]; rfl, ?_⟩
  constructor
  · simp only; conv_lhs => rw [hf]
  · simp [inv.output_tags_length]
  · intro p hp
    simp only
    rw [getElem?_set_of_ne _ _ (by omega)]
    exact inv.output_tags_rest p (by omega)
  · intro p hp
    simp only
    by_cases hpj : p = j
    · subst hpj; simp [l1]
    · rw [getElem?_set_of_ne _ _ (fun h => hpj h.symm)]
      exact inv.output_tags_done p (by omega)
  · simp only
    rw [inv.log, List.range_succ, List.flatMap_append, List.append_assoc]
    simp [flush_posts, htags]


theorem account_total (k : WorkSentinels) (ti : TaskInterface) (ret : Int)
    (s4 : ElementImpl) (wf : WellFormed ti s4) (hc : CanConsume k ti ret s4)
    (hs : TagsScale s4) :
    ∃ s5 s6 s7 s8, account k ti ret s4 = some s8 ∧ AccountSteps k ti ret s4 s5 s6 s7 s8 := by
  obtain ⟨s5, e5, i5⟩ := consume_loop_total k ti ret s4 wf hc
  have f5 := i5.frame
  have os : OutputSide ti s5 :=
    { output_queues := by rw [f5]; exact wf.output_queues
      outputs_ready := by rw [f5]; exact wf.outputs_ready
      output_items_sizes := by rw [f5]; exact wf.output_items_sizes
      produce_items := by rw [f5]; exact wf.produce_items
      items_produced := by rw [f5]; exact wf.items_produced
      output_fronts := by rw [f5]; exact wf.output_fronts }
  obtain ⟨s6, e6, i6⟩ := produce_loop_total k ti ret s5 os
  have f6 := i6.frame
  have ht1 : s6.input_tags = s4.input_tags := by rw [f6, f5]
  have ht2 : s6.items_consumed.length = ti.num_inputs := by
    rw [f6]; simp only; rw [i5.items_consumed_length]; exact wf.items_consumed
  have ht3 : TagsScale s6 := by
    have a1 : s6.tag_prop_policy = s4.tag_prop_policy := by rw [f6, f5]
    have a2 : s6.relative_rate = s4.relative_rate := by rw [f6, f5]
    rw [TagsScale, a1, a2, ht1]; exact hs
  obtain ⟨s7, e7, i7⟩ := trim_loop_total ti s6 (by rw [ht1]; exact wf.input_tags) ht2 ht3
  have f7 := i7.frame
  have ho : s7.output_tags.length = ti.num_outputs := by
    rw [f7, f6, f5]; exact wf.output_tags
  obtain ⟨s8, e8, i8⟩ := flush_loop_total ti s7 ho
  exact ⟨s5, s6, s7, s8, by simp [account, e5, e6, e7, e8], i5, i6, i7, i8⟩

/-! ## The run of `handle_task` past the gate -/

theorem prepared_eq {srt : TagSort} {ti : TaskInterface} {s s3 : ElementImpl} {a b : Nat}
    (h : gather srt ti s = some (s3, a, b)) : prepared srt ti s = s3 := by
  simp [prepared, h]

theorem tagsScale_of_gathered {srt : TagSort} {s s3 : ElementImpl} (g : Gathered srt s s3)
    (hs : TagsScale s) :
    TagsScale s3 := by
  have hf := g.frame
  have a1 : s3.tag_prop_policy = s.tag_prop_policy := by rw [hf]
  have a2 : s3.relative_rate = s.relative_rate := by rw [hf]
  rw [TagsScale, a1, a2]
  refine hs.imp id (fun h tags' hmem t ht => ?_)
  obtain ⟨p, hp⟩ := List.mem_iff_getElem?.mp hmem
  have := g.tags p
  rw [hp] at this
  cases hq : s.input_tags[p]? with
  | none => rw [hq] at this; exact Option.noConfusion this
  | some tags =>
    rw [hq, Option.map_some', Option.some.injEq] at this
    have hm : tags ∈ s.input_tags := List.mem_iff_getElem?.mpr ⟨p, hq⟩
    refine h tags hm t ?_
    rw [this] at ht
    split at ht
    · exact (srt.perm _).mem_iff.mp ht
    · exact ht

theorem wf_call_work {ti : TaskInterface} {s3 : ElementImpl} (work : ElementImpl → WorkOut)
    (wf : WellFormed ti s3) (hfit : WorkFits ti (work s3)) :
    WellFormed ti (call_work work s3) := by
  obtain ⟨h1, h2, h3⟩ := hfit
  cases wf
  constructor <;> assumption

/-- The run of `handle_task` on a ready, well-formed block that passes the gate of lines
127-133 and whose `Work` returns something other than `WORK_DONE`. -/
theorem handle_task_worked (k : WorkSentinels) (srt : TagSort) (work : ElementImpl → WorkOut)
    (ti : TaskInterface) (s : ElementImpl) (wf : WellFormed ti s) (hr : Ready s)
    (hgate : no_peer_interested ti (tokens_count s.input_tokens)
      (tokens_count s.output_tokens) = false)
    (hret : (work (prepared srt ti s)).ret ≠ k.WORK_DONE)
    (hfit : WorkFits ti (work (prepared srt ti s)))
    (hc : CanConsume k ti (work (prepared srt ti s)).ret s) (hs : TagsScale s) :
    ∃ s5 s6 s7 s8, handle_task k srt work ti s = some s8 ∧ Gathered srt s (prepared srt ti s) ∧
      AccountSteps k ti (work (prepared srt ti s)).ret (call_work work (prepared srt ti s))
        s5 s6 s7 s8 := by
  obtain ⟨s3, hg, g⟩ := gather_total srt ti s wf
  have hp := prepared_eq hg
  rw [hp] at hret hfit hc ⊢
  have wf3 := wf_of_gathered wf g
  have wf4 := wf_call_work work wf3 hfit
  have hf := g.frame
  have hc4 : CanConsume k ti (work s3).ret (call_work work s3) := by
    have a1 : (call_work work s3).enable_fixed_rate = s.enable_fixed_rate := by
      rw [call_work, hf]
    have a2 : (call_work work s3).relative_rate = s.relative_rate := by
      rw [call_work, hf]
    rw [CanConsume, a1, a2]; exact hc
  have hs3 : TagsScale s3 := tagsScale_of_gathered g hs
  have hs4 : TagsScale (call_work work s3) := hs3
  obtain ⟨s5, s6, s7, s8, e, steps⟩ := account_total k ti (work s3).ret _ wf4 hc4 hs4
  refine ⟨s5, s6, s7, s8, ?_, g, steps⟩
  have hr' : ¬¬(s.active = true ∧ all_ready s.inputs_ready = true ∧
      all_ready s.outputs_ready = true) := not_not.mpr hr
  rw [handle_task, if_neg hr', hg]
  simp only [hgate, Bool.false_eq_true, if_false, if_neg hret]
  exact e

theorem buffers_posted_on_append (i : Nat) (a b : List Event) :
    buffers_posted_on i (a ++ b) = buffers_posted_on i a ++ buffers_posted_on i b := by
  simp [buffers_posted_on, List.filterMap_append]

theorem buffers_posted_on_tag_posts (i : Nat) (l : List Event) (h : ∀ e, e ∈ l → is_tag_post e) :
    buffers_posted_on i l = [] := by
  induction l with
  | nil => rfl
  | cons e es ih =>
    obtain ⟨p, t, rfl⟩ := h e (List.mem_cons_self _ _)
    simp only [buffers_posted_on, List.filterMap_cons]
    exact ih (fun e he => h e (List.mem_cons_of_mem _ he))

theorem posted_buffer_shape {k : WorkSentinels} {ret : Int} {s : ElementImpl} {p : Nat}
    {e : Event} (h : posted_buffer k ret s p = some e) :
    ∃ b, e = Event.post_downstream p (Message.buffer b) := by
  simp only [posted_buffer, bind, pure, Option.bind_eq_some, Option.some.injEq] at h
  obtain ⟨_, _, _, _, _, _, b, _, rfl⟩ := h
  exact ⟨_, rfl⟩

theorem buffers_posted_on_range (k : WorkSentinels) (ret : Int) (s : ElementImpl) (i : Nat)
    (b : Buffer) (h : posted_buffer k ret s i = some (Event.post_downstream i (Message.buffer b)))
    (n : Nat) :
    buffers_posted_on i ((List.range n).filterMap (posted_buffer k ret s)) =
      if i < n then [b] else [] := by
  induction n with
  | zero => simp [buffers_posted_on]
  | succ n ih =>
    rw [List.range_succ, List.filterMap_append, buffers_posted_on_append, ih]
    by_cases hin : i = n
    · subst hin
      simp [h, buffers_posted_on]
    · have hlast : buffers_posted_on i ([n].filterMap (posted_buffer k ret s)) = [] := by
        cases hp : posted_buffer k ret s n with
        | none => simp [hp, buffers_posted_on]
        | some e =>
          obtain ⟨b', rfl⟩ := posted_buffer_shape hp
          have : n ≠ i := fun h => hin h.symm
          simp [hp, buffers_posted_on, this]
      rw [hlast]
      by_cases h1 : i < n
      · simp [h1, Nat.lt_succ_of_lt h1]
      · have : ¬ i < n + 1 := by omega
        simp [h1, this]

theorem scale_tags_length (rate : ℚ) : ∀ (tags scaled : List Tag),
    scale_tags rate tags = some scaled → scaled.length = tags.length := by
  intro tags
  induction tags with
  | nil => intro scaled h; simp [scale_tags] at h; rw [← h]
  | cons t ts ih =>
    intro scaled h
    simp only [scale_tags, bind, pure, Option.bind_eq_some, Option.some.injEq] at h
    obtain ⟨_, _, r, hr, rfl⟩ := h
    simp [ih r hr]

theorem propagate_tags_tag_posts {ti : TaskInterface} {policy : TagPropPolicy} {rate : ℚ}
    {i : Nat} {tags : List Tag} {posts : List Event}
    (h : propagate_tags ti policy rate i tags = some posts) :
    ∀ e, e ∈ posts → is_tag_post e := by
  intro e he
  cases policy with
  | TPP_DONT =>
    simp [propagate_tags] at h; subst h; simp at he
  | TPP_ALL_TO_ALL =>
    simp only [propagate_tags] at h
    split at h
    · simp at h; subst h; simp at he
    · simp only [Option.map_eq_some'] at h
      obtain ⟨scaled, _, rfl⟩ := h
      simp only [List.mem_flatMap, List.mem_map] at he
      obtain ⟨p, _, t, _, rfl⟩ := he
      exact ⟨p, t, rfl⟩
  | TPP_ONE_TO_ONE =>
    simp only [propagate_tags] at h
    split at h
    · simp only [Option.map_eq_some'] at h
      obtain ⟨scaled, _, rfl⟩ := h
      simp only [List.mem_map] at he
      obtain ⟨t, _, rfl⟩ := he
      exact ⟨i, t, rfl⟩
    · simp at h; subst h; simp at he

theorem trim_posts_tag_posts (ti : TaskInterface) (s : ElementImpl) (n : Nat) :
    ∀ e, e ∈ (List.range n).flatMap (fun p => (trim_posts ti s p).getD []) → is_tag_post e := by
  intro e he
  simp only [List.mem_flatMap] at he
  obtain ⟨p, _, hp⟩ := he
  cases h : trim_posts ti s p with
  | none => rw [h] at hp; simp at hp
  | some posts =>
    rw [h] at hp
    simp only [Option.getD_some] at hp
    simp only [trim_posts, bind, Option.bind_eq_some] at h
    obtain ⟨_, _, _, _, h⟩ := h
    exact propagate_tags_tag_posts h e hp

theorem flush_posts_tag_posts (s : ElementImpl) (n : Nat) :
    ∀ e, e ∈ (List.range n).flatMap (flush_posts s) → is_tag_post e := by
  intro e he
  simp only [List.mem_flatMap, flush_posts, List.mem_map] at he
  obtain ⟨p, _, t, _, rfl⟩ := he
  exact ⟨p, t, rfl⟩

/-- The log of a completed accounting: the call of `Work`, then one buffer per output
port, then tags. -/
theorem account_steps_log {k : WorkSentinels} {ti : TaskInterface} {ret : Int}
    {s4 s5 s6 s7 s8 : ElementImpl} (st : AccountSteps k ti ret s4 s5 s6 s7 s8) :
    ∃ tags, (∀ e, e ∈ tags → is_tag_post e) ∧
      s8.log = s4.log ++ ((List.range ti.num_outputs).filterMap (posted_buffer k ret s5) ++ tags) := by
  refine ⟨(List.range ti.num_inputs).flatMap (fun p => (trim_posts ti s6 p).getD []) ++
    (List.range ti.num_outputs).flatMap (flush_posts s7), ?_, ?_⟩
  · intro e he
    rcases List.mem_append.mp he with h | h
    · exact trim_posts_tag_posts ti s6 _ e h
    · exact flush_posts_tag_posts s7 _ e h
  · have f5 := st.consumed.frame
    have l5 : s5.log = s4.log := by rw [f5]
    rw [st.flushed.log, st.trimmed.log, st.produced.log, l5]
    simp only [List.append_assoc]

/-- C5 fails on the code. A block with one input port of 4-byte items and a 2048-byte
buffer at the front of its queue. When `Work` consumes 10 items, the offset advances
to 40, below the length of the front buffer, and the code pops the buffer and resets the
offset to 0 where the claim keeps both. When `Work` consumes 600 items, the offset
advances to 2400, past the length of the front buffer, and the code keeps the buffer and
the offset where the claim pops the buffer. -/
theorem consumption_pop_reversed :
    (handle_task example_sentinels insertion_sort (work_consuming 0 [10])
        { num_inputs := 1, num_outputs := 0 } sink_block).map
      (fun s' => (s'.input_queues, s'.input_buff_offsets, s'.inputs_ready, s'.items_consumed)) =
      some ([[]], [0], [false], [10]) ∧
    (handle_task example_sentinels insertion_sort (work_consuming 0 [600])
        { num_inputs := 1, num_outputs := 0 } sink_block).map
      (fun s' => (s'.input_queues, s'.input_buff_offsets, s'.inputs_ready, s'.items_consumed)) =
      some ([[{ memory := 4096, length := 2048 }]], [2400], [true], [600]) := by
  constructor <;> decide

theorem size_of_int_nonneg {r : Int} (h0 : 0 ≤ r) (h1 : r < 2 ^ 64) :
    (size_of_int r : Int) = r := by
  have : r % ((SIZE_MOD : Nat) : Int) = r := Int.emod_eq_of_lt h0 (by simpa [SIZE_MOD] using h1)
  rw [size_of_int, this]
  exact Int.toNat_of_nonneg h0

/-- C6. Production accounting. For a ready, well-formed block that passes the gate of
lines 127-133, whose `Work` returns `ret`, either `WORK_CALLED_PRODUCE` or a non-negative
value, and whose accounting meets no failing assertion, `handle_task` returns a state
`s'` such that, for every output port `i`, with `items` the value `Work` left in
`produce_items[i]` when `ret == WORK_CALLED_PRODUCE` and `ret` otherwise:
`items_produced[i]` has increased by `items`; exactly one buffer was posted downstream on
port `i`, the front buffer of the port with its length set to
`items * output_item_size[i]`; the queue of port `i` has lost its front;
`outputs_ready[i]` tells whether the queue is non-empty afterwards; and `produce_items[i]`
is 0. The sum and the product are those of `size_t`, the plain ones when they fit. -/
theorem production_accounting (k : WorkSentinels) (srt : TagSort) (work : ElementImpl → WorkOut)
    (ti : TaskInterface) (s : ElementImpl) (wf : WellFormed ti s) (hr : Ready s)
    (hgate : no_peer_interested ti (tokens_count s.input_tokens)
      (tokens_count s.output_tokens) = false)
    (hret : (work (prepared srt ti s)).ret = k.WORK_CALLED_PRODUCE ∨
      0 ≤ (work (prepared srt ti s)).ret)
    (hfit : WorkFits ti (work (prepared srt ti s)))
    (hc : CanConsume k ti (work (prepared srt ti s)).ret s) (hs : TagsScale s)
    (i : Nat) (hi : i < ti.num_outputs) :
    ∃ s' posts buff rest produced size items,
      handle_task k srt work ti s = some s' ∧
      s'.log = s.log ++ Event.Work :: posts ∧
      s.output_queues[i]? = some (buff :: rest) ∧
      s.items_produced[i]? = some produced ∧
      s.output_items_sizes[i]? = some size ∧
      ((work (prepared srt ti s)).ret = k.WORK_CALLED_PRODUCE →
        (work (prepared srt ti s)).produce_items[i]? = some items) ∧
      (0 ≤ (work (prepared srt ti s)).ret → items = size_of_int (work (prepared srt ti s)).ret ∧
        ((work (prepared srt ti s)).ret < 2 ^ 64 →
          (items : Int) = (work (prepared srt ti s)).ret)) ∧
      s'.items_produced[i]? = some (size_add produced items) ∧
      (produced + items < SIZE_MOD → s'.items_produced[i]? = some (produced + items)) ∧
      buffers_posted_on i posts = [{ buff with length := size_mul items size }] ∧
      (items * size < SIZE_MOD →
        buffers_posted_on i posts = [{ buff with length := items * size }]) ∧
      s'.output_queues[i]? = some rest ∧
      s'.outputs_ready[i]? = some (!rest.isEmpty) ∧
      s'.produce_items[i]? = some 0 := by
  have hne : (work (prepared srt ti s)).ret ≠ k.WORK_DONE := by
    rcases hret with h | h
    · rw [h]; exact fun e => k.distinct e.symm
    · intro e; rw [e] at h; exact absurd k.done_neg (not_lt.mpr h)
  obtain ⟨s5, s6, s7, s8, e, g, st⟩ :=
    handle_task_worked k srt work ti s wf hr hgate hne hfit hc hs
  obtain ⟨tags, htags, hlog⟩ := account_steps_log st
  generalize hw : work (prepared srt ti s) = w at *
  generalize hs3 : prepared srt ti s = s3 at *
  have f3 := g.frame
  have f5 := st.consumed.frame
  have f7 := st.trimmed.frame
  have f8 := st.flushed.frame
  have q5 : s5.output_queues = s.output_queues := by rw [f5, call_work, f3]
  have p5 : s5.items_produced = s.items_produced := by rw [f5, call_work, f3]
  have z5 : s5.output_items_sizes = s.output_items_sizes := by rw [f5, call_work, f3]
  have m5 : s5.produce_items = w.produce_items := by rw [f5, call_work, hw]
  obtain ⟨q, hq, hq0⟩ := getElem?_some_of_lt s.output_queues i (by rw [wf.output_queues]; exact hi)
  obtain ⟨buff, rest, rfl⟩ := List.exists_cons_of_ne_nil (wf.output_fronts q hq0)
  obtain ⟨produced, hprod, -⟩ := getElem?_some_of_lt s.items_produced i
    (by rw [wf.items_produced]; exact hi)
  obtain ⟨size, hsize, -⟩ := getElem?_some_of_lt s.output_items_sizes i
    (by rw [wf.output_items_sizes]; exact hi)
  obtain ⟨mi, hmi, -⟩ := getElem?_some_of_lt w.produce_items i (by rw [hfit.2.1]; exact hi)
  obtain ⟨items, hitems, hA, hB⟩ : ∃ items, items_to_produce k w.ret i s5 = some items ∧
      (w.ret = k.WORK_CALLED_PRODUCE → w.produce_items[i]? = some items) ∧
      (0 ≤ w.ret → items = size_of_int w.ret ∧ (w.ret < 2 ^ 64 → (items : Int) = w.ret)) := by
    by_cases hwcp : w.ret = k.WORK_CALLED_PRODUCE
    · refine ⟨mi, by simp [items_to_produce, hwcp, m5, hmi], fun _ => hmi, fun h0 => ?_⟩
      rw [hwcp] at h0; exact absurd k.produce_neg (not_lt.mpr h0)
    · exact ⟨size_of_int w.ret, by simp [items_to_produce, hwcp], fun h => absurd h hwcp,
        fun h0 => ⟨rfl, fun h1 => size_of_int_nonneg h0 h1⟩⟩
  have hpost : posted_buffer k w.ret s5 i = some (Event.post_downstream i
      (Message.buffer { buff with length := size_mul items size })) := by
    simp [posted_buffer, hitems, z5, hsize, q5, hq]
  have hbuf : buffers_posted_on i
      ((List.range ti.num_outputs).filterMap (posted_buffer k w.ret s5) ++ tags) =
      [{ buff with length := size_mul items size }] := by
    rw [buffers_posted_on_append, buffers_posted_on_range k w.ret s5 i _ hpost,
      buffers_posted_on_tag_posts i tags htags, if_pos hi]
    rfl
  have hip : s8.items_produced[i]? = some (size_add produced items) := by
    have : s8.items_produced = s6.items_produced := by rw [f8, f7]
    rw [this, st.produced.items_produced_done i hi, p5, hprod]
    simp [hitems]
  have hl : s8.log = s.log ++ Event.Work ::
      ((List.range ti.num_outputs).filterMap (posted_buffer k w.ret s5) ++ tags) := by
    rw [hlog]
    have : (call_work work s3).log = s.log ++ [Event.Work] := by rw [call_work, f3]
    rw [this, List.append_assoc]; rfl
  refine ⟨s8, _, buff, rest, produced, size, items, e, hl, hq, hprod, hsize, hA, hB, hip, ?_,
    hbuf, ?_, ?_, ?_, ?_⟩
  · intro h; rw [hip, size_add, Nat.mod_eq_of_lt h]
  · intro h; rw [hbuf, size_mul, Nat.mod_eq_of_lt h]
  · have : s8.output_queues = s6.output_queues := by rw [f8, f7]
    rw [this, st.produced.output_queues_done i hi, q5, hq]; rfl
  · have : s8.outputs_ready = s6.outputs_ready := by rw [f8, f7]
    rw [this, st.produced.outputs_ready_done i hi, q5, hq]; rfl
  · have : s8.produce_items = s6.produce_items := by rw [f8, f7]
    rw [this, st.produced.produce_items_done i hi]

theorem wf_source_block : WellFormed { num_inputs := 0, num_outputs := 1 } source_block := by
  constructor <;> first | rfl | (simp [source_block, portless_block])

theorem ready_source_block : Ready source_block := by
  simp [Ready, source_block, portless_block, all_ready]

theorem wf_sink_block : WellFormed { num_inputs := 1, num_outputs := 0 } sink_block := by
  constructor <;> first | rfl | (simp [sink_block, portless_block])

theorem ready_sink_block : Ready sink_block := by
  simp [Ready, sink_block, portless_block, all_ready]

theorem production_accounting_witness :
    WellFormed { num_inputs := 0, num_outputs := 1 } source_block ∧ Ready source_block ∧
    (∃ s', handle_task example_sentinels insertion_sort (work_returning 64)
        { num_inputs := 0, num_outputs := 1 } source_block = some s' ∧
      s'.produce_items[0]? = some 0) ∧
    (handle_task example_sentinels insertion_sort (work_returning 64)
        { num_inputs := 0, num_outputs := 1 } source_block).map
      (fun s' => (s'.log, s'.items_produced, s'.outputs_ready, s'.output_queues)) =
      some ([Event.Work, Event.post_downstream 0 (Message.buffer { memory := 4096, length := 256 })],
        [64], [false], [[]]) :=
  ⟨wf_source_block, ready_source_block,
    (let ⟨s', _, _, _, _, _, _, h1, _, _, _, _, _, _, _, _, _, _, _, _, h2⟩ :=
      production_accounting example_sentinels insertion_sort (work_returning 64)
        { num_inputs := 0, num_outputs := 1 } source_block wf_source_block ready_source_block
        (by decide) (Or.inr (by decide)) ⟨by decide, by decide, by decide⟩
        (fun h => absurd rfl h) (Or.inl rfl) 0 (by decide)
     ⟨s', h1, h2⟩),
    by decide⟩

theorem posted_buffer_some (k : WorkSentinels) (ti : TaskInterface) (ret : Int)
    (s : ElementImpl) (os : OutputSide ti s) (i : Nat) (hi : i < ti.num_outputs) :
    ∃ b, posted_buffer k ret s i = some (Event.post_downstream i (Message.buffer b)) := by
  obtain ⟨q, hq, hq0⟩ := getElem?_some_of_lt s.output_queues i (by rw [os.output_queues]; exact hi)
  obtain ⟨buff, rest, rfl⟩ := List.exists_cons_of_ne_nil (os.output_fronts q hq0)
  obtain ⟨size, hsize, -⟩ := getElem?_some_of_lt s.output_items_sizes i
    (by rw [os.output_items_sizes]; exact hi)
  obtain ⟨mi, hmi, -⟩ := getElem?_some_of_lt s.produce_items i
    (by rw [os.produce_items]; exact hi)
  by_cases hwcp : ret = k.WORK_CALLED_PRODUCE
  · exact ⟨_, by simp [posted_buffer, items_to_produce, hwcp, hmi, hsize, hq]; rfl⟩
  · exact ⟨_, by simp [posted_buffer, items_to_produce, hwcp, hsize, hq]; rfl⟩

/-- C7, as the code has it. For a ready, well-formed block that passes the gate of lines
127-133, whatever `Work` returns other than `WORK_DONE` and whatever it consumed or
produced, a contract violation included, when the accounting meets no failing assertion
`handle_task` returns with `done` and `active` as they were, having posted exactly one
buffer downstream on every output port. -/
theorem violation_not_marked_done (k : WorkSentinels) (srt : TagSort) (work : ElementImpl → WorkOut)
    (ti : TaskInterface) (s : ElementImpl) (wf : WellFormed ti s) (hr : Ready s)
    (hgate : no_peer_interested ti (tokens_count s.input_tokens)
      (tokens_count s.output_tokens) = false)
    (hret : (work (prepared srt ti s)).ret ≠ k.WORK_DONE)
    (hfit : WorkFits ti (work (prepared srt ti s)))
    (hc : CanConsume k ti (work (prepared srt ti s)).ret s) (hs : TagsScale s) :
    ∃ s' posts, handle_task k srt work ti s = some s' ∧
      s'.done = s.done ∧ s'.active = s.active ∧
      s'.log = s.log ++ Event.Work :: posts ∧
      ∀ i, i < ti.num_outputs → ∃ b, buffers_posted_on i posts = [b] := by
  obtain ⟨s5, s6, s7, s8, e, g, st⟩ :=
    handle_task_worked k srt work ti s wf hr hgate hret hfit hc hs
  obtain ⟨tags, htags, hlog⟩ := account_steps_log st
  have f3 := g.frame
  have f5 := st.consumed.frame
  have f6 := st.produced.frame
  have f7 := st.trimmed.frame
  have f8 := st.flushed.frame
  have wf4 := wf_call_work work (wf_of_gathered wf g) hfit
  have os : OutputSide ti s5 :=
    { output_queues := by rw [f5]; exact wf4.output_queues
      outputs_ready := by rw [f5]; exact wf4.outputs_ready
      output_items_sizes := by rw [f5]; exact wf4.output_items_sizes
      produce_items := by rw [f5]; exact wf4.produce_items
      items_produced := by rw [f5]; exact wf4.items_produced
      output_fronts := by rw [f5]; exact wf4.output_fronts }
  refine ⟨s8, (List.range ti.num_outputs).filterMap
    (posted_buffer k (work (prepared srt ti s)).ret s5) ++ tags, e, ?_, ?_, ?_, ?_⟩
  · have d8 : s8.done = s7.done := by rw [f8]
    have d7 : s7.done = s6.done := by rw [f7]
    have d6 : s6.done = s5.done := by rw [f6]
    have d5 : s5.done = (prepared srt ti s).done := by rw [f5]; rfl
    have d3 : (prepared srt ti s).done = s.done := by rw [f3]
    rw [d8, d7, d6, d5, d3]
  · have d8 : s8.active = s7.active := by rw [f8]
    have d7 : s7.active = s6.active := by rw [f7]
    have d6 : s6.active = s5.active := by rw [f6]
    have d5 : s5.active = (prepared srt ti s).active := by rw [f5]; rfl
    have d3 : (prepared srt ti s).active = s.active := by rw [f3]
    rw [d8, d7, d6, d5, d3]
  · rw [hlog]
    have : (call_work work (prepared srt ti s)).log = s.log ++ [Event.Work] := by
      rw [call_work, f3]
    rw [this, List.append_assoc]; rfl
  · intro i hi
    obtain ⟨b, hb⟩ := posted_buffer_some k ti (work (prepared srt ti s)).ret s5 os i hi
    refine ⟨b, ?_⟩
    rw [buffers_posted_on_append, buffers_posted_on_range k _ s5 i _ hb,
      buffers_posted_on_tag_posts i tags htags, if_pos hi]
    rfl

/-- C7 fails as stated. A source block with one 1024-byte output buffer of 4-byte items:
when `Work` returns 1000 items, 4000 bytes, more than the buffer holds, `handle_task`
posts the buffer with length 4000 and leaves `done` false; when `Work` returns the
unknown negative value -5, it posts the buffer with the length `size_t(-5) * 4` and
leaves `done` false. A block with one 2048-byte input buffer of 4-byte items: when `Work`
consumes 600 items, 2400 bytes, more than available, `handle_task` leaves `done` false. -/
theorem violation_counterexample :
    (handle_task example_sentinels insertion_sort (work_returning 1000)
        { num_inputs := 0, num_outputs := 1 } source_block).map (fun s' => (s'.done, s'.log)) =
      some (false, [Event.Work,
        Event.post_downstream 0 (Message.buffer { memory := 4096, length := 4000 })]) ∧
    (handle_task example_sentinels insertion_sort (work_returning (-5))
        { num_inputs := 0, num_outputs := 1 } source_block).map (fun s' => (s'.done, s'.log)) =
      some (false, [Event.Work,
        Event.post_downstream 0
          (Message.buffer { memory := 4096, length := 18446744073709551596 })]) ∧
    (handle_task example_sentinels insertion_sort (work_consuming 0 [600])
        { num_inputs := 1, num_outputs := 0 } sink_block).map (fun s' => (s'.done, s'.log)) =
      some (false, [Event.Work]) := by
  refine ⟨?_, ?_, ?_⟩ <;> decide

theorem violation_not_marked_done_witness :
    WellFormed { num_inputs := 0, num_outputs := 1 } source_block ∧ Ready source_block ∧
    ∃ s', handle_task example_sentinels insertion_sort (work_returning 1000)
        { num_inputs := 0, num_outputs := 1 } source_block = some s' ∧
      s'.done = source_block.done :=
  ⟨wf_source_block, ready_source_block,
    (let ⟨s', _, h1, h2, _⟩ :=
      violation_not_marked_done example_sentinels insertion_sort (work_returning 1000)
        { num_inputs := 0, num_outputs := 1 } source_block wf_source_block ready_source_block
        (by decide) (by decide) ⟨by decide, by decide, by decide⟩
        (fun h => absurd rfl h) (Or.inl rfl)
     ⟨s', h1, h2⟩)⟩

theorem check_tokens_posts_counts (ti : TaskInterface) :
    (∀ i, i < ti.num_inputs →
      (check_tokens_posts ti).count (Event.post_upstream i Message.CheckTokensMessage) = 1) ∧
    (∀ i, i < ti.num_outputs →
      (check_tokens_posts ti).count (Event.post_downstream i Message.CheckTokensMessage) = 1) := by
  constructor
  · intro i hi
    rw [check_tokens_posts, List.count_append, count_post_upstream_range, count_up_in_down,
      if_pos hi]
  · intro i hi
    rw [check_tokens_posts, List.count_append, count_post_downstream_range, count_down_in_up,
      if_pos hi]

/-- C8. For a ready, well-formed block that is not done, or done as `mark_done` leaves
it, and that passes the gate of lines 127-133: when `Work` returns `WORK_DONE`,
`handle_task` returns a state with `done` set whose log has grown by the call of `Work`
followed by exactly one `CheckTokensMessage` upstream per input port and exactly one
downstream per output port, and by nothing else, so no buffer and no tag was posted;
`items_consumed` and `items_produced` are unchanged. -/
theorem work_done_marks_done (k : WorkSentinels) (srt : TagSort) (work : ElementImpl → WorkOut)
    (ti : TaskInterface) (s : ElementImpl) (wf : WellFormed ti s) (hr : Ready s)
    (hrel : DoneReleased s)
    (hgate : no_peer_interested ti (tokens_count s.input_tokens)
      (tokens_count s.output_tokens) = false)
    (hret : (work (prepared srt ti s)).ret = k.WORK_DONE) :
    ∃ s' posts, handle_task k srt work ti s = some s' ∧
      s'.done = true ∧
      s'.log = s.log ++ Event.Work :: posts ∧
      (∀ i, i < ti.num_inputs →
        posts.count (Event.post_upstream i Message.CheckTokensMessage) = 1) ∧
      (∀ i, i < ti.num_outputs →
        posts.count (Event.post_downstream i Message.CheckTokensMessage) = 1) ∧
      (∀ e, e ∈ posts →
        (∃ i, i < ti.num_inputs ∧ e = Event.post_upstream i Message.CheckTokensMessage) ∨
        (∃ i, i < ti.num_outputs ∧ e = Event.post_downstream i Message.CheckTokensMessage)) ∧
      (∀ i, buffers_posted_on i posts = []) ∧
      (∀ e, e ∈ posts → ¬ is_tag_post e) ∧
      s'.items_consumed = s.items_consumed ∧ s'.items_produced = s.items_produced := by
  obtain ⟨s3, hg, g⟩ := gather_total srt ti s wf
  have hp := prepared_eq hg
  rw [hp] at hret
  have f3 := g.frame
  have hd : s.done = false := by
    cases h : s.done with
    | false => rfl
    | true =>
      have := (hrel h).1
      rw [hr.1] at this
      exact Bool.noConfusion this
  have hd3 : s3.done = false := by rw [f3]; exact hd
  have hr' : ¬¬(s.active = true ∧ all_ready s.inputs_ready = true ∧
      all_ready s.outputs_ready = true) := not_not.mpr hr
  have hshape : ∀ e, e ∈ check_tokens_posts ti →
      (∃ i, i < ti.num_inputs ∧ e = Event.post_upstream i Message.CheckTokensMessage) ∨
      (∃ i, i < ti.num_outputs ∧ e = Event.post_downstream i Message.CheckTokensMessage) :=
    fun e he => mem_check_tokens_posts.mp he
  refine ⟨mark_done ti (call_work work s3), check_tokens_posts ti, ?_, ?_, ?_,
    (check_tokens_posts_counts ti).1, (check_tokens_posts_counts ti).2, hshape, ?_, ?_, ?_, ?_⟩
  · rw [handle_task, if_neg hr', hg]
    simp only [hgate, Bool.false_eq_true, if_false, if_pos hret]
  · simp [mark_done, call_work, hd3]
  · have : s3.log = s.log := by rw [f3]
    simp [mark_done, call_work, hd3, this]
  · intro i
    unfold buffers_posted_on
    rw [List.filterMap_eq_nil_iff]
    intro e he
    rcases hshape e he with ⟨_, _, rfl⟩ | ⟨_, _, rfl⟩ <;> rfl
  · intro e he ⟨i, t, h⟩
    rcases hshape e he with ⟨_, _, rfl⟩ | ⟨_, _, rfl⟩
    · exact Event.noConfusion h
    · injection h with _ h2
      exact Message.noConfusion h2
  · have : s3.items_consumed = s.items_consumed := by rw [f3]
    simp [mark_done, call_work, hd3, this]
  · have : s3.items_produced = s.items_produced := by rw [f3]
    simp [mark_done, call_work, hd3, this]

theorem work_done_marks_done_witness :
    WellFormed { num_inputs := 0, num_outputs := 1 } source_block ∧ Ready source_block ∧
    DoneReleased source_block ∧
    ∃ s', handle_task example_sentinels insertion_sort (work_returning (-1))
        { num_inputs := 0, num_outputs := 1 } source_block = some s' ∧
      s'.done = true :=
  ⟨wf_source_block, ready_source_block, fun h => Bool.noConfusion h,
    (let ⟨s', _, h1, h2, _⟩ :=
      work_done_marks_done example_sentinels insertion_sort (work_returning (-1))
        { num_inputs := 0, num_outputs := 1 } source_block wf_source_block ready_source_block
        (fun h => Bool.noConfusion h) (by decide) rfl
     ⟨s', h1, h2⟩)⟩

/-! ## `InputBufferQueues::init` -/

theorem reserve_loop_total (h m : Nat) (hm : 0 < m) (hfit : h + m + m ≤ SIZE_MOD) :
    ∀ (fuel r : Nat), m ∣ r → r < h + m + m → 1 ≤ fuel → h + m < r + fuel →
      ∃ r', InputBufferQueues.reserve_loop h m fuel r = some r' ∧ m ∣ r' ∧ h + m ≤ r' ∧
        r' < h + m + m := by
  have hT : size_add h m = h + m := Nat.mod_eq_of_lt (by omega)
  intro fuel
  induction fuel with
  | zero => intro r _ _ h1 _; omega
  | succ f ih =>
    intro r hdvd hlt _ hfuel
    rw [InputBufferQueues.reserve_loop, hT]
    by_cases hr : r < h + m
    · rw [if_pos hr]
      have hadd : size_add r m = r + m := Nat.mod_eq_of_lt (by omega)
      rw [hadd]
      exact ih (r + m) (Dvd.dvd.add hdvd (dvd_refl m)) (by omega) (by omega) (by omega)
    · rw [if_neg hr]
      exact ⟨r, rfl, hdvd, by omega, hlt⟩

theorem least_multiple {m r T : Nat} (hdvd : m ∣ r) (h2 : r < T + m) :
    ∀ r', m ∣ r' → T ≤ r' → r ≤ r' := by
  intro r' hd' hT
  by_contra hlt
  obtain ⟨a, rfl⟩ := hdvd
  obtain ⟨b, rfl⟩ := hd'
  have hba : b < a := by
    by_contra hge
    exact hlt (Nat.mul_le_mul_left m (not_lt.mp hge))
  have : m * b + m ≤ m * a := by
    have := Nat.mul_le_mul_left m (Nat.succ_le_of_lt hba)
    rw [Nat.mul_succ] at this
    exact this
  omega

theorem init_port_total (fuel : Nat) (alloc : Nat → Nat → Region) (Hs Ms Ss : List Nat)
    (n j : Nat) (q : InputBufferQueues) (sz : Sized q n) (hj : j < n) (s H M : Nat)
    (hs : Ss[j]? = some s) (hH : Hs[j]? = some H) (hM : Ms[j]? = some M) (hpos : 0 < M)
    (hfit : H * s + max 1 (M * s) + max 1 (M * s) ≤ SIZE_MOD) (haux : H * s ≤ 2 ^ 17)
    (hfuel : H * s < fuel) :
    ∃ q' r, InputBufferQueues.init_port fuel alloc Hs Ms Ss j q = some q' ∧ Sized q' n ∧
      q'._history_bytes = q._history_bytes.set j (H * s) ∧
      q'._multiple_bytes = q._multiple_bytes.set j (max 1 (M * s)) ∧
      q'._reserve_bytes = q._reserve_bytes.set j r ∧
      max 1 (M * s) ∣ r ∧ H * s + max 1 (M * s) ≤ r ∧
      r < H * s + max 1 (M * s) + max 1 (M * s) := by
  have hm1 : 0 < max 1 (M * s) := by omega
  have e1 : size_mul s H = H * s := by
    rw [size_mul, Nat.mul_comm]; exact Nat.mod_eq_of_lt (by omega)
  have e2 : size_mul s M = M * s := by
    rw [size_mul, Nat.mul_comm]; exact Nat.mod_eq_of_lt (by omega)
  obtain ⟨r, hr, hdvd, hge, hlt⟩ := reserve_loop_total (H * s) (max 1 (M * s)) hm1 hfit fuel
    (max 1 (M * s)) (dvd_refl _) (by omega) (by omega) (by omega)
  obtain ⟨a, ha, -⟩ := getElem?_some_of_lt q._aux_queues j (by rw [sz.aux_queues]; exact hj)
  obtain ⟨en, hen, -⟩ := getElem?_some_of_lt q._enqueued_bytes j
    (by rw [sz.enqueued_bytes]; exact hj)
  obtain ⟨qu, hqu, -⟩ := getElem?_some_of_lt q._queues j (by rw [sz.queues]; exact hj)
  have l1 : j < q._history_bytes.length := by rw [sz.history_bytes]; exact hj
  have l2 : j < q._multiple_bytes.length := by rw [sz.multiple_bytes]; exact hj
  have l3 : j < q._reserve_bytes.length := by rw [sz.reserve_bytes]; exact hj
  have l4 : j < q._enqueued_bytes.length := by rw [sz.enqueued_bytes]; exact hj
  have l5 : j < q._bitset.length := by rw [sz.bitset]; exact hj
  have hpos' : ¬¬(M > 0) := not_not.mpr hpos
  by_cases hpush : H * s ≠ 0 ∧ en < H * s
  · refine ⟨_, r, by
      simp only [InputBufferQueues.init_port, bind, pure, hM, Option.some_bind, if_neg hpos', ha,
        hs, hH, e1, e2, hr, l1, l2, l3, and_self, if_true, hen, hpush.1, hpush.2, and_true, ne_eq,
        not_false_eq_true,
        BufferQueue.allocate_one,
        List.nil_append, List.cons_append, List.head?_cons, SBuffer.memset_zero, haux,
        InputBufferQueues.push, hqu, vset_eq_some, l4, InputBufferQueues.__update,
        List.getElem?_set_self, List.length_set, l5, Option.bind]
      rfl, ?_, rfl, rfl, rfl, hdvd, hge, hlt⟩
    constructor <;> simp [sz.bitset, sz.enqueued_bytes, sz.queues, sz.history_bytes,
      sz.reserve_bytes, sz.multiple_bytes, sz.post_bytes, sz.aux_queues, sz.in_hist_buff]
  · refine ⟨_, r, by
      simp only [InputBufferQueues.init_port, bind, pure, hM, Option.some_bind, if_neg hpos', ha,
        hs, hH, e1, e2, hr, l1, l2, l3, and_self, if_true, hen, hpush, if_false, Option.bind]
      rfl, ?_, rfl, rfl, rfl, hdvd, hge, hlt⟩
    constructor <;> simp [sz.bitset, sz.enqueued_bytes, sz.queues, sz.history_bytes,
      sz.reserve_bytes, sz.multiple_bytes, sz.post_bytes, sz.aux_queues, sz.in_hist_buff]

theorem getElem?_set_cases {α : Type} (xs : List α) (j p : Nat) (v : α) (hj : j < xs.length) :
    (xs.set j v)[p]? = if p = j then some v else xs[p]? := by
  by_cases h : p = j
  · subst h; simp [hj]
  · rw [if_neg h, getElem?_set_of_ne _ _ (fun e => h e.symm)]

/-- C9, amended. Let `resize` have given every member vector one entry per port, and
let `init` be given one item size `s`, history item count `H` and multiple item count
`M > 0` per port, such that the byte sizes fit a `size_t`
(`H * s + 2 * max(1, M * s) ≤ 2 ^ 64`) and the history fits the auxiliary buffer of
128 KiB whose first `H * s` bytes line 191 zeroes. Then `init` returns for every fuel
above the history bytes, the loop of lines 169-172 having terminated on every port, and
for every port `i`: `multiple_bytes[i]` is `max(1, M * s)`, `history_bytes[i]` is
`H * s`, and `reserve_bytes[i]` is the least positive multiple of `multiple_bytes[i]`
that is at least `history_bytes[i] + multiple_bytes[i]`. -/
theorem init_sizes (fuel : Nat) (alloc : Nat → Nat → Region) (q : InputBufferQueues)
    (Hs Ms Ss : List Nat) (n : Nat) (sz : Sized q n)
    (hH : Hs.length = n) (hM : Ms.length = n) (hS : Ss.length = n)
    (hpos : ∀ M, M ∈ Ms → 0 < M)
    (hfit : ∀ (i s H M : Nat), Ss[i]? = some s → Hs[i]? = some H → Ms[i]? = some M →
      H * s + max 1 (M * s) + max 1 (M * s) ≤ SIZE_MOD)
    (haux : ∀ (i s H : Nat), Ss[i]? = some s → Hs[i]? = some H → H * s ≤ 2 ^ 17)
    (hfuel : ∀ (i s H : Nat), Ss[i]? = some s → Hs[i]? = some H → H * s < fuel) :
    ∃ q', InputBufferQueues.init fuel alloc q Hs Ms Ss = some q' ∧
      ∀ (i s H M : Nat), Ss[i]? = some s → Hs[i]? = some H → Ms[i]? = some M →
        q'._multiple_bytes[i]? = some (max 1 (M * s)) ∧
        q'._history_bytes[i]? = some (H * s) ∧
        ∃ r, q'._reserve_bytes[i]? = some r ∧ 0 < r ∧ max 1 (M * s) ∣ r ∧
          H * s + max 1 (M * s) ≤ r ∧
          ∀ r', max 1 (M * s) ∣ r' → H * s + max 1 (M * s) ≤ r' → r ≤ r' := by
  have key : ∃ q', forLoop (InputBufferQueues.init_port fuel alloc Hs Ms Ss) n 0 q = some q' ∧
      InitUpTo n Hs Ms Ss (0 + n) q' := by
    refine forLoop_total _ (InitUpTo n Hs Ms Ss) n 0 q
      ⟨sz, fun p hp => absurd hp (Nat.not_lt_zero p), fun p hp => absurd hp (Nat.not_lt_zero p),
        fun p hp => absurd hp (Nat.not_lt_zero p)⟩ ?_
    intro j t _ hj inv
    have hj' : j < n := by omega
    obtain ⟨s, hs, -⟩ := getElem?_some_of_lt Ss j (by rw [hS]; exact hj')
    obtain ⟨H, hHj, -⟩ := getElem?_some_of_lt Hs j (by rw [hH]; exact hj')
    obtain ⟨M, hMj, hMm⟩ := getElem?_some_of_lt Ms j (by rw [hM]; exact hj')
    have b1 := hfit j s H M hs hHj hMj
    have b2 := haux j s H hs hHj
    have b3 := hfuel j s H hs hHj
    obtain ⟨q', r, e, sz', eh, em, er, hdvd, hge, hlt⟩ :=
      init_port_total fuel alloc Hs Ms Ss n j t inv.sized hj' s H M hs hHj hMj (hpos M hMm)
        b1 b2 b3
    have l1 : j < t._history_bytes.length := by rw [inv.sized.history_bytes]; exact hj'
    have l2 : j < t._multiple_bytes.length := by rw [inv.sized.multiple_bytes]; exact hj'
    have l3 : j < t._reserve_bytes.length := by rw [inv.sized.reserve_bytes]; exact hj'
    refine ⟨q', e, sz', ?_, ?_, ?_⟩
    · intro p hp s' H' hs' hH'
      rw [eh, getElem?_set_cases _ _ _ _ l1]
      by_cases hpj : p = j
      · subst hpj
        rw [hs] at hs'; rw [hHj] at hH'
        injection hs' with hs'; injection hH' with hH'
        subst hs' hH'
        simp
      · rw [if_neg hpj]; exact inv.history p (by omega) s' H' hs' hH'
    · intro p hp s' M' hs' hM'
      rw [em, getElem?_set_cases _ _ _ _ l2]
      by_cases hpj : p = j
      · subst hpj
        rw [hs] at hs'; rw [hMj] at hM'
        injection hs' with hs'; injection hM' with hM'
        subst hs' hM'
        simp
      · rw [if_neg hpj]; exact inv.multiple p (by omega) s' M' hs' hM'
    · intro p hp s' H' M' hs' hH' hM'
      rw [er, getElem?_set_cases _ _ _ _ l3]
      by_cases hpj : p = j
      · subst hpj
        rw [hs] at hs'; rw [hHj] at hH'; rw [hMj] at hM'
        injection hs' with hs'; injection hH' with hH'; injection hM' with hM'
        subst hs' hH' hM'
        exact ⟨r, by simp, hdvd, hge, hlt⟩
      · rw [if_neg hpj]; exact inv.reserve p (by omega) s' H' M' hs' hH' hM'
  obtain ⟨q', e, inv⟩ := key
  rw [Nat.zero_add] at inv
  have hsize : q.size = n := sz.queues
  refine ⟨if n = 0 then q else q', ?_, ?_⟩
  · rw [InputBufferQueues.init, hsize]
    by_cases h0 : n = 0
    · rw [if_pos h0, if_pos h0]
    · rw [if_neg h0, if_neg h0]; exact e
  · intro i s H M hs hHi hMi
    have hi : i < n := by
      rw [← hS]; exact (List.getElem?_eq_some.mp hs).1
    have h0 : n ≠ 0 := by omega
    rw [if_neg h0]
    obtain ⟨r, hr, hdvd, hge, hlt⟩ := inv.reserve i hi s H M hs hHi hMi
    refine ⟨inv.multiple i hi s M hs hMi, inv.history i hi s H hs hHi, r, hr, by omega, hdvd,
      hge, least_multiple hdvd hlt⟩

theorem sized_resize_empty (n : Nat) : Sized (InputBufferQueues.empty.resize n) n := by
  constructor <;> simp [InputBufferQueues.resize, InputBufferQueues.empty, vresize]

theorem init_sizes_witness :
    Sized (InputBufferQueues.empty.resize 1) 1 ∧
    (∃ q', InputBufferQueues.init 13 example_alloc (InputBufferQueues.empty.resize 1)
        [3] [1] [4] = some q' ∧ q'._history_bytes[0]? = some (3 * 4)) ∧
    (InputBufferQueues.init 13 example_alloc (InputBufferQueues.empty.resize 1) [3] [1] [4]).map
      (fun q' => (q'._history_bytes, q'._multiple_bytes, q'._reserve_bytes)) =
      some ([12], [4], [16]) :=
  ⟨sized_resize_empty 1,
    (let ⟨q', h1, h2⟩ := init_sizes 13 example_alloc (InputBufferQueues.empty.resize 1)
        [3] [1] [4] 1 (sized_resize_empty 1) rfl rfl rfl (by decide)
        (by
          intro i s H M hs hH hM
          cases i with
          | zero =>
            simp only [List.getElem?_cons_zero, Option.some.injEq] at hs hH hM
            subst hs hH hM
            decide
          | succ i => simp at hs)
        (by
          intro i s H hs hH
          cases i with
          | zero =>
            simp only [List.getElem?_cons_zero, Option.some.injEq] at hs hH
            subst hs hH
            decide
          | succ i => simp at hs)
        (by
          intro i s H hs hH
          cases i with
          | zero =>
            simp only [List.getElem?_cons_zero, Option.some.injEq] at hs hH
            subst hs hH
            decide
          | succ i => simp at hs)
     ⟨q', h1, (h2 0 4 3 1 rfl rfl rfl).2.1⟩),
    by decide⟩

/-- With `2 ^ 64 - 3` history bytes and 2 multiple bytes the loop of lines 169-172 goes
on for ever: `reserve_bytes` stays even and so below the odd `history + multiple`, the
addition of line 171 wrapping at `2 ^ 64 - 2`. -/
theorem reserve_loop_wraps : ∀ (fuel r : Nat), r % 2 = 0 → r < SIZE_MOD →
    InputBufferQueues.reserve_loop (2 ^ 64 - 3) 2 fuel r = none := by
  intro fuel
  induction fuel with
  | zero => intro r _ _; rfl
  | succ f ih =>
    intro r h1 h2
    have hs : size_add (2 ^ 64 - 3) 2 = 2 ^ 64 - 1 := by decide
    have hlt : r < 2 ^ 64 - 1 := by
      have : SIZE_MOD = 2 ^ 64 := rfl
      omega
    rw [InputBufferQueues.reserve_loop, hs, if_pos hlt]
    refine ih _ ?_ ?_
    · simp only [size_add, SIZE_MOD]; omega
    · exact Nat.mod_lt _ (by decide)

/-- C9 fails as stated. With items of `2 ^ 63` bytes and 2 history items the product
`H * s` is `2 ^ 64`, which no `size_t` holds: `init` returns with `history_bytes[0] = 0`
and `reserve_bytes[0] = 2 ^ 63`, below `H * s`. With 1-byte items, `2 ^ 64 - 3` history
items and a multiple of 2 items, no multiple of 2 that a `size_t` holds reaches
`history_bytes + multiple_bytes = 2 ^ 64 - 1`: the loop of lines 169-172 does not
terminate, and `init` returns for no fuel. With 4-byte items and 40000 history items,
line 191 zeroes 160000 bytes of an auxiliary buffer of 131072 bytes: `init` returns for
no fuel. -/
theorem init_sizes_counterexample :
    (InputBufferQueues.init 2 example_alloc (InputBufferQueues.empty.resize 1)
        [2] [1] [2 ^ 63]).map
      (fun q' => (q'._history_bytes, q'._multiple_bytes, q'._reserve_bytes)) =
      some ([0], [2 ^ 63], [2 ^ 63]) ∧
    2 * 2 ^ 63 = SIZE_MOD ∧
    (∀ fuel, InputBufferQueues.init fuel example_alloc (InputBufferQueues.empty.resize 1)
      [2 ^ 64 - 3] [2] [1] = none) ∧
    ∀ fuel, InputBufferQueues.init fuel example_alloc (InputBufferQueues.empty.resize 1)
      [40000] [1] [4] = none := by
  refine ⟨by decide!, by decide, ?_, ?_⟩
  · intro fuel
    have h := reserve_loop_wraps fuel 2 (by decide) (by decide)
    have e1 : size_mul 1 (2 ^ 64 - 3) = 2 ^ 64 - 3 := by decide
    have e2 : max 1 (size_mul 1 2) = 2 := by decide
    have key : InputBufferQueues.init_port fuel example_alloc [2 ^ 64 - 3] [2] [1] 0
        (InputBufferQueues.empty.resize 1) = none := by
      simp only [InputBufferQueues.init_port, bind, pure, List.getElem?_cons_zero,
        Option.some_bind, e1, e2, h, Option.bind]
      rfl
    rw [InputBufferQueues.init]
    simp only [forLoop, key]
    rfl
  · intro fuel
    have key : InputBufferQueues.init_port fuel example_alloc [40000] [1] [4] 0
        (InputBufferQueues.empty.resize 1) = none := by
      cases h : InputBufferQueues.reserve_loop (size_mul 4 40000) (max 1 (size_mul 4 1)) fuel
          (max 1 (size_mul 4 1)) with
      | none =>
        simp only [InputBufferQueues.init_port, bind, pure, List.getElem?_cons_zero,
          Option.some_bind, h, Option.bind]
        rfl
      | some r =>
        simp only [InputBufferQueues.init_port, bind, pure, List.getElem?_cons_zero,
          Option.some_bind, h, Option.bind]
        rfl
    rw [InputBufferQueues.init]
    simp only [forLoop, key]
    rfl

/-! ## `InputBufferQueues::__prepare` and `InputBufferQueues::front` -/

theorem size_add_eq {a b : Nat} (h : a + b < SIZE_MOD) : size_add a b = a + b :=
  Nat.mod_eq_of_lt h

theorem size_sub_eq {a b : Nat} (hb : b ≤ a) (ha : a < SIZE_MOD) : size_sub a b = a - b := by
  have h1 : a % SIZE_MOD = a := Nat.mod_eq_of_lt ha
  have h2 : b % SIZE_MOD = b := Nat.mod_eq_of_lt (by omega)
  rw [size_sub, h1, h2]
  have : a + (SIZE_MOD - b) = (a - b) + SIZE_MOD := by omega
  rw [this, Nat.add_mod_right]
  exact Nat.mod_eq_of_lt (by omega)

theorem size_mul_eq {a b : Nat} (h : a * b < SIZE_MOD) : size_mul a b = a * b :=
  Nat.mod_eq_of_lt h

/-- The effect of `merge_source` on a destination whose window lies in its region. -/
theorem merge_source_eq (dst src : SBuffer) (rest : List SBuffer)
    (hd1 : dst.offset + dst.length ≤ dst.actual_length) (hd2 : dst.actual_length < SIZE_MOD)
    (hs1 : src.offset + src.length ≤ src.actual_length) (hs2 : src.actual_length < SIZE_MOD) :
    InputBufferQueues.merge_source dst (src :: rest) =
      some ({ dst with
          bytes := copy_bytes dst.bytes src.bytes (dst.offset + dst.length) src.offset
            (min (dst.actual_length - (dst.offset + dst.length)) src.length)
          length := dst.length + min (dst.actual_length - (dst.offset + dst.length)) src.length } ::
        (if src.length - min (dst.actual_length - (dst.offset + dst.length)) src.length ≠ 0 then
          { src with
            offset := src.offset + min (dst.actual_length - (dst.offset + dst.length)) src.length
            length := src.length - min (dst.actual_length - (dst.offset + dst.length)) src.length }
            :: rest
        else rest)) := by
  have e2 : size_add dst.offset dst.length = dst.offset + dst.length := size_add_eq (by omega)
  have e3 : size_sub dst.actual_length (dst.offset + dst.length) =
      dst.actual_length - (dst.offset + dst.length) := size_sub_eq hd1 hd2
  have hmin1 : min (dst.actual_length - (dst.offset + dst.length)) src.length ≤
      dst.actual_length - (dst.offset + dst.length) := Nat.min_le_left _ _
  have hmin2 : min (dst.actual_length - (dst.offset + dst.length)) src.length ≤ src.length :=
    Nat.min_le_right _ _
  simp only [InputBufferQueues.merge_source, e2, e3]
  generalize hb : min (dst.actual_length - (dst.offset + dst.length)) src.length = bytes at *
  have e4 : size_add dst.length bytes = dst.length + bytes := size_add_eq (by omega)
  have e5 : size_add src.offset bytes = src.offset + bytes := size_add_eq (by omega)
  have e6 : size_sub src.length bytes = src.length - bytes := size_sub_eq hmin2 (by omega)
  have c1 : dst.offset + dst.length + bytes ≤ dst.actual_length ∧
      src.offset + bytes ≤ src.actual_length := ⟨by omega, by omega⟩
  rw [SBuffer.memcpy_tail, if_pos c1]
  simp only [e4, e5, e6]

/-- A pass of the merge loop that appends to the front buffer in place. -/
theorem prepare_step_in_place (R : Nat) (f src : SBuffer) (rest : List SBuffer)
    (aux : Option BufferQueue) (hu : f.unique = true) (hsp : R + f.offset ≤ f.actual_length)
    (hf : f.Valid R) (hs : src.Valid R) :
    InputBufferQueues.prepare_step R (f :: src :: rest) aux =
      some ({ f with
          bytes := copy_bytes f.bytes src.bytes (f.offset + f.length) src.offset
            (min (f.actual_length - (f.offset + f.length)) src.length)
          length := f.length + min (f.actual_length - (f.offset + f.length)) src.length } ::
        (if src.length - min (f.actual_length - (f.offset + f.length)) src.length ≠ 0 then
          { src with
            offset := src.offset + min (f.actual_length - (f.offset + f.length)) src.length
            length := src.length - min (f.actual_length - (f.offset + f.length)) src.length }
            :: rest
        else rest), aux) := by
  obtain ⟨hf1, hf2⟩ := hf
  obtain ⟨hs1, hs2⟩ := hs
  have e1 : size_add R f.offset = R + f.offset := size_add_eq (by omega)
  have c2 : f.actual_length ≥ size_add R f.offset ∧ f.unique = true := by
    rw [e1]; exact ⟨hsp, hu⟩
  have hpick : InputBufferQueues.pick_destination R (f :: src :: rest) aux =
      some (f, src :: rest, aux) := by
    simp only [InputBufferQueues.pick_destination, List.head?_cons, List.tail_cons]
    rw [if_pos c2]
  rw [InputBufferQueues.prepare_step, hpick, Option.some_bind,
    merge_source_eq f src rest hf1 (by omega) hs1 (by omega), Option.map_some']

/-- A pass of the merge loop that stages the front buffer in a buffer of the pool. -/
theorem prepare_step_staged (R : Nat) (f d : SBuffer) (rest : List SBuffer) (pool : BufferQueue)
    (hno : ¬ (f.actual_length ≥ size_add R f.offset ∧ f.unique = true)) (hfl : f.length < R)
    (hf : f.Valid R) (hd1 : R ≤ d.actual_length) (hd2 : d.actual_length + R < SIZE_MOD) :
    InputBufferQueues.prepare_step R (f :: rest) (some (d :: pool)) =
      some ({ d with
          bytes := copy_bytes d.bytes f.bytes 0 f.offset f.length
          offset := 0
          length := f.length } :: rest, some pool) := by
  obtain ⟨hf1, hf2⟩ := hf
  have hpick : InputBufferQueues.pick_destination R (f :: rest) (some (d :: pool)) =
      some (InputBufferQueues.staging_buffer d, f :: rest, some pool) := by
    simp only [InputBufferQueues.pick_destination, List.head?_cons, List.tail_cons]
    rw [if_neg hno]
  have h1 : (InputBufferQueues.staging_buffer d).offset + (InputBufferQueues.staging_buffer d).length ≤
      (InputBufferQueues.staging_buffer d).actual_length := Nat.zero_le _
  have h2 : (InputBufferQueues.staging_buffer d).actual_length < SIZE_MOD := by
    show d.actual_length < SIZE_MOD
    omega
  have hb : min ((InputBufferQueues.staging_buffer d).actual_length -
      ((InputBufferQueues.staging_buffer d).offset + (InputBufferQueues.staging_buffer d).length)) f.length = f.length := by
    show min (d.actual_length - (0 + 0)) f.length = f.length
    exact Nat.min_eq_right (by omega)
  rw [InputBufferQueues.prepare_step, hpick, Option.some_bind,
    merge_source_eq (InputBufferQueues.staging_buffer d) f rest h1 h2 hf1 (by omega), Option.map_some', hb,
    Nat.sub_self]
  simp only [ne_eq, not_true_eq_false, if_false]
  have e0 : (InputBufferQueues.staging_buffer d).offset + (InputBufferQueues.staging_buffer d).length = 0 := rfl
  have e1 : (InputBufferQueues.staging_buffer d).length + f.length = f.length := Nat.zero_add _
  rw [e0, e1]
  rfl

theorem total_length_cons (b : SBuffer) (rest : List SBuffer) :
    total_length (b :: rest) = b.length + total_length rest := by
  simp [total_length]

/-- The merge loop of `__prepare`, once the front of the deque is a buffer that the
queue alone holds and that has room for the reserve: it returns, with the same buffer at
the front, now holding at least the reserve. -/
theorem prepare_loop_in_place (R : Nat) (aux : Option BufferQueue) :
    ∀ (fuel : Nat) (f : SBuffer) (rest : List SBuffer), f.unique = true →
      R + f.offset ≤ f.actual_length → (∀ b, b ∈ f :: rest → b.Valid R) →
      R ≤ total_length (f :: rest) → 1 ≤ fuel → (f.length < R → rest.length + 1 ≤ fuel) →
      ∃ f' rest', InputBufferQueues.prepare_loop R fuel (f :: rest) aux =
          some (f' :: rest', aux) ∧
        R ≤ f'.length ∧ f'.memory = f.memory ∧ f'.offset = f.offset ∧
        f'.actual_length = f.actual_length ∧ f'.unique = f.unique ∧
        (∀ b, b ∈ f' :: rest' → b.Valid R) ∧
        total_length (f' :: rest') = total_length (f :: rest) := by
  intro fuel
  induction fuel with
  | zero => intro f rest _ _ _ _ h; omega
  | succ n ih =>
    intro f rest hu hsp hv htot _ hfuel
    rw [InputBufferQueues.prepare_loop]
    simp only [List.head?_cons]
    by_cases hlen : f.length < R
    · rw [if_pos hlen]
      have hfuel' := hfuel hlen
      cases rest with
      | nil =>
        rw [total_length_cons] at htot
        have : total_length [] = 0 := rfl
        omega
      | cons src rest' =>
        have hvf := hv f (List.mem_cons_self _ _)
        have hvs := hv src (List.mem_cons_of_mem _ (List.mem_cons_self _ _))
        have hvr : ∀ b, b ∈ rest' → b.Valid R := fun b hb =>
          hv b (List.mem_cons_of_mem _ (List.mem_cons_of_mem _ hb))
        rw [prepare_step_in_place R f src rest' aux hu hsp hvf hvs, Option.some_bind]
        have hmin1 : min (f.actual_length - (f.offset + f.length)) src.length ≤
            f.actual_length - (f.offset + f.length) := Nat.min_le_left _ _
        have hmin2 : min (f.actual_length - (f.offset + f.length)) src.length ≤ src.length :=
          Nat.min_le_right _ _
        have hcases : min (f.actual_length - (f.offset + f.length)) src.length = src.length ∨
            min (f.actual_length - (f.offset + f.length)) src.length =
              f.actual_length - (f.offset + f.length) := by
          rcases Nat.le_total (f.actual_length - (f.offset + f.length)) src.length with h | h
          · exact Or.inr (Nat.min_eq_left h)
          · exact Or.inl (Nat.min_eq_right h)
        generalize min (f.actual_length - (f.offset + f.length)) src.length = bytes at *
        obtain ⟨hf1, hf2⟩ := hvf
        obtain ⟨hs1, hs2⟩ := hvs
        simp only [total_length_cons] at htot
        simp only [List.length_cons] at hfuel'
        have key := ih
          { f with
            bytes := copy_bytes f.bytes src.bytes (f.offset + f.length) src.offset bytes
            length := f.length + bytes }
          (if src.length - bytes ≠ 0 then
            { src with offset := src.offset + bytes, length := src.length - bytes } :: rest'
           else rest') hu hsp ?_ ?_ (by omega) ?_
        · obtain ⟨f', r', e, h1, h2, h3, h4, h5, h6, h7⟩ := key
          refine ⟨f', r', e, h1, h2, h3, h4, h5, h6, ?_⟩
          rw [h7]
          simp only [total_length_cons]
          by_cases hne : src.length - bytes ≠ 0
          · rw [if_pos hne]; simp only [total_length_cons]; omega
          · rw [if_neg hne]; omega
        · intro b hb
          rcases List.mem_cons.mp hb with rfl | hb
          · exact ⟨by simp only; omega, hf2⟩
          · by_cases hne : src.length - bytes ≠ 0
            · rw [if_pos hne] at hb
              rcases List.mem_cons.mp hb with rfl | hb
              · exact ⟨by simp only; omega, hs2⟩
              · exact hvr b hb
            · rw [if_neg hne] at hb
              exact hvr b hb
        · simp only [total_length_cons]
          by_cases hne : src.length - bytes ≠ 0
          · rw [if_pos hne]; simp only [total_length_cons]; omega
          · rw [if_neg hne]; omega
        · intro hshort
          simp only at hshort
          by_cases hne : src.length - bytes ≠ 0
          · have : bytes = f.actual_length - (f.offset + f.length) := by
              rcases hcases with h | h
              · omega
              · exact h
            omega
          · rw [if_neg hne]; omega
    · rw [if_neg hlen]
      exact ⟨f, rest, rfl, by omega, rfl, rfl, rfl, rfl, hv, rfl⟩

/-- The merge loop of `__prepare` returns when given enough fuel, and leaves a front
buffer that holds at least the reserve; the sum of the lengths is unchanged. -/
theorem prepare_loop_total (R : Nat) (fuel : Nat) (f : SBuffer) (rest : List SBuffer)
    (aux : Option BufferQueue) (hv : ∀ b, b ∈ f :: rest → b.Valid R)
    (htot : R ≤ total_length (f :: rest)) (hst : CanStage R f aux)
    (hfuel : rest.length + 2 ≤ fuel) :
    ∃ f' rest' aux', InputBufferQueues.prepare_loop R fuel (f :: rest) aux =
        some (f' :: rest', aux') ∧
      R ≤ f'.length ∧ (∀ b, b ∈ f' :: rest' → b.Valid R) ∧
      total_length (f' :: rest') = total_length (f :: rest) := by
  obtain ⟨hf1, hf2⟩ := hv f (List.mem_cons_self _ _)
  have e1 : size_add R f.offset = R + f.offset := size_add_eq (by omega)
  by_cases hin : f.unique = true ∧ R + f.offset ≤ f.actual_length
  · obtain ⟨f', rest', e, h1, -, -, -, -, h6, h7⟩ :=
      prepare_loop_in_place R aux fuel f rest hin.1 hin.2 hv htot (by omega) (fun _ => by omega)
    exact ⟨f', rest', aux, e, h1, h6, h7⟩
  · by_cases hlen : f.length < R
    · have hno : ¬ (f.actual_length ≥ size_add R f.offset ∧ f.unique = true) := by
        rw [e1]; exact fun h => hin ⟨h.2, h.1⟩
      rcases hst with h | h | ⟨d, pool, rfl, hdu, hd1, hd2⟩
      · omega
      · exact absurd h hin
      · obtain ⟨n, rfl⟩ : ∃ n, fuel = n + 1 := ⟨fuel - 1, by omega⟩
        have hv' : ∀ b, b ∈ ({ d with
            bytes := copy_bytes d.bytes f.bytes 0 f.offset f.length
            offset := 0
            length := f.length } : SBuffer) :: rest → b.Valid R := by
          intro b hb
          rcases List.mem_cons.mp hb with rfl | hb
          · exact ⟨by simp only; omega, hd2⟩
          · exact hv b (List.mem_cons_of_mem _ hb)
        obtain ⟨f', rest', e, h1, -, -, -, -, h6, h7⟩ :=
          prepare_loop_in_place R (some pool) n
            { d with
              bytes := copy_bytes d.bytes f.bytes 0 f.offset f.length
              offset := 0
              length := f.length } rest hdu (by simp only; omega) hv'
            (by rw [total_length_cons] at htot ⊢; exact htot) (by omega) (fun _ => by omega)
        refine ⟨f', rest', some pool, ?_, h1, h6, ?_⟩
        · rw [InputBufferQueues.prepare_loop]
          simp only [List.head?_cons]
          rw [if_pos hlen, prepare_step_staged R f d rest pool hno hlen ⟨hf1, hf2⟩ hd1 hd2,
            Option.some_bind]
          exact e
        · rw [h7, total_length_cons, total_length_cons]
    · obtain ⟨n, rfl⟩ : ∃ n, fuel = n + 1 := ⟨fuel - 1, by omega⟩
      refine ⟨f, rest, aux, ?_, by omega, hv, rfl⟩
      rw [InputBufferQueues.prepare_loop]
      simp only [List.head?_cons]
      rw [if_neg hlen]

/-- `__prepare` returns when given enough fuel, and leaves at the front of the deque a
buffer that holds at least the reserve. -/
theorem prepare_total (fuel : Nat) (q : InputBufferQueues) (i : Nat) (f : SBuffer)
    (rest : List SBuffer) (h m R : Nat) (aux : Option BufferQueue)
    (hr : FrontReady q i f rest h m R aux) (hfuel : rest.length + 2 ≤ fuel) :
    ∃ f' rest' aux', InputBufferQueues.__prepare fuel q i =
        some { q with _queues := q._queues.set i (f' :: rest'),
                      _aux_queues := q._aux_queues.set i aux' } ∧
      R ≤ f'.length ∧ (∀ b, b ∈ f' :: rest' → b.Valid R) ∧
      total_length (f' :: rest') = total_length (f :: rest) := by
  obtain ⟨f', rest', aux', e, h1, h2, h3⟩ :=
    prepare_loop_total R fuel f rest aux hr.valid hr.reserved hr.stage hfuel
  refine ⟨f', rest', aux', ?_, h1, h2, h3⟩
  have hh : ¬¬(f.length ≥ h) := not_not.mpr hr.front_history
  simp only [InputBufferQueues.__prepare, bind, pure, hr.queue, Option.some_bind,
    List.head?_cons, hr.history, if_neg hh, hr.reserve, hr.aux_queue, e, Option.bind]

/-- C10, amended. On a port that is ready, with a non-empty deque `f :: rest`, in a state
where (`FrontReady`) `multiple_bytes[i] ≥ 1` and
`reserve_bytes[i] ≥ history_bytes[i] + multiple_bytes[i]`, `enqueued_bytes[i]` is the sum
of the lengths of the deque entries, the front holds at least `history_bytes[i]` (the
assertions of lines 210 and 236), the windows lie in their regions, and the merge loop has
a destination that holds the reserve (the front already does, or the queue alone holds it
and it has room, or the pool has such a buffer at its front), `front` returns for every
fuel of at least the length of the deque plus one. The buffer `buf` it returns has a
length that is a multiple of `multiple_bytes[i]` and at least `multiple_bytes[i]`; the
front entry `f'` of the deque after the call has length at least
`history_bytes[i] + buf.length`; `buf` is that front entry with another length, so with
the same backing memory and offset; and `potential_inline` is
`unique(f') ∧ history_bytes[i] == 0 ∧ buf.length == f'.length`. -/
theorem front_view (fuel : Nat) (q : InputBufferQueues) (i : Nat) (f : SBuffer)
    (rest : List SBuffer) (h m R : Nat) (aux : Option BufferQueue)
    (hr : FrontReady q i f rest h m R aux) (hfuel : rest.length + 2 ≤ fuel) :
    ∃ buf potential_inline q' f' rest',
      InputBufferQueues.front fuel q i = some (buf, potential_inline, q') ∧
      q'._queues[i]? = some (f' :: rest') ∧
      m ∣ buf.length ∧ m ≤ buf.length ∧ h + buf.length ≤ f'.length ∧
      buf = { f' with length := buf.length } ∧
      buf.memory = f'.memory ∧ buf.offset = f'.offset ∧
      potential_inline = (f'.unique && decide (h = 0) && decide (buf.length = f'.length)) := by
  obtain ⟨f', rest', aux', e, h1, h2, -⟩ := prepare_total fuel q i f rest h m R aux hr hfuel
  obtain ⟨hv1, hv2⟩ := h2 f' (List.mem_cons_self _ _)
  have hi : i < q._queues.length := (List.getElem?_eq_some.mp hr.queue).1
  have hge := hr.reserve_ge
  have hm := hr.multiple_pos
  have e1 : size_sub f'.length h = f'.length - h := size_sub_eq (by omega) (by omega)
  have hle : (f'.length - h) / m * m ≤ f'.length - h := Nat.div_mul_le_self _ _
  have e2 : size_mul ((f'.length - h) / m) m = (f'.length - h) / m * m :=
    size_mul_eq (by omega)
  have hone : 1 ≤ (f'.length - h) / m := (Nat.le_div_iff_mul_le (by omega)).mpr (by omega)
  have hmle : m ≤ (f'.length - h) / m * m := by
    have := Nat.mul_le_mul_right m hone
    omega
  have hh : ¬¬(f'.length ≥ h) := not_not.mpr (by omega)
  have hm0 : ¬ m = 0 := by omega
  refine ⟨{ f' with length := (f'.length - h) / m * m },
    f'.unique && decide (h = 0) && decide ((f'.length - h) / m * m = f'.length),
    { q with _queues := q._queues.set i (f' :: rest'),
             _aux_queues := q._aux_queues.set i aux' }, f', rest', ?_, ?_,
    Dvd.intro_left _ rfl, hmle, by simp only; omega, rfl, rfl, rfl, rfl⟩
  · simp only [InputBufferQueues.front, bind, pure, hr.queue, Option.some_bind,
      List.isEmpty_cons, Bool.false_eq_true, if_false, InputBufferQueues.ready, hr.ready, e,
      List.getElem?_set_self hi, List.head?_cons, hr.history, if_neg hh, hr.multiple,
      if_neg hm0, e1, e2, Option.bind]
    rfl
  · simp only [List.getElem?_set_self hi]

theorem front_ready_example :
    FrontReady example_queues 0 example_history_buffer [example_pushed_buffer] 12 4 16
      (some [{ memory := 1, actual_length := 2 ^ 17, bytes := fun _ => 0,
               offset := 0, length := 2 ^ 17, unique := true }]) :=
  { queue := rfl, ready := rfl, history := rfl, multiple := rfl, reserve := rfl,
    aux_queue := rfl, enqueued := rfl, reserved := by decide, multiple_pos := by decide,
    reserve_ge := by decide, front_history := by decide,
    valid := by
      intro b hb
      rcases List.mem_cons.mp hb with rfl | hb
      · exact ⟨by decide, by decide⟩
      · rw [List.mem_singleton] at hb
        subst hb
        exact ⟨by decide, by decide⟩
    stage := Or.inr (Or.inl ⟨rfl, by decide⟩) }

theorem front_view_witness :
    FrontReady example_queues 0 example_history_buffer [example_pushed_buffer] 12 4 16
      (some [{ memory := 1, actual_length := 2 ^ 17, bytes := fun _ => 0,
               offset := 0, length := 2 ^ 17, unique := true }]) ∧
    (∃ buf potential_inline q', InputBufferQueues.front 3 example_queues 0 =
        some (buf, potential_inline, q') ∧ 4 ∣ buf.length ∧ 4 ≤ buf.length) ∧
    (InputBufferQueues.front 3 example_queues 0).map
      (fun r => (r.1.length, r.1.offset, r.1.memory, r.2.1)) = some (100, 0, 0, false) ∧
    (InputBufferQueues.front 3 example_queues 0).map
      (fun r => r.2.2._queues.map (fun d => d.map (fun b => b.length))) = some [[112]] :=
  ⟨front_ready_example,
    (let ⟨buf, pi, q', _, _, h1, _, h2, h3, _⟩ :=
      front_view 3 example_queues 0 example_history_buffer [example_pushed_buffer] 12 4 16 _
        front_ready_example (by decide)
     ⟨buf, pi, q', h1, h2, h3⟩),
    by decide, by decide⟩

/-- C10 fails as stated. Three ports that are ready with a non-empty deque, on which
`front` returns for no fuel. On a port with 12 history bytes whose seed was consumed
before a buffer was pushed, the front holds 0 bytes and the assertion of line 236 fails.
On a port with a reserve of 64 bytes where a flush left `enqueued_bytes` at 100 and 40
bytes were pushed, the port is ready with 40 bytes in its deque, and the second pass of
the merge loop reads the front of an empty deque. On a port with a reserve of 256 KiB
holding two buffers of 128 KiB, no buffer can hold the reserve. -/
theorem front_view_counterexample :
    (run_queue_calls history_consumed_calls InputBufferQueues.empty).map
      (fun q => (q.ready 0, q._history_bytes[0]?,
        (q._queues[0]?).map (fun d => d.map (fun b => b.length)))) =
      some (some true, some 12, some [0, 100]) ∧
    (∀ fuel, (run_queue_calls history_consumed_calls InputBufferQueues.empty).bind
      (fun q => q.front fuel 0) = none) ∧
    (run_queue_calls flushed_port_calls InputBufferQueues.empty).map
      (fun q => (q.ready 0, q._enqueued_bytes[0]?, q._reserve_bytes[0]?,
        (q._queues[0]?).map (fun d => d.map (fun b => b.length)))) =
      some (some true, some 140, some 64, some [40]) ∧
    (∀ fuel, (run_queue_calls flushed_port_calls InputBufferQueues.empty).bind
      (fun q => q.front fuel 0) = none) ∧
    (run_queue_calls big_item_calls InputBufferQueues.empty).map
      (fun q => (q.ready 0, q._reserve_bytes[0]?,
        (q._queues[0]?).map (fun d => d.map (fun b => b.length)))) =
      some (some true, some (2 ^ 18), some [2 ^ 17, 2 ^ 17]) ∧
    (∀ fuel, (run_queue_calls big_item_calls InputBufferQueues.empty).bind
      (fun q => q.front fuel 0) = none) := by
  refine ⟨by decide, ?_, by decide, ?_, by decide, ?_⟩
  · intro fuel
    rcases fuel with _ | n <;> rfl
  · intro fuel
    rcases fuel with _ | _ | _ | n <;> rfl
  · intro fuel
    rcases fuel with _ | _ | _ | n <;> rfl

/-! ## The member functions of `InputBufferQueues`, inverted -/

theorem update_shape {q q' : InputBufferQueues} {i : Nat}
    (e : InputBufferQueues.__update q i = some q') :
    ∃ en R, q._enqueued_bytes[i]? = some en ∧ q._reserve_bytes[i]? = some R ∧
      i < q._bitset.length ∧
      q' = { q with _bitset := q._bitset.set i (decide (en ≥ R)) } := by
  simp only [InputBufferQueues.__update, bind, pure, Option.bind_eq_some, vset] at e
  obtain ⟨en, hen, R, hR, bs, hbs, e⟩ := e
  by_cases hi : i < q._bitset.length
  · rw [if_pos hi] at hbs
    injection hbs with hbs
    injection e with e
    subst hbs
    exact ⟨en, R, hen, hR, hi, e.symm⟩
  · rw [if_neg hi] at hbs
    exact absurd hbs (by simp)

theorem push_shape {q q' : InputBufferQueues} {i : Nat} {b : SBuffer}
    (e : q.push i b = some q') :
    ∃ queue en R, q._queues[i]? = some queue ∧ q._enqueued_bytes[i]? = some en ∧
      q._reserve_bytes[i]? = some R ∧ i < q._bitset.length ∧
      q' = { q with
        _queues := q._queues.set i (queue ++ [b])
        _enqueued_bytes := q._enqueued_bytes.set i (size_add en b.length)
        _bitset := q._bitset.set i (decide (size_add en b.length ≥ R)) } := by
  simp only [InputBufferQueues.push, bind, pure, Option.bind_eq_some, vset] at e
  obtain ⟨queue, hq, en, hen, eb, heb, e⟩ := e
  have hi : i < q._enqueued_bytes.length := (List.getElem?_eq_some.mp hen).1
  rw [if_pos hi] at heb
  injection heb with heb
  subst heb
  obtain ⟨en', R, h1, h2, h3, h4⟩ := update_shape e
  simp only [List.getElem?_set_self hi, Option.some.injEq] at h1
  subst h1
  exact ⟨queue, _, R, hq, hen, h2, h3, h4⟩


theorem flush_shape {q q' : InputBufferQueues} {i : Nat} (e : q.flush i = some q') :
    i < q._queues.length ∧ i < q._bitset.length ∧
    q' = { q with _queues := q._queues.set i [], _bitset := q._bitset.set i false } := by
  simp only [InputBufferQueues.flush, bind, pure, Option.bind_eq_some, vset] at e
  obtain ⟨qs, hqs, bs, hbs, e⟩ := e
  by_cases h1 : i < q._queues.length
  · by_cases h2 : i < q._bitset.length
    · rw [if_pos h1] at hqs
      rw [if_pos h2] at hbs
      injection hqs with hqs
      injection hbs with hbs
      injection e with e
      subst hqs hbs
      exact ⟨h1, h2, e.symm⟩
    · rw [if_neg h2] at hbs; exact absurd hbs (by simp)
  · rw [if_neg h1] at hqs; exact absurd hqs (by simp)

theorem prepare_shape {fuel : Nat} {q q' : InputBufferQueues} {i : Nat}
    (e : InputBufferQueues.__prepare fuel q i = some q') :
    ∃ queue h R aux r, q._queues[i]? = some queue ∧ q._history_bytes[i]? = some h ∧
      q._reserve_bytes[i]? = some R ∧ q._aux_queues[i]? = some aux ∧
      InputBufferQueues.prepare_loop R fuel queue aux = some r ∧
      q' = { q with _queues := q._queues.set i r.1, _aux_queues := q._aux_queues.set i r.2 } := by
  simp only [InputBufferQueues.__prepare, bind, pure, Option.bind_eq_some] at e
  obtain ⟨queue, hq, f, hf, h, hh, e⟩ := e
  by_cases hc : ¬ (f.length ≥ h)
  · rw [if_pos hc] at e; exact absurd e (by simp)
  · rw [if_neg hc] at e
    simp only [Option.bind_eq_some] at e
    obtain ⟨R, hR, aux, haux, r, hr, e⟩ := e
    injection e with e
    exact ⟨queue, h, R, aux, r, hq, hh, hR, haux, hr, e.symm⟩

theorem front_shape {fuel : Nat} {q q' : InputBufferQueues} {i : Nat} {buf : SBuffer} {pi : Bool}
    (e : q.front fuel i = some (buf, pi, q')) :
    q._bitset[i]? = some true ∧ InputBufferQueues.__prepare fuel q i = some q' := by
  simp only [InputBufferQueues.front, bind, pure, Option.bind_eq_some] at e
  obtain ⟨queue, hq, e⟩ := e
  by_cases h0 : queue.isEmpty = true
  · rw [if_pos h0] at e; exact absurd e (by simp)
  · rw [if_neg h0] at e
    simp only [Option.bind_eq_some, InputBufferQueues.ready] at e
    obtain ⟨rd, hrd, e⟩ := e
    by_cases h1 : rd = false
    · rw [if_pos h1] at e; exact absurd e (by simp)
    · rw [if_neg h1] at e
      simp only [Option.bind_eq_some] at e
      obtain ⟨q1, hq1, queue1, _, f, _, h, _, e⟩ := e
      by_cases h2 : ¬ (f.length ≥ h)
      · rw [if_pos h2] at e; exact absurd e (by simp)
      · rw [if_neg h2] at e
        simp only [Option.bind_eq_some] at e
        obtain ⟨m, _, e⟩ := e
        by_cases h3 : m = 0
        · rw [if_pos h3] at e; exact absurd e (by simp)
        · rw [if_neg h3] at e
          injection e with e
          injection e with _ e
          injection e with _ e
          subst e
          have : rd = true := by cases rd <;> simp_all
          subst this
          exact ⟨hrd, hq1⟩

theorem consume_shape {q q' : InputBufferQueues} {i k : Nat} {r : Bool}
    (e : q.consume i k = some (q', r)) :
    ∃ f rest h en R b, q._queues[i]? = some (f :: rest) ∧ k ≤ f.length ∧
      q._history_bytes[i]? = some h ∧ q._enqueued_bytes[i]? = some en ∧ k ≤ en ∧
      q._reserve_bytes[i]? = some R ∧ i < q._bitset.length ∧ q._in_hist_buff[i]? = some b ∧
      r = !b ∧
      q' = { q with
        _queues := q._queues.set i
          (if size_sub f.length k = 0 ∧ h = 0 then rest
           else { f with offset := size_add f.offset k, length := size_sub f.length k } :: rest)
        _enqueued_bytes := q._enqueued_bytes.set i (size_sub en k)
        _bitset := q._bitset.set i (decide (size_sub en k ≥ R)) } := by
  simp only [InputBufferQueues.consume, bind, pure, Option.bind_eq_some] at e
  obtain ⟨queue, hq, f, hf, e⟩ := e
  by_cases h1 : ¬ (f.length ≥ k)
  · rw [if_pos h1] at e; exact absurd e (by simp)
  · rw [if_neg h1] at e
    simp only [Option.bind_eq_some] at e
    obtain ⟨h, hh, en, hen, e⟩ := e
    by_cases h2 : ¬ (en ≥ k)
    · rw [if_pos h2] at e; exact absurd e (by simp)
    · rw [if_neg h2] at e
      simp only [Option.bind_eq_some] at e
      obtain ⟨q1, hq1, b, hb, e⟩ := e
      injection e with e
      injection e with e1 e2
      subst e1
      obtain ⟨en', R, g1, g2, g3, g4⟩ := update_shape hq1
      have hi : i < q._enqueued_bytes.length := (List.getElem?_eq_some.mp hen).1
      simp only [List.getElem?_set_self hi, Option.some.injEq] at g1
      subst g1
      cases queue with
      | nil => simp at hf
      | cons f' rest =>
        simp only [List.head?_cons, Option.some.injEq] at hf
        subst hf
        rw [g4] at hb
        refine ⟨f', rest, h, en, R, b, hq, by omega, hh, hen, by omega, g2, g3, hb, e2.symm, ?_⟩
        rw [g4]
        rfl

theorem init_port_shape {fuel : Nat} {alloc : Nat → Nat → Region} {Hs Ms Ss : List Nat}
    {j : Nat} {q q' : InputBufferQueues}
    (e : InputBufferQueues.init_port fuel alloc Hs Ms Ss j q = some q') :
    ∃ M s H r en b0 b1, Ms[j]? = some M ∧ 0 < M ∧ Ss[j]? = some s ∧ Hs[j]? = some H ∧
      InputBufferQueues.reserve_loop (size_mul s H) (max 1 (size_mul s M)) fuel
        (max 1 (size_mul s M)) = some r ∧
      j < q._history_bytes.length ∧ j < q._multiple_bytes.length ∧
      j < q._reserve_bytes.length ∧ j < q._aux_queues.length ∧
      q._enqueued_bytes[j]? = some en ∧
      b0.actual_length = 2 ^ 17 ∧ b0.unique = true ∧
      (BufferQueue.allocate_one [] (2 ^ 17) (alloc j 0)).allocate_one (2 ^ 17) (alloc j 1) =
        [b0, b1] ∧
      ((¬ (size_mul s H ≠ 0 ∧ en < size_mul s H) ∧
        q' = { q with
          _aux_queues := q._aux_queues.set j (some [b0, b1])
          _history_bytes := q._history_bytes.set j (size_mul s H)
          _multiple_bytes := q._multiple_bytes.set j (max 1 (size_mul s M))
          _reserve_bytes := q._reserve_bytes.set j r }) ∨
       (size_mul s H ≠ 0 ∧ en < size_mul s H ∧ size_mul s H ≤ 2 ^ 17 ∧
        InputBufferQueues.push { q with
          _aux_queues := q._aux_queues.set j (some [b1])
          _history_bytes := q._history_bytes.set j (size_mul s H)
          _multiple_bytes := q._multiple_bytes.set j (max 1 (size_mul s M))
          _reserve_bytes := q._reserve_bytes.set j r } j
          { b0.memset_zero (size_mul s H) with offset := 0, length := size_mul s H } =
            some q')) := by
  simp only [InputBufferQueues.init_port, bind, pure, Option.bind_eq_some] at e
  obtain ⟨M, hM, e⟩ := e
  by_cases hpos : ¬ (M > 0)
  · rw [if_pos hpos] at e; exact absurd e (by simp)
  · rw [if_neg hpos] at e
    simp only [Option.bind_eq_some] at e
    obtain ⟨a, ha, s, hs, H, hH, r, hr, e⟩ := e
    by_cases hl : j < q._history_bytes.length ∧ j < q._multiple_bytes.length ∧
        j < q._reserve_bytes.length
    · rw [if_pos hl] at e
      simp only [Option.bind_eq_some] at e
      obtain ⟨en, hen, e⟩ := e
      have hja : j < q._aux_queues.length := (List.getElem?_eq_some.mp ha).1
      refine ⟨M, s, H, r, en, _, _, hM, by omega, hs, hH, hr, hl.1, hl.2.1, hl.2.2, hja, hen,
        ?_, ?_, rfl, ?_⟩
      · rfl
      · rfl
      · by_cases hp : size_mul s H ≠ 0 ∧ en < size_mul s H
        · rw [if_pos hp] at e
          simp only [BufferQueue.allocate_one, List.nil_append, List.cons_append,
            List.head?_cons, Option.bind_eq_some, Option.some.injEq] at e
          obtain ⟨b, hb, e⟩ := e
          subst hb
          by_cases hfit : size_mul s H ≤ 2 ^ 17
          · rw [if_pos hfit] at e
            simp only [List.length_set, List.getElem?_set_self hja, List.tail_cons,
              List.set_set] at e
            exact Or.inr ⟨hp.1, hp.2, hfit, e⟩
          · rw [if_neg hfit] at e; exact absurd e (by simp)
        · rw [if_neg hp] at e
          injection e with e
          exact Or.inl ⟨hp, e.symm⟩
    · rw [if_neg hl] at e; exact absurd e (by simp)

theorem forLoop_invariant {σ : Type} (body : Nat → σ → Option σ) (P : Nat → σ → Prop) :
    ∀ (n i : Nat) (s s' : σ), P i s →
      (∀ j t t', i ≤ j → j < i + n → P j t → body j t = some t' → P (j + 1) t') →
      forLoop body n i s = some s' → P (i + n) s' := by
  intro n
  induction n with
  | zero => intro i s s' h0 _ h; simp [forLoop] at h; rw [← h]; exact h0
  | succ n ih =>
    intro i s s' h0 hstep h
    simp only [forLoop, Option.bind_eq_some] at h
    obtain ⟨t, ht, h'⟩ := h
    have := ih (i + 1) t s' (hstep i s t (le_refl _) (by omega) h0 ht)
      (fun j u u' h1 h2 hu => hstep j u u' (by omega) (by omega) hu) h'
    have e : i + (n + 1) = i + 1 + n := by omega
    rw [e]; exact this

theorem init_port_in_hist_buff {fuel : Nat} {alloc : Nat → Nat → Region} {Hs Ms Ss : List Nat}
    {j : Nat} {q q' : InputBufferQueues}
    (e : InputBufferQueues.init_port fuel alloc Hs Ms Ss j q = some q') :
    q'._in_hist_buff = q._in_hist_buff := by
  obtain ⟨M, s, H, r, en, b0, b1, -, -, -, -, -, -, -, -, -, -, -, -, -, h⟩ := init_port_shape e
  rcases h with ⟨-, h⟩ | ⟨-, -, -, h⟩
  · rw [h]
  · obtain ⟨queue, en', R, -, -, -, -, h⟩ := push_shape h
    rw [h]

/-- A call on the queues leaves `_in_hist_buff` with `false` in every entry if it found
it so. -/
theorem apply_in_hist_buff {c : QueueCall} {q q' : InputBufferQueues}
    (h : ∀ b, b ∈ q._in_hist_buff → b = false) (e : c.apply q = some q') :
    ∀ b, b ∈ q'._in_hist_buff → b = false := by
  cases c with
  | resize size =>
    simp only [QueueCall.apply, Option.some.injEq] at e
    subst e
    intro b hb
    simp only [InputBufferQueues.resize, vresize, List.mem_append, List.mem_replicate] at hb
    rcases hb with hb | hb
    · exact h b (List.mem_of_mem_take hb)
    · exact hb.2
  | init fuel alloc Hs Ms Ss =>
    simp only [QueueCall.apply, InputBufferQueues.init] at e
    by_cases h0 : q.size = 0
    · rw [if_pos h0] at e
      injection e with e
      subst e
      exact h
    · rw [if_neg h0] at e
      exact forLoop_preserves _ (fun t => ∀ b, b ∈ t._in_hist_buff → b = false)
        (fun j t t' ht et b hb => by rw [init_port_in_hist_buff et] at hb; exact ht b hb) _ _ _ _ h e
  | push i buffer =>
    obtain ⟨queue, en, R, -, -, -, -, e⟩ := push_shape e
    rw [e]; exact h
  | front fuel i =>
    simp only [QueueCall.apply, Option.map_eq_some'] at e
    obtain ⟨⟨buf, pi, q1⟩, e, rfl⟩ := e
    obtain ⟨-, e⟩ := front_shape e
    obtain ⟨queue, h', R, aux, r, -, -, -, -, -, e⟩ := prepare_shape e
    simp only
    rw [e]; exact h
  | consume i k =>
    simp only [QueueCall.apply, Option.map_eq_some'] at e
    obtain ⟨⟨q1, r⟩, e, rfl⟩ := e
    obtain ⟨f, rest, h', en, R, b, -, -, -, -, -, -, -, -, -, e⟩ := consume_shape e
    simp only
    rw [e]; exact h
  | flush i =>
    obtain ⟨-, -, e⟩ := flush_shape e
    rw [e]; exact h
  | flush_all =>
    simp only [QueueCall.apply, Option.some.injEq] at e
    subst e
    intro b hb
    simp only [InputBufferQueues.flush_all, InputBufferQueues.resize, vresize, List.take_zero,
      List.nil_append, Nat.zero_sub, List.replicate_zero, List.take_nil, List.length_nil,
      List.mem_replicate] at hb
    exact hb.2

/-- No sequence of calls sets an entry of `_in_hist_buff`. -/
theorem run_in_hist_buff : ∀ (calls : List QueueCall) (q q' : InputBufferQueues),
    (∀ b, b ∈ q._in_hist_buff → b = false) → run_queue_calls calls q = some q' →
    ∀ b, b ∈ q'._in_hist_buff → b = false := by
  intro calls
  induction calls with
  | nil =>
    intro q q' h e
    simp only [run_queue_calls, Option.some.injEq] at e
    subst e; exact h
  | cons c rest ih =>
    intro q q' h e
    simp only [run_queue_calls, Option.bind_eq_some] at e
    obtain ⟨q1, e1, e2⟩ := e
    exact ih q1 q' (apply_in_hist_buff h e1) e2

/-! ## `InputBufferQueues::consume` -/

/-- C11. On a port `i` whose deque is `f :: rest`, in a state sized as `resize` leaves
it, with `k ≤ f.length` and `k ≤ enqueued_bytes[i]` (the two assertions of `consume`) and
sizes that fit a `size_t`, `consume(i, k)` returns. It advances the offset of the front by
`k` and reduces its length by `k`; it pops the front if and only if the resulting length is
0 and `history_bytes[i]` is 0; `enqueued_bytes[i]` decreases by exactly `k` and the ready
bit of the port is recomputed from it; every other port and every other member is
unchanged; and the value returned is `not in_hist_buff[i]`, which is `true` in every state
that a sequence of calls reaches from the default-constructed object. -/
theorem consume_effect (q : InputBufferQueues) (n i k : Nat) (f : SBuffer)
    (rest : List SBuffer) (h en : Nat) (sz : Sized q n)
    (hq : q._queues[i]? = some (f :: rest)) (hh : q._history_bytes[i]? = some h)
    (hen : q._enqueued_bytes[i]? = some en) (hk1 : k ≤ f.length) (hk2 : k ≤ en)
    (hf : f.offset + f.length < SIZE_MOD) (hen2 : en < SIZE_MOD) :
    ∃ q' b R, q._in_hist_buff[i]? = some b ∧ q._reserve_bytes[i]? = some R ∧
      q.consume i k = some (q', !b) ∧
      q'._queues[i]? = some (if f.length - k = 0 ∧ h = 0 then rest
        else { f with offset := f.offset + k, length := f.length - k } :: rest) ∧
      q'._enqueued_bytes[i]? = some (en - k) ∧
      q'._bitset[i]? = some (decide (en - k ≥ R)) ∧
      (∀ p, p ≠ i → q'._queues[p]? = q._queues[p]? ∧
        q'._enqueued_bytes[p]? = q._enqueued_bytes[p]? ∧ q'._bitset[p]? = q._bitset[p]?) ∧
      q'._history_bytes = q._history_bytes ∧ q'._reserve_bytes = q._reserve_bytes ∧
      q'._multiple_bytes = q._multiple_bytes ∧ q'._post_bytes = q._post_bytes ∧
      q'._aux_queues = q._aux_queues ∧ q'._in_hist_buff = q._in_hist_buff ∧
      (∀ calls, run_queue_calls calls InputBufferQueues.empty = some q → b = false) := by
  have hi : i < n := by rw [← sz.queues]; exact (List.getElem?_eq_some.mp hq).1
  obtain ⟨b, hb, hbm⟩ := getElem?_some_of_lt q._in_hist_buff i (by rw [sz.in_hist_buff]; exact hi)
  obtain ⟨R, hR, -⟩ := getElem?_some_of_lt q._reserve_bytes i (by rw [sz.reserve_bytes]; exact hi)
  have l1 : i < q._queues.length := by rw [sz.queues]; exact hi
  have l2 : i < q._enqueued_bytes.length := by rw [sz.enqueued_bytes]; exact hi
  have l3 : i < q._bitset.length := by rw [sz.bitset]; exact hi
  have e1 : size_add f.offset k = f.offset + k := size_add_eq (by omega)
  have e2 : size_sub f.length k = f.length - k := size_sub_eq hk1 (by omega)
  have e3 : size_sub en k = en - k := size_sub_eq hk2 hen2
  have c1 : ¬¬(f.length ≥ k) := not_not.mpr hk1
  have c2 : ¬¬(en ≥ k) := not_not.mpr hk2
  refine ⟨{ q with
      _queues := q._queues.set i (if f.length - k = 0 ∧ h = 0 then rest
        else { f with offset := f.offset + k, length := f.length - k } :: rest)
      _enqueued_bytes := q._enqueued_bytes.set i (en - k)
      _bitset := q._bitset.set i (decide (en - k ≥ R)) }, b, R, hb, hR, ?_, ?_, ?_, ?_, ?_,
    rfl, rfl, rfl, rfl, rfl, rfl, ?_⟩
  · simp only [InputBufferQueues.consume, bind, pure, hq, Option.some_bind, List.head?_cons,
      if_neg c1, hh, hen, if_neg c2, InputBufferQueues.__update, List.getElem?_set_self l2, hR,
      vset_eq_some _ l3, e1, e2, e3, hb, List.tail_cons, Option.bind]
  · simp only [List.getElem?_set_self l1]
  · simp only [List.getElem?_set_self l2]
  · simp only [List.getElem?_set_self l3]
  · intro p hp
    exact ⟨getElem?_set_of_ne _ _ (fun e => hp e.symm), getElem?_set_of_ne _ _ (fun e => hp e.symm),
      getElem?_set_of_ne _ _ (fun e => hp e.symm)⟩
  · intro calls hc
    exact run_in_hist_buff calls InputBufferQueues.empty q (fun b hb => by
      simp [InputBufferQueues.empty] at hb) hc b hbm

theorem sized_example_queues : Sized example_queues 1 := by
  constructor <;> rfl

theorem consume_effect_witness :
    Sized example_queues 1 ∧
    (∃ q' b, example_queues.consume 0 8 = some (q', !b) ∧
      q'._enqueued_bytes[0]? = some (112 - 8) ∧
      q'._queues[0]? = some [{ example_history_buffer with offset := 0 + 8, length := 12 - 8 },
        example_pushed_buffer]) ∧
    (example_queues.consume 0 8).map (fun r => (r.1._enqueued_bytes, r.1._bitset, r.2)) =
      some ([104], [true], true) ∧
    (example_queues.consume 0 8).map
      (fun r => r.1._queues.map (fun d => d.map (fun b => (b.offset, b.length)))) =
      some [[(8, 4), (0, 100)]] :=
  ⟨sized_example_queues,
    (let ⟨q', b, _, _, _, h1, h2, h3, _⟩ :=
      consume_effect example_queues 1 0 8 example_history_buffer [example_pushed_buffer] 12 112
        sized_example_queues rfl rfl rfl (by decide) (by decide) (by decide) (by decide)
     ⟨q', b, h1, h3, h2⟩),
    by decide, by decide⟩

/-! ## The ready bit and `enqueued_bytes` -/

theorem reserve_loop_pos (h m : Nat) : ∀ (fuel r0 r : Nat),
    InputBufferQueues.reserve_loop h m fuel r0 = some r →
    (1 ≤ r0 ∨ 1 ≤ size_add h m) → 1 ≤ r := by
  intro fuel
  induction fuel with
  | zero => intro r0 r e _; simp [InputBufferQueues.reserve_loop] at e
  | succ n ih =>
    intro r0 r e hpos
    rw [InputBufferQueues.reserve_loop] at e
    by_cases hc : r0 < size_add h m
    · rw [if_pos hc] at e
      exact ih _ r e (Or.inr (by omega))
    · rw [if_neg hc] at e
      injection e with e
      omega

theorem fresh_resize_empty (n : Nat) : FreshFrom 0 (InputBufferQueues.empty.resize n) := by
  intro p _
  simp only [InputBufferQueues.resize, InputBufferQueues.empty, vresize, List.take_nil,
    List.nil_append, List.length_nil, Nat.sub_zero]
  refine ⟨?_, ?_, ?_⟩
  · intro b hb
    exact (List.mem_replicate.mp (List.getElem?_mem hb)).2
  · intro en hen
    exact (List.mem_replicate.mp (List.getElem?_mem hen)).2
  · intro queue hq
    exact (List.mem_replicate.mp (List.getElem?_mem hq)).2

/-- A pass of the loop of `init` on a fresh port `j` establishes invariant I3 on it and
leaves the other ports as they were. -/
theorem init_port_ready {fuel : Nat} {alloc : Nat → Nat → Region} {Hs Ms Ss : List Nat}
    {j : Nat} {q q' : InputBufferQueues}
    (hinv : (∀ (p : Nat) (b : Bool) (en R : Nat), p < j → q._bitset[p]? = some b →
      q._enqueued_bytes[p]? = some en → q._reserve_bytes[p]? = some R → (b = true ↔ en ≥ R)) ∧
      FreshFrom j q)
    (e : InputBufferQueues.init_port fuel alloc Hs Ms Ss j q = some q') :
    (∀ (p : Nat) (b : Bool) (en R : Nat), p < j + 1 → q'._bitset[p]? = some b →
      q'._enqueued_bytes[p]? = some en → q'._reserve_bytes[p]? = some R → (b = true ↔ en ≥ R)) ∧
      FreshFrom (j + 1) q' := by
  obtain ⟨hlow, hfresh⟩ := hinv
  obtain ⟨M, s, H, r, en, b0, b1, -, -, -, -, hr, l1, l2, l3, l4, hen, -, -, -, h⟩ :=
    init_port_shape e
  have hr1 : 1 ≤ r := reserve_loop_pos _ _ fuel _ r hr (Or.inl (Nat.le_max_left _ _))
  have hen0 : en = 0 := (hfresh j (le_refl _)).2.1 en hen
  rcases h with ⟨-, h⟩ | ⟨-, -, -, h⟩
  · subst h
    refine ⟨?_, ?_⟩
    · intro p b en' R hp hb hen' hR
      simp only at hb hen' hR
      by_cases hpj : p = j
      · subst hpj
        rw [List.getElem?_set_self l3] at hR
        injection hR with hR
        have hb0 := (hfresh p (le_refl _)).1 b hb
        have he0 := (hfresh p (le_refl _)).2.1 en' hen'
        subst hb0 he0 hR
        simp; omega
      · rw [getElem?_set_of_ne _ _ (fun e => hpj e.symm)] at hR
        exact hlow p b en' R (by omega) hb hen' hR
    · intro p hp
      exact hfresh p (by omega)
  · obtain ⟨queue, en1, R1, hq1, hen1, hR1, hb1, h⟩ := push_shape h
    subst h
    simp only at hq1 hen1 hR1 hb1
    rw [List.getElem?_set_self l3] at hR1
    injection hR1 with hR1
    subst hR1
    have lb : j < q._bitset.length := hb1
    have le : j < q._enqueued_bytes.length := (List.getElem?_eq_some.mp hen1).1
    refine ⟨?_, ?_⟩
    · intro p b en' R hp hb hen' hR
      simp only at hb hen' hR
      by_cases hpj : p = j
      · subst hpj
        rw [List.getElem?_set_self l3] at hR
        rw [List.getElem?_set_self lb] at hb
        rw [List.getElem?_set_self le] at hen'
        injection hR with hR
        injection hb with hb
        injection hen' with hen'
        subst hR hb hen'
        simp
      · rw [getElem?_set_of_ne _ _ (fun e => hpj e.symm)] at hR hb hen'
        exact hlow p b en' R (by omega) hb hen' hR
    · intro p hp
      have hne : j ≠ p := by omega
      simp only
      rw [getElem?_set_of_ne _ _ hne, getElem?_set_of_ne _ _ hne, getElem?_set_of_ne _ _ hne]
      exact hfresh p (by omega)

theorem init_port_bitset_length {fuel : Nat} {alloc : Nat → Nat → Region} {Hs Ms Ss : List Nat}
    {j : Nat} {q q' : InputBufferQueues}
    (e : InputBufferQueues.init_port fuel alloc Hs Ms Ss j q = some q') :
    q'._bitset.length = q._bitset.length ∧ q'._reserve_bytes.length = q._reserve_bytes.length := by
  obtain ⟨M, s, H, r, en, b0, b1, -, -, -, -, -, -, -, -, -, -, -, -, -, h⟩ := init_port_shape e
  rcases h with ⟨-, h⟩ | ⟨-, -, -, h⟩
  · rw [h]; simp
  · obtain ⟨queue, en', R, -, -, -, -, h⟩ := push_shape h
    rw [h]; simp

theorem init_ready {fuel : Nat} {alloc : Nat → Nat → Region} {Hs Ms Ss : List Nat}
    {n : Nat} {q : InputBufferQueues}
    (e : (InputBufferQueues.empty.resize n).init fuel alloc Hs Ms Ss = some q) :
    ReadyIsReserved q := by
  rw [InputBufferQueues.init] at e
  by_cases h0 : (InputBufferQueues.empty.resize n).size = 0
  · rw [if_pos h0] at e
    injection e with e
    subst e
    intro i b en R hb
    have : (InputBufferQueues.empty.resize n)._bitset.length = 0 := by
      have := (sized_resize_empty n).bitset
      have := (sized_resize_empty n).queues
      simp only [InputBufferQueues.size] at h0
      omega
    have hi := (List.getElem?_eq_some.mp hb).1
    omega
  · rw [if_neg h0] at e
    have key := forLoop_invariant _
      (fun j t => (∀ (p : Nat) (b : Bool) (en R : Nat), p < j → t._bitset[p]? = some b →
        t._enqueued_bytes[p]? = some en → t._reserve_bytes[p]? = some R → (b = true ↔ en ≥ R)) ∧
        FreshFrom j t) _ 0 _ q
      ⟨fun p b en R hp => absurd hp (Nat.not_lt_zero p), fresh_resize_empty n⟩
      (fun j t t' _ _ ht et => init_port_ready ht et) e
    intro i b en R hb hen hR
    have hlen := forLoop_preserves _ (fun t : InputBufferQueues => t._bitset.length = n)
      (fun j t t' ht et => (init_port_bitset_length et).1.trans ht) _ 0 _ q
      (sized_resize_empty n).bitset e
    have hi : i < (InputBufferQueues.empty.resize n).size := by
      have h1 := (List.getElem?_eq_some.mp hb).1
      have h2 : (InputBufferQueues.empty.resize n).size = n := (sized_resize_empty n).queues
      simp only at hlen
      omega
    exact key.1 i b en R (by omega) hb hen hR


/-- A `push`, a `front` or a `consume` keeps invariant I3. -/
theorem apply_ready {c : QueueCall} {q q' : InputBufferQueues} (hc : c.is_transfer = true)
    (h : ReadyIsReserved q) (e : c.apply q = some q') : ReadyIsReserved q' := by
  cases c with
  | resize size => simp [QueueCall.is_transfer] at hc
  | init fuel alloc Hs Ms Ss => simp [QueueCall.is_transfer] at hc
  | flush i => simp [QueueCall.is_transfer] at hc
  | flush_all => simp [QueueCall.is_transfer] at hc
  | push i buffer =>
    obtain ⟨queue, en, R, -, hen, hR, hb, e⟩ := push_shape e
    subst e
    have le : i < q._enqueued_bytes.length := (List.getElem?_eq_some.mp hen).1
    intro p b en' R' hb' hen' hR'
    simp only at hb' hen' hR'
    by_cases hpi : p = i
    · subst hpi
      rw [List.getElem?_set_self hb] at hb'
      rw [List.getElem?_set_self le] at hen'
      rw [hR] at hR'
      injection hR' with hR'
      injection hb' with hb'
      injection hen' with hen'
      subst hR' hb' hen'
      simp
    · rw [getElem?_set_of_ne _ _ (fun e => hpi e.symm)] at hb' hen'
      exact h p b en' R' hb' hen' hR'
  | front fuel i =>
    simp only [QueueCall.apply, Option.map_eq_some'] at e
    obtain ⟨⟨buf, pi, q1⟩, e, rfl⟩ := e
    obtain ⟨-, e⟩ := front_shape e
    obtain ⟨queue, h', R, aux, r, -, -, -, -, -, e⟩ := prepare_shape e
    simp only
    subst e
    exact h
  | consume i k =>
    simp only [QueueCall.apply, Option.map_eq_some'] at e
    obtain ⟨⟨q1, r⟩, e, rfl⟩ := e
    obtain ⟨f, rest, h', en, R, b, -, -, -, hen, -, hR, hb, -, -, e⟩ := consume_shape e
    simp only
    subst e
    have le : i < q._enqueued_bytes.length := (List.getElem?_eq_some.mp hen).1
    intro p b en' R' hb' hen' hR'
    simp only at hb' hen' hR'
    by_cases hpi : p = i
    · subst hpi
      rw [List.getElem?_set_self hb] at hb'
      rw [List.getElem?_set_self le] at hen'
      rw [hR] at hR'
      injection hR' with hR'
      injection hb' with hb'
      injection hen' with hen'
      subst hR' hb' hen'
      simp
    · rw [getElem?_set_of_ne _ _ (fun e => hpi e.symm)] at hb' hen'
      exact h p b en' R' hb' hen' hR'

theorem run_ready : ∀ (calls : List QueueCall) (q q' : InputBufferQueues),
    (∀ c, c ∈ calls → c.is_transfer = true) → ReadyIsReserved q →
    run_queue_calls calls q = some q' → ReadyIsReserved q' := by
  intro calls
  induction calls with
  | nil =>
    intro q q' _ h e
    simp only [run_queue_calls, Option.some.injEq] at e
    subst e; exact h
  | cons c rest ih =>
    intro q q' hc h e
    simp only [run_queue_calls, Option.bind_eq_some] at e
    obtain ⟨q1, e1, e2⟩ := e
    exact ih q1 q' (fun c' hc' => hc c' (List.mem_cons_of_mem _ hc'))
      (apply_ready (hc c (List.mem_cons_self _ _)) h e1) e2

/-- Where the ready bit does follow the byte count: in every state that `resize(n)` and
`init` on a default-constructed `InputBufferQueues` followed by any sequence of `push`,
`front` and `consume` reaches, for every port `i`, `ready(i)` is true if and only if
`enqueued_bytes[i] >= reserve_bytes[i]`. -/
theorem ready_iff_reserved (n fuel : Nat) (alloc : Nat → Nat → Region) (Hs Ms Ss : List Nat)
    (calls : List QueueCall) (q : InputBufferQueues)
    (hcalls : ∀ c, c ∈ calls → c.is_transfer = true)
    (hrun : run_queue_calls (QueueCall.resize n :: QueueCall.init fuel alloc Hs Ms Ss :: calls)
      InputBufferQueues.empty = some q) :
    ∀ (i : Nat) (b : Bool) (en R : Nat), q.ready i = some b → q._enqueued_bytes[i]? = some en →
      q._reserve_bytes[i]? = some R → (b = true ↔ en ≥ R) := by
  simp only [run_queue_calls, QueueCall.apply, Option.some_bind, Option.bind_eq_some] at hrun
  obtain ⟨q0, hinit, hrun⟩ := hrun
  exact run_ready calls q0 q hcalls (init_ready hinit) hrun

/-- C12 fails on the code. One port of 64-byte items without history, so with a reserve
of 64 bytes, on which a buffer of 100 bytes is pushed. After `flush(0)` the deque is empty
and the port is not ready, although `enqueued_bytes[0]`, which `flush` leaves at 100, is
at least the reserve; a buffer of 40 bytes pushed next makes the port ready with 40 bytes
in its deque, below the reserve. After `flush_all()` the port is not ready although
`enqueued_bytes[0]` and `reserve_bytes[0]` are both 0. -/
theorem flush_keeps_enqueued_bytes :
    (run_queue_calls [QueueCall.resize 1, QueueCall.init 2 example_alloc [0] [1] [64],
        QueueCall.push 0 example_pushed_buffer, QueueCall.flush 0] InputBufferQueues.empty).map
      (fun q => (q.ready 0, q._enqueued_bytes[0]?, q._reserve_bytes[0]?)) =
      some (some false, some 100, some 64) ∧
    (run_queue_calls [QueueCall.resize 1, QueueCall.init 2 example_alloc [0] [1] [64],
        QueueCall.push 0 example_pushed_buffer, QueueCall.flush 0] InputBufferQueues.empty).map
      (fun q => (q._queues[0]?).map total_length) = some (some 0) ∧
    (run_queue_calls flushed_port_calls InputBufferQueues.empty).map
      (fun q => (q.ready 0, (q._queues[0]?).map total_length, q._reserve_bytes[0]?)) =
      some (some true, some 40, some 64) ∧
    (run_queue_calls [QueueCall.resize 1, QueueCall.init 2 example_alloc [0] [1] [64],
        QueueCall.push 0 example_pushed_buffer, QueueCall.flush_all] InputBufferQueues.empty).map
      (fun q => (q.ready 0, q._enqueued_bytes[0]?, q._reserve_bytes[0]?)) =
      some (some false, some 0, some 0) := by
  refine ⟨?_, ?_, ?_, ?_⟩ <;> decide

/-- A run of `push`, `front` and `consume` on a port with 12 history bytes: the port ends
not ready, with 12 bytes enqueued for a reserve of 16. -/
theorem ready_iff_reserved_example :
    (∀ c, c ∈ [QueueCall.push 0 example_pushed_buffer, QueueCall.front 3 0,
      QueueCall.consume 0 100] → c.is_transfer = true) ∧
    (∃ q, run_queue_calls [QueueCall.resize 1, QueueCall.init 13 example_alloc [3] [1] [4],
        QueueCall.push 0 example_pushed_buffer, QueueCall.front 3 0, QueueCall.consume 0 100]
        InputBufferQueues.empty = some q ∧
      ∀ (b : Bool) (en R : Nat), q.ready 0 = some b → q._enqueued_bytes[0]? = some en →
        q._reserve_bytes[0]? = some R → (b = true ↔ en ≥ R)) ∧
    (run_queue_calls [QueueCall.resize 1, QueueCall.init 13 example_alloc [3] [1] [4],
        QueueCall.push 0 example_pushed_buffer, QueueCall.front 3 0, QueueCall.consume 0 100]
        InputBufferQueues.empty).map
      (fun q => (q.ready 0, q._enqueued_bytes[0]?, q._reserve_bytes[0]?)) =
      some (some false, some 12, some 16) :=
  ⟨by decide,
    (let ⟨q, hq⟩ := Option.isSome_iff_exists.mp
      (by decide : (run_queue_calls [QueueCall.resize 1,
        QueueCall.init 13 example_alloc [3] [1] [4], QueueCall.push 0 example_pushed_buffer,
        QueueCall.front 3 0, QueueCall.consume 0 100] InputBufferQueues.empty).isSome = true)
     ⟨q, hq, ready_iff_reserved 1 13 example_alloc [3] [1] [4] _ q (by decide) hq 0⟩),
    by decide⟩

/-! ## The bytes of a deque through `__prepare` -/

theorem size_add_lt (a b : Nat) : size_add a b < SIZE_MOD :=
  Nat.mod_lt _ (by decide)

theorem size_sub_lt (a b : Nat) : size_sub a b < SIZE_MOD :=
  Nat.mod_lt _ (by decide)

/-- The window of a destination after `n` bytes of a source were appended to it. -/
theorem window_appended (dst src : SBuffer) (n : Nat) (hn : n ≤ src.length) :
    ({ dst with
        bytes := copy_bytes dst.bytes src.bytes (dst.offset + dst.length) src.offset n
        length := dst.length + n } : SBuffer).window = dst.window ++ src.window.take n := by
  simp only [SBuffer.window, List.range_add, List.map_append, List.map_map]
  congr 1
  · apply List.map_congr_left
    intro k hk
    have hk' := List.mem_range.mp hk
    have : ¬ (dst.offset + dst.length ≤ dst.offset + k ∧
        dst.offset + k < dst.offset + dst.length + n) := by omega
    simp only [copy_bytes, if_neg this]
  · rw [← List.map_take, List.take_range, Nat.min_eq_left hn]
    apply List.map_congr_left
    intro k hk
    have hk' := List.mem_range.mp hk
    have c : dst.offset + dst.length ≤ dst.offset + (dst.length + k) ∧
        dst.offset + (dst.length + k) < dst.offset + dst.length + n := by omega
    have e : dst.offset + (dst.length + k) - (dst.offset + dst.length) = k := by omega
    simp only [Function.comp, copy_bytes, if_pos c, e]

/-- The window of a source after its first `n` bytes were taken. -/
theorem window_advanced (src : SBuffer) (n : Nat) :
    ({ src with offset := src.offset + n, length := src.length - n } : SBuffer).window =
      src.window.drop n := by
  simp only [SBuffer.window]
  apply List.ext_getElem?
  intro k
  simp only [List.getElem?_map, List.getElem?_drop, List.getElem?_range']
  by_cases hk : k < src.length - n
  · have h1 : n + k < src.length := by omega
    rw [List.getElem?_range hk, List.getElem?_range h1]
    simp only [Option.map_some']
    congr 2
    omega
  · have h1 : ¬ (n + k < src.length) := by omega
    rw [List.getElem?_eq_none_iff.mpr (by simpa using hk),
      List.getElem?_eq_none_iff.mpr (by simpa using h1)]
    rfl


/-- What `merge_source` returns, when it returns: the destination with `n` bytes of the
source appended, then the source without them if bytes remain in it, then the rest. -/
theorem merge_source_some {dst src : SBuffer} {rest merged : List SBuffer}
    (e : InputBufferQueues.merge_source dst (src :: rest) = some merged)
    (hd : dst.InRange) (hs : src.InRange) :
    ∃ n, n ≤ src.length ∧ dst.offset + dst.length + n ≤ dst.actual_length ∧
      src.offset + n ≤ src.actual_length ∧
      merged = { dst with
          bytes := copy_bytes dst.bytes src.bytes (dst.offset + dst.length) src.offset n
          length := dst.length + n } ::
        (if src.length - n ≠ 0 then
          { src with offset := src.offset + n, length := src.length - n } :: rest
         else rest) := by
  have hmin : min (size_sub dst.actual_length (size_add dst.offset dst.length)) src.length ≤
      src.length := Nat.min_le_right _ _
  simp only [InputBufferQueues.merge_source] at e
  generalize min (size_sub dst.actual_length (size_add dst.offset dst.length)) src.length = n at *
  rw [SBuffer.memcpy_tail] at e
  by_cases c : dst.offset + dst.length + n ≤ dst.actual_length ∧ src.offset + n ≤ src.actual_length
  · rw [if_pos c] at e
    simp only at e
    injection e with e
    obtain ⟨hd1, hd2, hd3⟩ := hd
    obtain ⟨hs1, hs2, hs3⟩ := hs
    have e4 : size_add dst.length n = dst.length + n := size_add_eq (by omega)
    have e5 : size_add src.offset n = src.offset + n := size_add_eq (by omega)
    have e6 : size_sub src.length n = src.length - n := size_sub_eq hmin hs3
    rw [e4, e5, e6] at e
    exact ⟨n, hmin, c.1, c.2, e.symm⟩
  · rw [if_neg c] at e
    simp at e

theorem deque_bytes_cons (b : SBuffer) (rest : List SBuffer) :
    deque_bytes (b :: rest) = b.window ++ deque_bytes rest := by
  simp [deque_bytes]

/-- A merge keeps the bytes: the result holds the window of the destination followed by
the bytes of the deque. -/
theorem merge_source_bytes {dst src : SBuffer} {rest merged : List SBuffer}
    (e : InputBufferQueues.merge_source dst (src :: rest) = some merged)
    (hd : dst.InRange) (hs : src.InRange) (hr : ∀ b, b ∈ rest → b.InRange) :
    deque_bytes merged = dst.window ++ deque_bytes (src :: rest) ∧
    (∀ b, b ∈ merged → b.InRange) := by
  obtain ⟨n, hn, h1, h2, rfl⟩ := merge_source_some e hd hs
  obtain ⟨hd1, hd2, hd3⟩ := hd
  obtain ⟨hs1, hs2, hs3⟩ := hs
  constructor
  · rw [deque_bytes_cons, window_appended dst src n hn, deque_bytes_cons]
    by_cases hne : src.length - n ≠ 0
    · rw [if_pos hne, deque_bytes_cons, window_advanced]
      rw [List.append_assoc, ← List.append_assoc (List.take n src.window),
        List.take_append_drop]
    · rw [if_neg hne]
      have hfull : src.window.take n = src.window := by
        apply List.take_of_length_le
        simp only [SBuffer.window, List.length_map, List.length_range]
        omega
      rw [hfull, List.append_assoc]
  · intro b hb
    rcases List.mem_cons.mp hb with rfl | hb
    · exact ⟨hd1, hd2, by simp only; omega⟩
    · by_cases hne : src.length - n ≠ 0
      · rw [if_pos hne] at hb
        rcases List.mem_cons.mp hb with rfl | hb
        · exact ⟨hs1, by simp only; omega, by simp only; omega⟩
        · exact hr b hb
      · rw [if_neg hne] at hb
        exact hr b hb

/-- A pass of the merge loop keeps the bytes of the deque. -/
theorem prepare_step_bytes {R : Nat} {queue queue' : List SBuffer} {aux aux' : Option BufferQueue}
    (e : InputBufferQueues.prepare_step R queue aux = some (queue', aux'))
    (hq : ∀ b, b ∈ queue → b.InRange)
    (ha : ∀ pool, aux = some pool → ∀ b, b ∈ pool → b.InRange) :
    deque_bytes queue' = deque_bytes queue ∧ (∀ b, b ∈ queue' → b.InRange) ∧
    (∀ pool, aux' = some pool → ∀ b, b ∈ pool → b.InRange) := by
  simp only [InputBufferQueues.prepare_step, Option.bind_eq_some, Option.map_eq_some',
    Prod.mk.injEq] at e
  obtain ⟨⟨dst, remaining, aux1⟩, hpick, merged, hmerge, rfl, rfl⟩ := e
  simp only at hmerge
  cases queue with
  | nil => simp [InputBufferQueues.pick_destination] at hpick
  | cons f rest =>
    simp only [InputBufferQueues.pick_destination, List.head?_cons, List.tail_cons] at hpick
    by_cases c : f.actual_length ≥ size_add R f.offset ∧ f.unique = true
    · rw [if_pos c] at hpick
      simp only [Option.some.injEq, Prod.mk.injEq] at hpick
      obtain ⟨rfl, rfl, rfl⟩ := hpick
      cases rest with
      | nil => simp [InputBufferQueues.merge_source] at hmerge
      | cons src rest' =>
        obtain ⟨h1, h2⟩ := merge_source_bytes hmerge (hq _ (List.mem_cons_self _ _))
          (hq _ (List.mem_cons_of_mem _ (List.mem_cons_self _ _)))
          (fun b hb => hq b (List.mem_cons_of_mem _ (List.mem_cons_of_mem _ hb)))
        exact ⟨by rw [h1, ← deque_bytes_cons], h2, ha⟩
    · rw [if_neg c] at hpick
      cases aux with
      | none => simp at hpick
      | some pool =>
        cases pool with
        | nil => simp at hpick
        | cons d pool' =>
          simp only [List.head?_cons, List.tail_cons, Option.some.injEq, Prod.mk.injEq] at hpick
          obtain ⟨rfl, rfl, rfl⟩ := hpick
          have hdr := ha (d :: pool') rfl d (List.mem_cons_self _ _)
          have hst : (InputBufferQueues.staging_buffer d).InRange :=
            ⟨hdr.1, (by decide : 0 < SIZE_MOD), (by decide : 0 < SIZE_MOD)⟩
          obtain ⟨h1, h2⟩ := merge_source_bytes hmerge hst (hq _ (List.mem_cons_self _ _))
            (fun b hb => hq b (List.mem_cons_of_mem _ hb))
          refine ⟨?_, h2, ?_⟩
          · rw [h1]
            have : (InputBufferQueues.staging_buffer d).window = [] := rfl
            rw [this, List.nil_append]
          · intro pool hp b hb
            injection hp with hp
            subst hp
            exact ha (d :: pool') rfl b (List.mem_cons_of_mem _ hb)

/-- The merge loop keeps the bytes of the deque. -/
theorem prepare_loop_bytes (R : Nat) : ∀ (fuel : Nat) (queue queue' : List SBuffer)
    (aux aux' : Option BufferQueue),
    InputBufferQueues.prepare_loop R fuel queue aux = some (queue', aux') →
    (∀ b, b ∈ queue → b.InRange) →
    (∀ pool, aux = some pool → ∀ b, b ∈ pool → b.InRange) →
    deque_bytes queue' = deque_bytes queue ∧ (∀ b, b ∈ queue' → b.InRange) ∧
    (∀ pool, aux' = some pool → ∀ b, b ∈ pool → b.InRange) := by
  intro fuel
  induction fuel with
  | zero => intro queue queue' aux aux' e; simp [InputBufferQueues.prepare_loop] at e
  | succ n ih =>
    intro queue queue' aux aux' e hq ha
    rw [InputBufferQueues.prepare_loop] at e
    cases queue with
    | nil => simp at e
    | cons f rest =>
      simp only [List.head?_cons] at e
      by_cases c : f.length < R
      · rw [if_pos c] at e
        simp only [Option.bind_eq_some] at e
        obtain ⟨⟨q1, a1⟩, hstep, hloop⟩ := e
        obtain ⟨h1, h2, h3⟩ := prepare_step_bytes hstep hq ha
        obtain ⟨g1, g2, g3⟩ := ih q1 queue' a1 aux' hloop h2 h3
        exact ⟨g1.trans h1, g2, g3⟩
      · rw [if_neg c] at e
        simp only [Option.some.injEq, Prod.mk.injEq] at e
        obtain ⟨rfl, rfl⟩ := e
        exact ⟨rfl, hq, ha⟩

/-- C13. Whenever `__prepare(i)` returns, on a deque and a pool whose buffers hold
`size_t` values, the bytes of the live windows `[offset, offset + length)` of the deque
entries of port `i`, concatenated from front to back, are the same after the call as
before it; the deques of the other ports are untouched. Every buffer of the embedding
carries the contents of its own region: the destination of a pass shares no memory with
its source, as is the case in the source, where the destination is `unique()` or comes
from the pool of the port. -/
theorem prepare_preserves_bytes (fuel : Nat) (q q' : InputBufferQueues) (i : Nat)
    (e : InputBufferQueues.__prepare fuel q i = some q')
    (hq : ∀ queue, q._queues[i]? = some queue → ∀ b, b ∈ queue → b.InRange)
    (ha : ∀ pool, q._aux_queues[i]? = some (some pool) → ∀ b, b ∈ pool → b.InRange) :
    ∃ queue queue', q._queues[i]? = some queue ∧ q'._queues[i]? = some queue' ∧
      deque_bytes queue' = deque_bytes queue ∧
      ∀ p, p ≠ i → q'._queues[p]? = q._queues[p]? := by
  obtain ⟨queue, h, R, aux, r, h1, -, -, h4, h5, rfl⟩ := prepare_shape e
  have hi : i < q._queues.length := (List.getElem?_eq_some.mp h1).1
  obtain ⟨g1, -, -⟩ := prepare_loop_bytes R fuel queue r.1 aux r.2 h5 (hq queue h1)
    (fun pool hp => ha pool (by rw [h4, hp]))
  exact ⟨queue, r.1, h1, List.getElem?_set_self hi, g1,
    fun p hp => getElem?_set_of_ne _ _ (fun e => hp e.symm)⟩

theorem prepare_preserves_bytes_witness :
    (∃ q' queue', InputBufferQueues.__prepare 3 example_queues 0 = some q' ∧
      q'._queues[0]? = some queue' ∧
      deque_bytes queue' = deque_bytes [example_history_buffer, example_pushed_buffer]) ∧
    (InputBufferQueues.__prepare 3 example_queues 0).map
      (fun q' => q'._queues.map (fun d => d.map (fun b => b.length))) = some [[112]] ∧
    (InputBufferQueues.__prepare 3 example_queues 0).map
      (fun q' => q'._queues.map deque_bytes) =
      some [List.replicate 12 0 ++ List.range 100] :=
  ⟨(let ⟨q', hq'⟩ := Option.isSome_iff_exists.mp
      (by decide : (InputBufferQueues.__prepare 3 example_queues 0).isSome = true)
    let ⟨_, queue', h1, h2, h3, _⟩ := prepare_preserves_bytes 3 example_queues q' 0 hq'
      (by
        intro queue hq b hb
        have : queue = [example_history_buffer, example_pushed_buffer] :=
          (Option.some.inj hq).symm
        subst this
        rcases List.mem_cons.mp hb with rfl | hb
        · exact ⟨by decide, by decide, by decide⟩
        · rw [List.mem_singleton] at hb
          subst hb
          exact ⟨by decide, by decide, by decide⟩)
      (by
        intro pool hp b hb
        have hp' := (Option.some.inj (Option.some.inj hp)).symm
        subst hp'
        rw [List.mem_singleton] at hb
        subst hb
        exact ⟨by decide, by decide, by decide⟩)
    ⟨q', queue', hq', h2, h3.trans (congrArg deque_bytes
      (Option.some.inj h1 : [example_history_buffer, example_pushed_buffer] = _).symm)⟩),
    by decide, by decide⟩

/-! ## History carried over from one call to the next -/

theorem resize_one_empty : InputBufferQueues.empty.resize 1 =
    { _bitset := [false], _enqueued_bytes := [0], _queues := [[]], _history_bytes := [0],
      _reserve_bytes := [0], _multiple_bytes := [0], _post_bytes := [0], _aux_queues := [none],
      _in_hist_buff := [false] } := rfl

/-- What `resize(1)` and `init` leave on a single port with history. -/
theorem init_single (fuel : Nat) (alloc : Nat → Nat → Region) (H M s : Nat)
    (hM : 0 < M) (hh : 0 < H * s)
    (hfit : H * s + max 1 (M * s) + max 1 (M * s) ≤ SIZE_MOD)
    (haux : H * s ≤ 2 ^ 17) (hfuel : H * s < fuel) :
    ∃ r, max 1 (M * s) ∣ r ∧ H * s + max 1 (M * s) ≤ r ∧
      r < H * s + max 1 (M * s) + max 1 (M * s) ∧
      (InputBufferQueues.empty.resize 1).init fuel alloc [H] [M] [s] =
        some (seeded_queues alloc (H * s) (max 1 (M * s)) r) := by
  have hm1 : 0 < max 1 (M * s) := by omega
  have e1 : size_mul s H = H * s := by
    rw [size_mul, Nat.mul_comm]; exact Nat.mod_eq_of_lt (by omega)
  have e2 : size_mul s M = M * s := by
    rw [size_mul, Nat.mul_comm]; exact Nat.mod_eq_of_lt (by omega)
  obtain ⟨r, hr, hdvd, hge, hlt⟩ := reserve_loop_total (H * s) (max 1 (M * s)) hm1 hfit fuel
    (max 1 (M * s)) (dvd_refl _) (by omega) (by omega) (by omega)
  have hpos' : ¬¬(M > 0) := not_not.mpr hM
  have hpush : H * s ≠ 0 ∧ 0 < H * s := ⟨by omega, hh⟩
  have e3 : size_add 0 (H * s) = H * s := by
    rw [size_add_eq (by omega)]; omega
  have hnr : ¬ (H * s ≥ r) := by omega
  refine ⟨r, hdvd, hge, hlt, ?_⟩
  rw [resize_one_empty]
  simp only [InputBufferQueues.init, InputBufferQueues.size, List.length_singleton,
    Nat.succ_ne_zero, if_false, forLoop, InputBufferQueues.init_port, bind, pure,
    List.getElem?_cons_zero, Option.some_bind, if_neg hpos', e1, e2, hr, List.length_cons,
    List.length_nil, Nat.zero_lt_succ, and_self, if_true, hpush.1, hpush.2, ne_eq,
    not_false_eq_true, BufferQueue.allocate_one, List.nil_append, List.cons_append,
    List.head?_cons, SBuffer.memset_zero, haux, InputBufferQueues.push, vset,
    InputBufferQueues.__update, List.set_cons_zero, e3, hnr, decide_False, List.tail_cons,
    Option.bind, Nat.zero_add, Nat.lt_one_iff, zero_add, one_ne_zero]
  rfl

theorem seeded_push (alloc : Nat → Nat → Region) (h m r : Nat) (b : SBuffer)
    (hr : r ≤ h + b.length) (hfit : h + b.length < SIZE_MOD) :
    (seeded_queues alloc h m r).push 0 b = some { seeded_queues alloc h m r with
      _bitset := [true], _enqueued_bytes := [h + b.length],
      _queues := [[history_seed (alloc 0 0) h, b]] } := by
  have e1 : size_add h b.length = h + b.length := size_add_eq hfit
  have c : h + b.length ≥ r := hr
  simp only [InputBufferQueues.push, seeded_queues, bind, pure, List.getElem?_cons_zero,
    Option.some_bind, vset, List.length_singleton, Nat.zero_lt_succ, if_true, List.set_cons_zero,
    InputBufferQueues.__update, e1, c, decide_True, List.singleton_append, Option.bind,
    Nat.lt_one_iff, zero_add]

theorem seeded_prepare_loop (alloc : Nat → Nat → Region) (h r : Nat) (b : SBuffer)
    (aux : Option BufferQueue) (fuel : Nat) (hfuel : 2 ≤ fuel)
    (hb1 : b.offset + b.length ≤ b.actual_length) (hb2 : b.actual_length < SIZE_MOD)
    (hlt : h < r) (hr : r ≤ h + b.length) (hfit : h + b.length ≤ 2 ^ 17) :
    InputBufferQueues.prepare_loop r fuel [history_seed (alloc 0 0) h, b] aux =
      some ([appended (history_seed (alloc 0 0) h) b], aux) := by
  obtain ⟨k, rfl⟩ : ∃ k, fuel = k + 2 := ⟨fuel - 2, by omega⟩
  have h17 : (2 : Nat) ^ 17 < SIZE_MOD := by decide
  have e1 : size_add r (history_seed (alloc 0 0) h).offset = r := by
    show size_add r 0 = r
    rw [size_add_eq (by omega)]; rfl
  have c2 : (history_seed (alloc 0 0) h).actual_length ≥
      size_add r (history_seed (alloc 0 0) h).offset ∧
      (history_seed (alloc 0 0) h).unique = true := by
    rw [e1]; exact ⟨by show r ≤ 2 ^ 17; omega, rfl⟩
  have hpick : InputBufferQueues.pick_destination r [history_seed (alloc 0 0) h, b] aux =
      some (history_seed (alloc 0 0) h, [b], aux) := by
    simp only [InputBufferQueues.pick_destination, List.head?_cons, List.tail_cons]
    rw [if_pos c2]
  have hmin : min ((history_seed (alloc 0 0) h).actual_length -
      ((history_seed (alloc 0 0) h).offset + (history_seed (alloc 0 0) h).length)) b.length =
      b.length := by
    show min (2 ^ 17 - (0 + h)) b.length = b.length
    exact Nat.min_eq_right (by omega)
  have hstep : InputBufferQueues.prepare_step r [history_seed (alloc 0 0) h, b] aux =
      some ([appended (history_seed (alloc 0 0) h) b], aux) := by
    rw [InputBufferQueues.prepare_step, hpick, Option.some_bind,
      merge_source_eq (history_seed (alloc 0 0) h) b [] (by show 0 + h ≤ 2 ^ 17; omega)
        (by show 2 ^ 17 < SIZE_MOD; exact h17) hb1 hb2, Option.map_some', hmin, Nat.sub_self]
    simp only [ne_eq, not_true_eq_false, if_false]
    rfl
  have c1 : (history_seed (alloc 0 0) h).length < r := hlt
  have c3 : ¬ ((appended (history_seed (alloc 0 0) h) b).length < r) := by
    show ¬ (h + b.length < r)
    omega
  rw [InputBufferQueues.prepare_loop]
  simp only [List.head?_cons]
  rw [if_pos c1, hstep, Option.some_bind, InputBufferQueues.prepare_loop]
  simp only [List.head?_cons]
  rw [if_neg c3]


theorem seeded_front (alloc : Nat → Nat → Region) (h m r : Nat) (b : SBuffer) (fuel : Nat)
    (hfuel : 2 ≤ fuel) (hb1 : b.offset + b.length ≤ b.actual_length)
    (hb2 : b.actual_length < SIZE_MOD) (hm : 1 ≤ m) (hlt : h + m ≤ r) (hr : r ≤ h + b.length)
    (hfit : h + b.length ≤ 2 ^ 17) (hh : 0 < h) :
    InputBufferQueues.front fuel { seeded_queues alloc h m r with
        _bitset := [true], _enqueued_bytes := [h + b.length],
        _queues := [[history_seed (alloc 0 0) h, b]] } 0 =
      some ({ appended (history_seed (alloc 0 0) h) b with length := b.length / m * m }, false,
        { seeded_queues alloc h m r with
          _bitset := [true], _enqueued_bytes := [h + b.length],
          _queues := [[appended (history_seed (alloc 0 0) h) b]] }) := by
  have h17 : (2 : Nat) ^ 17 < SIZE_MOD := by decide
  have hloop := seeded_prepare_loop alloc h r b
    (some [{ memory := (alloc 0 1).memory, actual_length := 2 ^ 17,
             bytes := (alloc 0 1).content, offset := 0, length := 2 ^ 17, unique := true }])
    fuel hfuel hb1 hb2 (by omega) hr hfit
  have c1 : ¬¬((history_seed (alloc 0 0) h).length ≥ h) := not_not.mpr (le_refl h)
  have c2 : ¬¬((appended (history_seed (alloc 0 0) h) b).length ≥ h) :=
    not_not.mpr (by show h ≤ h + b.length; omega)
  have hm0 : ¬ m = 0 := by omega
  have hh0 : ¬ h = 0 := by omega
  have e1 : size_sub (appended (history_seed (alloc 0 0) h) b).length h = b.length := by
    show size_sub (h + b.length) h = b.length
    rw [size_sub_eq (by omega) (by omega)]; omega
  have hle : b.length / m * m ≤ b.length := Nat.div_mul_le_self _ _
  have e2 : size_mul (b.length / m) m = b.length / m * m := size_mul_eq (by omega)
  simp only [InputBufferQueues.front, seeded_queues, bind, pure, List.getElem?_cons_zero,
    Option.some_bind, List.isEmpty_cons, Bool.false_eq_true, if_false, InputBufferQueues.ready,
    InputBufferQueues.__prepare, List.head?_cons, if_neg c1, hloop, List.set_cons_zero,
    if_neg c2, if_neg hm0, e1, e2, hh0, decide_False, Bool.and_false, Bool.false_and,
    Option.bind]
  rfl

theorem seeded_consume (alloc : Nat → Nat → Region) (h m r : Nat) (b : SBuffer)
    (hfit : h + b.length ≤ 2 ^ 17) (hh : 0 < h) :
    InputBufferQueues.consume { seeded_queues alloc h m r with
        _bitset := [true], _enqueued_bytes := [h + b.length],
        _queues := [[appended (history_seed (alloc 0 0) h) b]] } 0 (b.length / m * m) =
      some ({ seeded_queues alloc h m r with
          _bitset := [decide (h + b.length - b.length / m * m ≥ r)],
          _enqueued_bytes := [h + b.length - b.length / m * m],
          _queues := [[{ appended (history_seed (alloc 0 0) h) b with
            offset := b.length / m * m, length := h + b.length - b.length / m * m }]] },
        true) := by
  have h17 : (2 : Nat) ^ 17 < SIZE_MOD := by decide
  have hle : b.length / m * m ≤ b.length := Nat.div_mul_le_self _ _
  have c1 : ¬¬((appended (history_seed (alloc 0 0) h) b).length ≥ b.length / m * m) :=
    not_not.mpr (by show b.length / m * m ≤ h + b.length; omega)
  have c2 : ¬¬(h + b.length ≥ b.length / m * m) := not_not.mpr (by omega)
  have e1 : size_add (appended (history_seed (alloc 0 0) h) b).offset (b.length / m * m) =
      b.length / m * m := by
    show size_add 0 (b.length / m * m) = b.length / m * m
    rw [size_add_eq (by omega)]; omega
  have e2 : size_sub (appended (history_seed (alloc 0 0) h) b).length (b.length / m * m) =
      h + b.length - b.length / m * m := by
    show size_sub (h + b.length) (b.length / m * m) = _
    exact size_sub_eq (by omega) (by omega)
  have e3 : size_sub (h + b.length) (b.length / m * m) = h + b.length - b.length / m * m :=
    size_sub_eq (by omega) (by omega)
  have hh0 : ¬ h = 0 := by omega
  simp only [InputBufferQueues.consume, seeded_queues, bind, pure, List.getElem?_cons_zero,
    Option.some_bind, List.head?_cons, if_neg c1, if_neg c2, e1, e2, e3, hh0, and_false,
    if_false, List.tail_cons, List.set_cons_zero, InputBufferQueues.__update, vset,
    List.length_singleton, Nat.zero_lt_succ, if_true, Bool.not_false, Option.bind,
    Nat.lt_one_iff, zero_add]

theorem history_seed_window (region : Region) (h : Nat) :
    (history_seed region h).window = List.replicate h 0 := by
  simp only [SBuffer.window, history_seed]
  apply List.ext_getElem?
  intro k
  by_cases hk : k < h
  · rw [List.getElem?_map, List.getElem?_range hk, List.getElem?_replicate_of_lt hk]
    simp [hk]
  · rw [List.getElem?_eq_none_iff.mpr (by simpa using hk),
      List.getElem?_eq_none_iff.mpr (by simpa using hk)]

theorem appended_window (dst src : SBuffer) :
    (appended dst src).window = dst.window ++ src.window := by
  have := window_appended dst src src.length (le_refl _)
  rw [List.take_of_length_le (by simp [SBuffer.window])] at this
  exact this

/-- C14. History carry-over on a single port of items of `s` bytes with `H` history items
and `M > 0` multiple items, so with `h = H * s > 0` history bytes and `m = max(1, M * s)`
multiple bytes, the sizes fitting a `size_t` and the history an auxiliary buffer. After
`resize(1)` and `init` the deque holds exactly one buffer, of `h` zero bytes, and the port
is not ready. After then pushing a buffer `b` of `n` bytes with `h + n >= reserve_bytes`
and `h + n <= 128 KiB`, `front(0, _)` returns a view of length `m * floor(n / m)` over a
single merged front of length `h + n` whose bytes are the `h` zeros followed by the bytes
of `b`. After `consume(0, view.length)` the front entry remains in the deque with length
`h + (n mod m) >= h`. -/
theorem history_carry_over (fuel fuel' : Nat) (alloc : Nat → Nat → Region) (H M s : Nat)
    (hM : 0 < M) (hh : 0 < H * s)
    (hfit : H * s + max 1 (M * s) + max 1 (M * s) ≤ SIZE_MOD)
    (haux : H * s ≤ 2 ^ 17) (hfuel : H * s < fuel) (hfuel' : 2 ≤ fuel') :
    ∃ r q0 seed,
      (InputBufferQueues.empty.resize 1).init fuel alloc [H] [M] [s] = some q0 ∧
      q0._history_bytes = [H * s] ∧ q0._multiple_bytes = [max 1 (M * s)] ∧
      q0._reserve_bytes = [r] ∧
      q0._queues = [[seed]] ∧ seed.length = H * s ∧ seed.window = List.replicate (H * s) 0 ∧
      q0.ready 0 = some false ∧
      ∀ b : SBuffer, b.offset + b.length ≤ b.actual_length → b.actual_length < SIZE_MOD →
        r ≤ H * s + b.length → H * s + b.length ≤ 2 ^ 17 →
        ∃ q1 view potential_inline q2 merged q3 ret remaining,
          q0.push 0 b = some q1 ∧
          q1.front fuel' 0 = some (view, potential_inline, q2) ∧
          view.length = max 1 (M * s) * (b.length / max 1 (M * s)) ∧
          q2._queues = [[merged]] ∧ merged.length = H * s + b.length ∧
          merged.window = List.replicate (H * s) 0 ++ b.window ∧
          view = { merged with length := view.length } ∧
          q2.consume 0 view.length = some (q3, ret) ∧
          q3._queues = [[remaining]] ∧
          remaining.length = H * s + b.length % max 1 (M * s) ∧
          H * s ≤ remaining.length := by
  obtain ⟨r, hdvd, hge, hlt, hinit⟩ := init_single fuel alloc H M s hM hh hfit haux hfuel
  refine ⟨r, _, history_seed (alloc 0 0) (H * s), hinit, rfl, rfl, rfl, rfl, rfl,
    history_seed_window _ _, rfl, ?_⟩
  intro b hb1 hb2 hr h17
  have h17' : (2 : Nat) ^ 17 < SIZE_MOD := by decide
  have hm1 : 1 ≤ max 1 (M * s) := Nat.le_max_left _ _
  have hdm : max 1 (M * s) * (b.length / max 1 (M * s)) + b.length % max 1 (M * s) = b.length :=
    Nat.div_add_mod _ _
  have hcomm : b.length / max 1 (M * s) * max 1 (M * s) =
      max 1 (M * s) * (b.length / max 1 (M * s)) := Nat.mul_comm _ _
  refine ⟨_, _, _, _, appended (history_seed (alloc 0 0) (H * s)) b, _, _,
    { appended (history_seed (alloc 0 0) (H * s)) b with
      offset := b.length / max 1 (M * s) * max 1 (M * s)
      length := H * s + b.length - b.length / max 1 (M * s) * max 1 (M * s) },
    seeded_push alloc _ _ r b hr (by omega),
    seeded_front alloc _ _ r b fuel' hfuel' hb1 hb2 hm1 hge hr h17 hh,
    hcomm, rfl, rfl, ?_, rfl,
    seeded_consume alloc _ _ r b h17 hh, rfl, ?_, ?_⟩
  · rw [appended_window, history_seed_window]
  · show H * s + b.length - b.length / max 1 (M * s) * max 1 (M * s) = _
    omega
  · show H * s ≤ H * s + b.length - b.length / max 1 (M * s) * max 1 (M * s)
    omega

theorem history_carry_over_witness :
    (∃ r q0, (InputBufferQueues.empty.resize 1).init 13 example_alloc [3] [1] [4] = some q0 ∧
      q0._history_bytes = [3 * 4] ∧ q0._reserve_bytes = [r] ∧ q0.ready 0 = some false) ∧
    ((InputBufferQueues.empty.resize 1).init 13 example_alloc [3] [1] [4]).map
      (fun q0 => (q0._history_bytes, q0._multiple_bytes, q0._reserve_bytes)) =
      some ([12], [4], [16]) ∧
    ((InputBufferQueues.empty.resize 1).init 13 example_alloc [3] [1] [4]).map
      (fun q0 => (q0._bitset, q0._queues.map (fun d => d.map (fun b => b.window)))) =
      some ([false], [[List.replicate 12 0]]) ∧
    (((InputBufferQueues.empty.resize 1).init 13 example_alloc [3] [1] [4]).bind
      (fun q0 => (q0.push 0 example_pushed_buffer).bind
        (fun q1 => (q1.front 2 0).bind
          (fun r => (r.2.2.consume 0 r.1.length).map
            (fun c => (r.1.length, r.2.2._queues.map (fun d => d.map (fun b => b.length)),
              c.1._queues.map (fun d => d.map (fun b => b.length)))))))) =
      some (100, [[112]], [[12]]) :=
  ⟨(let ⟨r, q0, _, h1, h2, _, h3, _, _, _, h4, _⟩ :=
      history_carry_over 13 2 example_alloc 3 1 4 (by decide) (by decide) (by decide) (by decide)
        (by decide) (by decide)
    ⟨r, q0, h1, h2, h3, h4⟩),
    by decide, by decide, by decide⟩

/-! ## Tags through `handle_task` -/

/-- The tag side of a run of `handle_task` that completes a `Work` invocation: the state
`s6` in which the tag loop starts has the input tags of the prepared state and the
counters of the state returned; the tag loop keeps `kept_tags` and posts `trim_posts`;
the output tag loop then posts the tags `Work` queued. -/
theorem handle_task_tags (k : WorkSentinels) (srt : TagSort) (work : ElementImpl → WorkOut)
    (ti : TaskInterface) (s : ElementImpl) (wf : WellFormed ti s) (hr : Ready s)
    (hgate : no_peer_interested ti (tokens_count s.input_tokens)
      (tokens_count s.output_tokens) = false)
    (hret : (work (prepared srt ti s)).ret ≠ k.WORK_DONE)
    (hfit : WorkFits ti (work (prepared srt ti s)))
    (hc : CanConsume k ti (work (prepared srt ti s)).ret s) (hs : TagsScale s) :
    ∃ s6 s7 s8 buffers, handle_task k srt work ti s = some s8 ∧
      s6.input_tags = (prepared srt ti s).input_tags ∧
      s6.items_consumed = s8.items_consumed ∧
      s6.tag_prop_policy = s.tag_prop_policy ∧ s6.relative_rate = s.relative_rate ∧
      s8.input_tags = s7.input_tags ∧
      (∀ p, p < ti.num_inputs → s7.input_tags[p]? = kept_tags s6 p) ∧
      s7.output_tags = (work (prepared srt ti s)).output_tags ∧
      (∀ e, e ∈ buffers → ∃ j b, e = Event.post_downstream j (Message.buffer b)) ∧
      s8.log = s.log ++ Event.Work :: buffers ++
        (List.range ti.num_inputs).flatMap (fun p => (trim_posts ti s6 p).getD []) ++
        (List.range ti.num_outputs).flatMap (flush_posts s7) := by
  obtain ⟨s5, s6, s7, s8, e, g, st⟩ :=
    handle_task_worked k srt work ti s wf hr hgate hret hfit hc hs
  have f3 := g.frame
  have f5 := st.consumed.frame
  have f6 := st.produced.frame
  have f7 := st.trimmed.frame
  have f8 := st.flushed.frame
  have a1 : s5.input_tags = (prepared srt ti s).input_tags := by rw [f5]; rfl
  have a2 : s6.input_tags = s5.input_tags := by rw [f6]
  have b1 : s6.items_consumed = s5.items_consumed := by rw [f6]
  have b2 : s7.items_consumed = s6.items_consumed := by rw [f7]
  have b3 : s8.items_consumed = s7.items_consumed := by rw [f8]
  have c1 : s5.tag_prop_policy = (prepared srt ti s).tag_prop_policy := by rw [f5]; rfl
  have c2 : s6.tag_prop_policy = s5.tag_prop_policy := by rw [f6]
  have c3 : (prepared srt ti s).tag_prop_policy = s.tag_prop_policy := by rw [f3]
  have d1 : s5.relative_rate = (prepared srt ti s).relative_rate := by rw [f5]; rfl
  have d2 : s6.relative_rate = s5.relative_rate := by rw [f6]
  have d3 : (prepared srt ti s).relative_rate = s.relative_rate := by rw [f3]
  have o1 : s5.output_tags = (work (prepared srt ti s)).output_tags := by rw [f5]; rfl
  have o2 : s6.output_tags = s5.output_tags := by rw [f6]
  have o3 : s7.output_tags = s6.output_tags := by rw [f7]
  have t8 : s8.input_tags = s7.input_tags := by rw [f8]
  have l3 : (prepared srt ti s).log = s.log := by rw [f3]
  have l5 : s5.log = (prepared srt ti s).log ++ [Event.Work] := by rw [f5]; rfl
  refine ⟨s6, s7, s8,
    (List.range ti.num_outputs).filterMap (posted_buffer k (work (prepared srt ti s)).ret s5), e,
    a2.trans a1, b1.trans (b3.trans (b2.trans b1)).symm, (c2.trans c1).trans c3,
    (d2.trans d1).trans d3, t8, st.trimmed.input_tags_done, o3.trans (o2.trans o1), ?_, ?_⟩
  · intro ev hev
    obtain ⟨p, -, hp⟩ := List.mem_filterMap.mp hev
    obtain ⟨b, hb⟩ := posted_buffer_shape hp
    exact ⟨p, b, hb⟩
  · rw [st.flushed.log, st.trimmed.log, st.produced.log, l5, l3]
    simp only [List.append_assoc, List.singleton_append, List.cons_append, List.nil_append]

theorem myullround_eq {x : ℚ} {o : Nat} (h : myullround x = some o) : o = round_half_away x := by
  rw [myullround] at h
  split at h
  · injection h with h; exact h.symm
  · exact Option.noConfusion h

theorem double_round_eq {x y : ℚ} (h : double_round x = some y) : y = double_nearest x := by
  rw [double_round] at h
  split at h
  · injection h with h; exact h.symm
  · exact Option.noConfusion h

theorem scaled_offset_eq {rate : ℚ} {offset o : Nat} (h : scaled_offset rate offset = some o) :
    o = round_half_away (double_product offset rate) := by
  simp only [scaled_offset, double_of_unsigned, double_mul, Option.bind_eq_some] at h
  obtain ⟨a, ha, b, hb, hab⟩ := h
  rw [myullround_eq hab, double_round_eq hb, double_round_eq ha, double_product]

theorem scale_tags_eq (rate : ℚ) : ∀ (tags scaled : List Tag),
    scale_tags rate tags = some scaled → scaled = tags.map (Tag.scaled rate) := by
  intro tags
  induction tags with
  | nil => intro scaled h; simp [scale_tags] at h; subst h; rfl
  | cons t ts ih =>
    intro scaled h
    simp only [scale_tags, bind, pure, Option.bind_eq_some, Option.some.injEq] at h
    obtain ⟨o, ho, r, hr, rfl⟩ := h
    rw [ih r hr, scaled_offset_eq ho]
    rfl

/-- On a list sorted by offset, the prefix the loop of lines 199-203 counts is the set of
tags before `c`, and what the erasure of line 234 leaves is the set of tags from `c` on. -/
theorem takeWhile_sorted (c : Nat) : ∀ (tags : List Tag),
    List.Sorted (fun a b : Tag => a.offset ≤ b.offset) tags →
    tags.takeWhile (fun t => decide (t.offset < c)) = tags_before c tags ∧
    tags.drop (tags.takeWhile (fun t => decide (t.offset < c))).length = tags_from c tags := by
  intro tags
  induction tags with
  | nil => intro _; exact ⟨rfl, rfl⟩
  | cons a l ih =>
    intro hs
    have hs' := List.sorted_cons.mp hs
    obtain ⟨h1, h2⟩ := ih hs'.2
    by_cases ha : a.offset < c
    · have hna : ¬ (c ≤ a.offset) := by omega
      constructor
      · simp only [tags_before, List.takeWhile_cons, ha, decide_True, if_true, List.filter_cons]
        rw [h1]; rfl
      · simp only [tags_from, List.takeWhile_cons, ha, decide_True, if_true, List.length_cons,
          List.drop_succ_cons, List.filter_cons, hna, decide_False]
        rw [h2]; simp [tags_from]
    · have hca : c ≤ a.offset := by omega
      have hall : ∀ b, b ∈ l → ¬ (b.offset < c) := fun b hb => by
        have := hs'.1 b hb
        omega
      constructor
      · simp only [tags_before, List.takeWhile_cons, ha, decide_False, List.filter_cons]
        simp only [Bool.false_eq_true, if_false]
        symm
        rw [List.filter_eq_nil_iff]
        intro b hb
        simp [hall b hb]
      · simp only [tags_from, List.takeWhile_cons, ha, decide_False, List.filter_cons, hca,
          decide_True, if_true]
        simp only [Bool.false_eq_true, if_false, List.length_nil, List.drop_zero]
        congr 1
        symm
        rw [List.filter_eq_self]
        intro b hb
        have := hall b hb
        simp; omega

theorem tags_before_append_from (c : Nat) (tags : List Tag)
    (hs : List.Sorted (fun a b : Tag => a.offset ≤ b.offset) tags) :
    tags = tags_before c tags ++ tags_from c tags := by
  obtain ⟨h1, h2⟩ := takeWhile_sorted c tags hs
  rw [← h1, ← h2]
  clear h1 h2 hs
  induction tags with
  | nil => rfl
  | cons a l ih =>
    by_cases ha : a.offset < c
    · simp only [List.takeWhile_cons, ha, decide_True, if_true, List.length_cons,
        List.drop_succ_cons, List.cons_append]
      rw [← ih]
    · simp [List.takeWhile_cons, ha]

theorem propagate_tags_eq {ti : TaskInterface} {policy : TagPropPolicy} {rate : ℚ} {i : Nat}
    {trimmed : List Tag} {posts : List Event}
    (h : propagate_tags ti policy rate i trimmed = some posts) :
    posts = propagated ti policy rate i trimmed := by
  cases policy with
  | TPP_DONT =>
    simp only [propagate_tags, Option.some.injEq] at h
    rw [← h]; rfl
  | TPP_ALL_TO_ALL =>
    simp only [propagate_tags] at h
    by_cases hn : ti.num_outputs = 0
    · rw [if_pos hn] at h
      injection h with h
      rw [← h]
      simp [propagated, hn]
    · rw [if_neg hn] at h
      simp only [Option.map_eq_some'] at h
      obtain ⟨scaled, hsc, rfl⟩ := h
      rw [scale_tags_eq rate trimmed scaled hsc]
      simp only [propagated, List.map_map]
      rfl
  | TPP_ONE_TO_ONE =>
    simp only [propagate_tags] at h
    by_cases hn : i < ti.num_outputs
    · rw [if_pos hn] at h
      simp only [Option.map_eq_some'] at h
      obtain ⟨scaled, hsc, rfl⟩ := h
      rw [scale_tags_eq rate trimmed scaled hsc]
      simp only [propagated, if_pos hn, List.map_map]
      rfl
    · rw [if_neg hn] at h
      injection h with h
      rw [← h]
      simp [propagated, hn]

/-- C15, amended. A run of `handle_task` that completes a `Work` invocation: a ready,
well-formed block that passes the gate of lines 127-133, whose `Work` returns something
other than `WORK_DONE`, and whose accounting meets no failing assertion and no undefined
conversion. The log it leaves is the log it found, the call of `Work`, one buffer per
output port, the tags `posts i` propagated for the input ports `i` in turn, and the output
tags `Work` queued. For every input port `i` whose tag list `tags` is sorted by offset
after the pre-sort step, with `c` the updated `items_consumed[i]`: the trimmed tags are
exactly the tags with offset below `c`, the list afterwards is exactly the remaining tags,
in order, and `posts i` is what the policy says: nothing under `DONT`; under `ALL_TO_ALL`,
on every output port each trimmed tag with its offset replaced by
`round(offset * relative_rate)`, the product being the one of double precision (the offset
converted to `double`, the product rounded to `double`); under `ONE_TO_ONE`, those scaled
tags on output port `i` when `i < num_outputs`, else nothing. The product of double
precision is the exact one whenever the offset is below `2 ^ 53` and the exact product is
a `double`. -/
theorem tag_trim_propagation (k : WorkSentinels) (srt : TagSort) (work : ElementImpl → WorkOut)
    (ti : TaskInterface) (s : ElementImpl) (wf : WellFormed ti s) (hr : Ready s)
    (hgate : no_peer_interested ti (tokens_count s.input_tokens)
      (tokens_count s.output_tokens) = false)
    (hret : (work (prepared srt ti s)).ret ≠ k.WORK_DONE)
    (hfit : WorkFits ti (work (prepared srt ti s)))
    (hc : CanConsume k ti (work (prepared srt ti s)).ret s) (hs : TagsScale s) :
    ∃ (s' : ElementImpl) (buffers : List Event) (posts : Nat → List Event),
      handle_task k srt work ti s = some s' ∧
      (∀ e, e ∈ buffers → ∃ j b, e = Event.post_downstream j (Message.buffer b)) ∧
      s'.log = s.log ++ Event.Work :: buffers ++ (List.range ti.num_inputs).flatMap posts ++
        flushed ti (work (prepared srt ti s)).output_tags ∧
      ∀ (i : Nat) (tags : List Tag) (c : Nat), i < ti.num_inputs →
        (prepared srt ti s).input_tags[i]? = some tags → s'.items_consumed[i]? = some c →
        List.Sorted (fun a b : Tag => a.offset ≤ b.offset) tags →
        tags = tags_before c tags ++ tags_from c tags ∧
        s'.input_tags[i]? = some (tags_from c tags) ∧
        (∀ t, t ∈ tags_from c tags → c ≤ t.offset) ∧
        posts i = propagated ti s.tag_prop_policy s.relative_rate i (tags_before c tags) ∧
        ∀ t : Tag, t.offset < 2 ^ 53 →
          double_nearest ((t.offset : ℚ) * s.relative_rate) = (t.offset : ℚ) * s.relative_rate →
          (t.scaled s.relative_rate).offset =
            round_half_away ((t.offset : ℚ) * s.relative_rate) := by
  obtain ⟨s6, s7, s8, buffers, e, h1, h2, h3, h4, h5, h6, h7, h8, h9⟩ :=
    handle_task_tags k srt work ti s wf hr hgate hret hfit hc hs
  refine ⟨s8, buffers, fun p => (trim_posts ti s6 p).getD [], e, h8, ?_, ?_⟩
  · have hf : flush_posts s7 = fun j =>
        (((work (prepared srt ti s)).output_tags[j]?).getD []).map
          (fun t => Event.post_downstream j (Message.tag t)) := by
      funext j
      rw [flush_posts, h7]
    rw [h9, hf]
    rfl
  · intro i tags c hi htags hcons hsorted
    obtain ⟨g1, g2⟩ := takeWhile_sorted c tags hsorted
    have hkept : kept_tags s6 i = some (tags_from c tags) := by
      simp only [kept_tags, bind, pure, h1, htags, h2, hcons, Option.some_bind, g1, g2,
        Option.bind]
      rw [← g1, g2]
    refine ⟨tags_before_append_from c tags hsorted, ?_, ?_, ?_, ?_⟩
    rotate_right
    · intro t ht hex
      show round_half_away (double_product t.offset s.relative_rate) = _
      rw [double_product, double_nearest_natCast t.offset ht, hex]
    · rw [h5, h6 i hi, hkept]
    · intro t ht
      simpa [tags_from] using (List.mem_filter.mp ht).2
    · have htp : trim_posts ti s6 i = propagate_tags ti s.tag_prop_policy s.relative_rate i
          (tags_before c tags) := by
        simp only [trim_posts, bind, h1, htags, h2, hcons, Option.some_bind, g1, h3, h4,
          Option.bind]
      show (trim_posts ti s6 i).getD [] = _
      rw [htp]
      have hsc : s.tag_prop_policy = TagPropPolicy.TPP_DONT ∨
          ∀ t, t ∈ tags_before c tags → (scaled_offset s.relative_rate t.offset).isSome := by
        have g := (handle_task_worked k srt work ti s wf hr hgate hret hfit hc hs)
        obtain ⟨_, _, _, _, _, g, _⟩ := g
        have hs3 := tagsScale_of_gathered g hs
        have a1 : (prepared srt ti s).tag_prop_policy = s.tag_prop_policy := by rw [g.frame]
        have a2 : (prepared srt ti s).relative_rate = s.relative_rate := by rw [g.frame]
        rw [TagsScale, a1, a2] at hs3
        refine hs3.imp id (fun h t ht => ?_)
        exact h tags (List.getElem?_mem htags) t (List.mem_filter.mp ht).1
      obtain ⟨posts, hp⟩ := propagate_tags_some ti s.tag_prop_policy s.relative_rate i _ hsc
      rw [hp, Option.getD_some]
      exact propagate_tags_eq hp

theorem wf_tagged_block : WellFormed { num_inputs := 1, num_outputs := 2 } tagged_block := by
  constructor <;> first | rfl | (simp [tagged_block, portless_block])

theorem ready_tagged_block : Ready tagged_block := by
  simp [Ready, tagged_block, portless_block, all_ready]

theorem tags_scale_tagged_block : TagsScale tagged_block := by
  refine Or.inr ?_
  intro tags ht t htt
  simp only [tagged_block, List.mem_singleton] at ht
  subst ht
  simp only [List.mem_cons, List.mem_singleton, List.not_mem_nil, or_false] at htt
  rcases htt with rfl | rfl <;> decide!

theorem tag_trim_propagation_witness :
    WellFormed { num_inputs := 1, num_outputs := 2 } tagged_block ∧ Ready tagged_block ∧
    (∃ s', handle_task example_sentinels insertion_sort (work_consuming 80 [40])
        { num_inputs := 1, num_outputs := 2 } tagged_block = some s' ∧
      s'.input_tags[0]? = some (tags_from 40
        [{ offset := 10, key := 2, value := 9 }, { offset := 30, key := 1, value := 7 }])) ∧
    (handle_task example_sentinels insertion_sort (work_consuming 80 [40])
        { num_inputs := 1, num_outputs := 2 } tagged_block).map
      (fun s' => (s'.input_tags, s'.items_consumed, s'.log)) =
      some ([[]], [40], [Event.Work,
        Event.post_downstream 0 (Message.buffer { memory := 8192, length := 320 }),
        Event.post_downstream 1 (Message.buffer { memory := 12288, length := 320 }),
        Event.post_downstream 0 (Message.tag { offset := 20, key := 2, value := 9 }),
        Event.post_downstream 0 (Message.tag { offset := 60, key := 1, value := 7 }),
        Event.post_downstream 1 (Message.tag { offset := 20, key := 2, value := 9 }),
        Event.post_downstream 1 (Message.tag { offset := 60, key := 1, value := 7 })]) := by
  refine ⟨wf_tagged_block, ready_tagged_block, ?_, by decide!⟩
  obtain ⟨s', _, _, e, _, _, h⟩ := tag_trim_propagation example_sentinels insertion_sort
    (work_consuming 80 [40]) { num_inputs := 1, num_outputs := 2 } tagged_block wf_tagged_block
    ready_tagged_block (by decide) (by decide) ⟨by decide, by decide, by decide⟩
    (fun _ => ⟨Or.inr (by decide), fun h => absurd h (by decide)⟩) tags_scale_tagged_block
  have hev : (handle_task example_sentinels insertion_sort (work_consuming 80 [40])
      { num_inputs := 1, num_outputs := 2 } tagged_block).map (fun s' => s'.items_consumed) =
      some [40] := by decide!
  rw [e, Option.map_some', Option.some.injEq] at hev
  exact ⟨s', e, (h 0 _ 40 (by decide) (by decide) (by rw [hev]; rfl) (by decide)).2.1⟩

/-- C15 fails as stated. A block as `tagged_block` with a relative rate of `0.3`, the
`double` nearest to 3/10, and a tag at offset 5: the product `5 * 0.3` of double precision
is 3/2, and the tag is posted on both output ports with offset 2, while the exact product
is below 3/2 and `round(offset * relative_rate)` is 1. -/
theorem tag_trim_propagation_counterexample :
    double_round (3 / 10) = some slow_tagged_block.relative_rate ∧
    double_product 5 slow_tagged_block.relative_rate = 3 / 2 ∧
    round_half_away ((5 : ℚ) * slow_tagged_block.relative_rate) = 1 ∧
    (handle_task example_sentinels insertion_sort (work_consuming 80 [40])
        { num_inputs := 1, num_outputs := 2 } slow_tagged_block).map
      (fun s' => (s'.input_tags, s'.items_consumed, s'.log)) =
      some ([[]], [40], [Event.Work,
        Event.post_downstream 0 (Message.buffer { memory := 8192, length := 320 }),
        Event.post_downstream 1 (Message.buffer { memory := 12288, length := 320 }),
        Event.post_downstream 0 (Message.tag { offset := 2, key := 1, value := 7 }),
        Event.post_downstream 1 (Message.tag { offset := 2, key := 1, value := 7 })]) := by
  refine ⟨?_, ?_, ?_, ?_⟩ <;> decide!

/-- The four ways through `handle_task` on a well-formed block: back at the gate of
lines 63-65, out through the gate of lines 127-133, out on `WORK_DONE`, or through the
accounting. -/
theorem handle_task_paths (k : WorkSentinels) (srt : TagSort) (work : ElementImpl → WorkOut)
    (ti : TaskInterface) (s : ElementImpl) (wf : WellFormed ti s) :
    Gathered srt s (prepared srt ti s) ∧
    ((¬ Ready s ∧ handle_task k srt work ti s = some s) ∨
     (Ready s ∧ no_peer_interested ti (tokens_count s.input_tokens)
        (tokens_count s.output_tokens) = true ∧
      handle_task k srt work ti s = some (mark_done ti (prepared srt ti s))) ∨
     (Ready s ∧ no_peer_interested ti (tokens_count s.input_tokens)
        (tokens_count s.output_tokens) = false ∧
      (work (prepared srt ti s)).ret = k.WORK_DONE ∧
      handle_task k srt work ti s =
        some (mark_done ti (call_work work (prepared srt ti s)))) ∨
     (Ready s ∧ no_peer_interested ti (tokens_count s.input_tokens)
        (tokens_count s.output_tokens) = false ∧
      (work (prepared srt ti s)).ret ≠ k.WORK_DONE)) := by
  obtain ⟨s3, hg, g⟩ := gather_total srt ti s wf
  have hp := prepared_eq hg
  rw [hp]
  refine ⟨g, ?_⟩
  by_cases hr : Ready s
  · have hr' : ¬¬(s.active = true ∧ all_ready s.inputs_ready = true ∧
        all_ready s.outputs_ready = true) := not_not.mpr hr
    by_cases hgate : no_peer_interested ti (tokens_count s.input_tokens)
        (tokens_count s.output_tokens) = true
    · refine Or.inr (Or.inl ⟨hr, hgate, ?_⟩)
      have := (handle_task_gate k srt work ti s wf hr).mpr hgate
      rw [this, disinterest_exit, hg]
      rfl
    · have hgate' : no_peer_interested ti (tokens_count s.input_tokens)
          (tokens_count s.output_tokens) = false := by
        cases h : no_peer_interested ti (tokens_count s.input_tokens)
          (tokens_count s.output_tokens) with
        | false => rfl
        | true => exact absurd h hgate
      by_cases hret : (work s3).ret = k.WORK_DONE
      · refine Or.inr (Or.inr (Or.inl ⟨hr, hgate', hret, ?_⟩))
        rw [handle_task, if_neg hr', hg]
        simp only [hgate', Bool.false_eq_true, if_false, if_pos hret]
      · exact Or.inr (Or.inr (Or.inr ⟨hr, hgate', hret⟩))
  · refine Or.inl ⟨hr, ?_⟩
    have hr' : ¬(s.active = true ∧ all_ready s.inputs_ready = true ∧
        all_ready s.outputs_ready = true) := hr
    rw [handle_task, if_pos hr']


/-- No check-token message is the post of a tag. -/
theorem not_tag_of_check_tokens (ti : TaskInterface) (j : Nat) (t : Tag) :
    Event.post_downstream j (Message.tag t) ∉ check_tokens_posts ti := by
  intro h
  rcases mem_check_tokens_posts.mp h with ⟨_, _, h⟩ | ⟨_, _, h⟩
  · exact Event.noConfusion h
  · injection h with _ h2
    exact Message.noConfusion h2

/-- The tags of input port `p` after the pre-sort are those the port had. -/
theorem mem_prepared_tags {srt : TagSort} {s s3 : ElementImpl} (g : Gathered srt s s3)
    {p : Nat} {tags3 : List Tag}
    (h : s3.input_tags[p]? = some tags3) :
    ∃ tags, s.input_tags[p]? = some tags ∧ ∀ t, t ∈ tags3 → t ∈ tags := by
  have := g.tags p
  rw [h] at this
  cases hq : s.input_tags[p]? with
  | none => rw [hq] at this; exact Option.noConfusion this
  | some tags =>
    rw [hq, Option.map_some', Option.some.injEq] at this
    refine ⟨tags, rfl, fun t ht => ?_⟩
    rw [this] at ht
    split at ht
    · exact (srt.perm _).mem_iff.mp ht
    · exact ht

theorem double_round_mono {x y b : ℚ} (hx : 0 ≤ x) (h : x ≤ y) (hy : double_round y = some b) :
    ∃ a, double_round x = some a ∧ 0 ≤ a ∧ a ≤ b := by
  have hb := double_round_eq hy
  have h0 := double_nearest_nonneg hx
  have h1 := double_nearest_mono hx h
  have hlt : |double_nearest y| < ((2 ^ 1024 : ℕ) : ℚ) := by
    rw [double_round] at hy
    by_contra hc
    rw [if_neg hc] at hy
    exact Option.noConfusion hy
  have hlt' : |double_nearest x| < ((2 ^ 1024 : ℕ) : ℚ) := by
    rw [abs_of_nonneg h0]
    exact lt_of_le_of_lt (le_trans h1 (le_abs_self _)) hlt
  exact ⟨double_nearest x, by rw [double_round, if_pos hlt'], h0, by rw [hb]; exact h1⟩

theorem myullround_mono {x y : ℚ} {b : Nat} (hx : 0 ≤ x) (h : x ≤ y)
    (hy : myullround y = some b) : ∃ a, myullround x = some a ∧ a ≤ b := by
  rw [myullround] at hy
  by_cases c : -1 < y + 1 / 2 ∧ y + 1 / 2 < (SIZE_MOD : ℚ)
  · rw [if_pos c] at hy
    injection hy with hy
    have c' : -1 < x + 1 / 2 ∧ x + 1 / 2 < (SIZE_MOD : ℚ) := ⟨by linarith, by linarith [c.2]⟩
    refine ⟨_, by rw [myullround, if_pos c'], ?_⟩
    rw [← hy]
    exact Int.toNat_le_toNat (Int.floor_le_floor (by linarith))
  · rw [if_neg c] at hy
    exact Option.noConfusion hy

/-- The offset the code gives a propagated tag does not decrease with the offset of the
tag, for a relative rate that is not negative. -/
theorem scaled_offset_mono {rate : ℚ} (hrate : 0 ≤ rate) {a b y : Nat} (h : a ≤ b)
    (hb : scaled_offset rate b = some y) : ∃ x, scaled_offset rate a = some x ∧ x ≤ y := by
  simp only [scaled_offset, double_of_unsigned, double_mul, Option.bind_eq_some] at hb ⊢
  obtain ⟨B, hB, P, hP, hy⟩ := hb
  have hab : (a : ℚ) ≤ (b : ℚ) := by exact_mod_cast h
  obtain ⟨A, hA, hA0, hAB⟩ := double_round_mono (Nat.cast_nonneg a) hab hB
  obtain ⟨Q, hQ, hQ0, hQP⟩ := double_round_mono (mul_nonneg hA0 hrate)
    (mul_le_mul_of_nonneg_right hAB hrate) hP
  obtain ⟨x, hx, hxy⟩ := myullround_mono hQ0 hQP hy
  exact ⟨x, ⟨A, hA, Q, hQ, hx⟩, hxy⟩

/-- Below `2 ^ 52` the offset the code gives a propagated tag is at least the exact
product rounded half away from zero. -/
theorem round_le_scaled_offset {rate : ℚ} (hrate : 0 ≤ rate) {prev x : Nat} (hp : prev < 2 ^ 53)
    (hk : round_half_away ((prev : ℚ) * rate) ≤ 2 ^ 52)
    (h : scaled_offset rate prev = some x) : round_half_away ((prev : ℚ) * rate) ≤ x := by
  rw [scaled_offset_eq h, double_product, double_nearest_natCast prev hp]
  set k := round_half_away ((prev : ℚ) * rate) with hkdef
  by_cases hk0 : k = 0
  · rw [hk0]; exact Nat.zero_le _
  · have hkpos : 0 < k := Nat.pos_of_ne_zero hk0
    have hprod : (0 : ℚ) ≤ (prev : ℚ) * rate := mul_nonneg (Nat.cast_nonneg prev) hrate
    have hfl : ((k : ℤ) : ℚ) ≤ (prev : ℚ) * rate + 1 / 2 := by
      have h1 : (k : ℤ) = ⌊(prev : ℚ) * rate + 1 / 2⌋ := by
        rw [hkdef, round_half_away, Int.toNat_of_nonneg]
        exact Int.floor_nonneg.mpr (by linarith)
      rw [h1]; exact Int.floor_le _
    have hhalf : ((2 * k - 1 : ℕ) : ℚ) * (2 : ℚ) ^ (-1 : ℤ) ≤ (prev : ℚ) * rate := by
      have : ((2 * k - 1 : ℕ) : ℚ) = 2 * (k : ℚ) - 1 := by
        rw [Nat.cast_sub (by omega)]; push_cast; ring
      rw [this]
      have : (2 : ℚ) ^ (-1 : ℤ) = 1 / 2 := by norm_num
      rw [this]
      have : ((k : ℤ) : ℚ) = (k : ℚ) := by push_cast; rfl
      linarith
    have hex := double_nearest_exact (2 * k - 1) (-1) (by omega) (by omega) (by norm_num)
    have hmono := double_nearest_mono (by positivity) hhalf
    rw [hex] at hmono
    unfold round_half_away
    have hge : ((k : ℤ) : ℚ) ≤ double_nearest ((prev : ℚ) * rate) + 1 / 2 := by
      have e1 : ((2 * k - 1 : ℕ) : ℚ) = 2 * (k : ℚ) - 1 := by
        rw [Nat.cast_sub (by omega)]; push_cast; ring
      have e2 : (2 : ℚ) ^ (-1 : ℤ) = 1 / 2 := by norm_num
      rw [e1, e2] at hmono
      have : ((k : ℤ) : ℚ) = (k : ℚ) := by push_cast; rfl
      linarith
    have := Int.le_floor.mpr hge
    omega

/-- C16, amended. A call of `handle_task` on a well-formed block under the `ONE_TO_ONE`
policy with a relative rate that is not negative, whose accounting, if it comes to it,
meets no failing assertion and no undefined conversion. Let `prev` be `items_consumed[j]`
at entry, and let every tag of input port `j` at entry have an offset of at least `prev`.
Then `handle_task` returns, and every tag it posts downstream on port `j` either is one
of the tags `Work` queued in `output_tags[j]`, posted as it is, or has an offset of at
least `bound`, the value `myullround(prev * relative_rate)` that the double precision of
lines 215 and 226 gives for `prev`; and when `prev` is below `2 ^ 53` and
`round(prev * relative_rate)`, the exact product rounded half away from zero, is at most
`2 ^ 52`, that offset is at least `round(prev * relative_rate)`. -/
theorem one_to_one_tag_order (k : WorkSentinels) (srt : TagSort) (work : ElementImpl → WorkOut)
    (ti : TaskInterface) (s : ElementImpl) (wf : WellFormed ti s)
    (hfit : WorkFits ti (work (prepared srt ti s)))
    (hc : CanConsume k ti (work (prepared srt ti s)).ret s) (hs : TagsScale s)
    (hpol : s.tag_prop_policy = TagPropPolicy.TPP_ONE_TO_ONE) (hrate : 0 ≤ s.relative_rate)
    (j prev : Nat) (hprev : s.items_consumed[j]? = some prev)
    (htags : ∀ tags, s.input_tags[j]? = some tags → ∀ t, t ∈ tags → prev ≤ t.offset) :
    ∃ s' posted, handle_task k srt work ti s = some s' ∧ s'.log = s.log ++ posted ∧
      ∀ t, Event.post_downstream j (Message.tag t) ∈ posted →
        (∃ queued, (work (prepared srt ti s)).output_tags[j]? = some queued ∧ t ∈ queued) ∨
        (∃ bound, scaled_offset s.relative_rate prev = some bound ∧ bound ≤ t.offset ∧
          (prev < 2 ^ 53 → round_half_away ((prev : ℚ) * s.relative_rate) ≤ 2 ^ 52 →
            round_half_away ((prev : ℚ) * s.relative_rate) ≤ t.offset)) := by
  obtain ⟨g, hpath⟩ := handle_task_paths k srt work ti s wf
  have l3 : (prepared srt ti s).log = s.log := by rw [g.frame]
  rcases hpath with ⟨-, e⟩ | ⟨-, -, e⟩ | ⟨-, -, -, e⟩ | ⟨hr, hgate, hret⟩
  · exact ⟨s, [], e, by simp, fun t ht => absurd ht (List.not_mem_nil _)⟩
  · refine ⟨_, _, e, by rw [mark_done_log, l3], fun t ht => ?_⟩
    by_cases hd : (prepared srt ti s).done = true
    · rw [if_pos hd] at ht; exact absurd ht (List.not_mem_nil _)
    · rw [if_neg hd] at ht; exact absurd ht (not_tag_of_check_tokens ti j t)
  · refine ⟨_, [Event.Work] ++ (if (call_work work (prepared srt ti s)).done = true then []
        else check_tokens_posts ti), e, ?_, fun t ht => ?_⟩
    · rw [mark_done_log]
      have : (call_work work (prepared srt ti s)).log = s.log ++ [Event.Work] := by
        rw [← l3]; rfl
      rw [this, List.append_assoc]
    · rcases List.mem_append.mp ht with h | h
      · simp at h
      · by_cases hd : (call_work work (prepared srt ti s)).done = true
        · rw [if_pos hd] at h; exact absurd h (List.not_mem_nil _)
        · rw [if_neg hd] at h; exact absurd h (not_tag_of_check_tokens ti j t)
  · obtain ⟨s6, s7, s8, buffers, e, h1, h2, h3, h4, h5, h6, h7, h8, h9⟩ :=
      handle_task_tags k srt work ti s wf hr hgate hret hfit hc hs
    refine ⟨s8, Event.Work :: buffers ++
        (List.range ti.num_inputs).flatMap (fun p => (trim_posts ti s6 p).getD []) ++
        (List.range ti.num_outputs).flatMap (flush_posts s7), e,
      by rw [h9]; simp only [List.append_assoc], fun t ht => ?_⟩
    rcases List.mem_append.mp ht with ht | ht
    · rcases List.mem_append.mp ht with ht | ht
      · rcases List.mem_cons.mp ht with ht | ht
        · exact Event.noConfusion ht
        · obtain ⟨p, b, hb⟩ := h8 _ ht
          injection hb with _ hb2
          exact Message.noConfusion hb2
      · right
        simp only [List.mem_flatMap, List.mem_range] at ht
        obtain ⟨p, hp, hmem⟩ := ht
        cases htp : trim_posts ti s6 p with
        | none => rw [htp] at hmem; simp at hmem
        | some posts =>
          rw [htp, Option.getD_some] at hmem
          simp only [trim_posts, bind, Option.bind_eq_some] at htp
          obtain ⟨tags3, htags3, c, _, hprop⟩ := htp
          have := propagate_tags_eq hprop
          rw [h3, hpol, h4] at this
          subst this
          simp only [propagated] at hmem
          by_cases hpo : p < ti.num_outputs
          · rw [if_pos hpo] at hmem
            simp only [List.mem_map] at hmem
            obtain ⟨u, hu, hev⟩ := hmem
            injection hev with hpj hm
            injection hm with hut
            subst hpj hut
            rw [h1] at htags3
            obtain ⟨tags, hq, hsub⟩ := mem_prepared_tags g htags3
            have hu' := hsub u (List.takeWhile_subset _ hu)
            have hsc : (scaled_offset s.relative_rate u.offset).isSome := by
              rcases hs with hd | hall
              · rw [hpol] at hd; exact TagPropPolicy.noConfusion hd
              · exact hall tags (List.getElem?_mem hq) u hu'
            obtain ⟨y, hy⟩ := Option.isSome_iff_exists.mp hsc
            obtain ⟨bound, hb, hle⟩ := scaled_offset_mono hrate (htags tags hq u hu') hy
            have hoff : (Tag.scaled s.relative_rate u).offset = y := (scaled_offset_eq hy).symm
            refine ⟨bound, hb, by rw [hoff]; exact hle, fun hp hk => ?_⟩
            rw [hoff]
            exact le_trans (round_le_scaled_offset hrate hp hk hb) hle
          · rw [if_neg hpo] at hmem
            exact absurd hmem (List.not_mem_nil _)
    · left
      simp only [List.mem_flatMap, List.mem_range, flush_posts, List.mem_map] at ht
      obtain ⟨p, hp, u, hu, hev⟩ := ht
      injection hev with hpj hm
      injection hm with hut
      subst hpj hut
      rw [h7] at hu
      cases hq : (work (prepared srt ti s)).output_tags[p]? with
      | none => rw [hq] at hu; simp at hu
      | some queued =>
        rw [hq, Option.getD_some] at hu
        exact ⟨queued, rfl, hu⟩

theorem wf_one_to_one_block (tags : List Tag) :
    WellFormed { num_inputs := 1, num_outputs := 1 } (one_to_one_block tags) := by
  constructor <;> first | rfl | (simp [one_to_one_block, portless_block])

/-- C16 fails as stated. A block under `ONE_TO_ONE` with a relative rate of 1 that has
consumed 100 items at entry, so that `round(prev_consumed * relative_rate)` is 100. With a
tag at offset 5 on its input port, `handle_task` posts that tag downstream on port 0 with
offset 5. With no input tag and a `Work` that queues an output tag at offset 0,
`handle_task` posts that tag downstream on port 0 with offset 0. And a block that has
consumed `2 ^ 53 + 1` items at entry, with a tag at offset `2 ^ 53 + 1` on its input port:
the offset is converted to the `double` `2 ^ 53`, and the tag is posted with offset
`2 ^ 53`, below `round(prev_consumed * relative_rate)`, which is `2 ^ 53 + 1`. -/
theorem one_to_one_tag_order_counterexample :
    (one_to_one_block [{ offset := 5, key := 1, value := 7 }]).tag_prop_policy =
      TagPropPolicy.TPP_ONE_TO_ONE ∧
    (one_to_one_block [{ offset := 5, key := 1, value := 7 }]).items_consumed[0]? = some 100 ∧
    round_half_away ((100 : ℚ) *
      (one_to_one_block [{ offset := 5, key := 1, value := 7 }]).relative_rate) = 100 ∧
    (handle_task example_sentinels insertion_sort (work_consuming 10 [10])
        { num_inputs := 1, num_outputs := 1 }
        (one_to_one_block [{ offset := 5, key := 1, value := 7 }])).map (fun s' => s'.log) =
      some [Event.Work,
        Event.post_downstream 0 (Message.buffer { memory := 8192, length := 40 }),
        Event.post_downstream 0 (Message.tag { offset := 5, key := 1, value := 7 })] ∧
    (handle_task example_sentinels insertion_sort
        (work_tagging 10 [10] [[{ offset := 0, key := 2, value := 9 }]])
        { num_inputs := 1, num_outputs := 1 } (one_to_one_block [])).map (fun s' => s'.log) =
      some [Event.Work,
        Event.post_downstream 0 (Message.buffer { memory := 8192, length := 40 }),
        Event.post_downstream 0 (Message.tag { offset := 0, key := 2, value := 9 })] ∧
    far_block.items_consumed[0]? = some (2 ^ 53 + 1) ∧
    far_block.input_tags = [[{ offset := 2 ^ 53 + 1, key := 1, value := 7 }]] ∧
    round_half_away (((2 ^ 53 + 1 : ℕ) : ℚ) * far_block.relative_rate) = 2 ^ 53 + 1 ∧
    (handle_task example_sentinels insertion_sort (work_consuming 10 [10])
        { num_inputs := 1, num_outputs := 1 } far_block).map (fun s' => s'.log) =
      some [Event.Work,
        Event.post_downstream 0 (Message.buffer { memory := 8192, length := 40 }),
        Event.post_downstream 0 (Message.tag { offset := 2 ^ 53, key := 1, value := 7 })] := by
  refine ⟨rfl, rfl, ?_, ?_, ?_, rfl, rfl, ?_, ?_⟩ <;> decide!

theorem one_to_one_tag_order_witness :
    WellFormed { num_inputs := 1, num_outputs := 1 }
      (one_to_one_block [{ offset := 150, key := 1, value := 7 }]) ∧
    (∃ s' posted, handle_task example_sentinels insertion_sort (work_consuming 60 [60])
        { num_inputs := 1, num_outputs := 1 }
        (one_to_one_block [{ offset := 150, key := 1, value := 7 }]) = some s' ∧
      s'.log = (one_to_one_block [{ offset := 150, key := 1, value := 7 }]).log ++ posted ∧
      ∀ t, Event.post_downstream 0 (Message.tag t) ∈ posted →
        (∃ queued, (work_consuming 60 [60] (prepared insertion_sort
          { num_inputs := 1, num_outputs := 1 }
          (one_to_one_block [{ offset := 150, key := 1, value := 7 }]))).output_tags[0]? =
            some queued ∧ t ∈ queued) ∨
        (∃ bound, scaled_offset (one_to_one_block
            [{ offset := 150, key := 1, value := 7 }]).relative_rate 100 = some bound ∧
          bound ≤ t.offset ∧
          (100 < 2 ^ 53 → round_half_away (((100 : ℕ) : ℚ) * (one_to_one_block
              [{ offset := 150, key := 1, value := 7 }]).relative_rate) ≤ 2 ^ 52 →
            round_half_away (((100 : ℕ) : ℚ) * (one_to_one_block
              [{ offset := 150, key := 1, value := 7 }]).relative_rate) ≤ t.offset))) ∧
    scaled_offset (one_to_one_block [{ offset := 150, key := 1, value := 7 }]).relative_rate
      100 = some 100 ∧
    (handle_task example_sentinels insertion_sort (work_consuming 60 [60])
        { num_inputs := 1, num_outputs := 1 }
        (one_to_one_block [{ offset := 150, key := 1, value := 7 }])).map
      (fun s' => (s'.items_consumed, s'.log)) =
      some ([160], [Event.Work,
        Event.post_downstream 0 (Message.buffer { memory := 8192, length := 240 }),
        Event.post_downstream 0 (Message.tag { offset := 150, key := 1, value := 7 })]) :=
  ⟨wf_one_to_one_block _,
    one_to_one_tag_order example_sentinels insertion_sort (work_consuming 60 [60])
      { num_inputs := 1, num_outputs := 1 }
      (one_to_one_block [{ offset := 150, key := 1, value := 7 }]) (wf_one_to_one_block _)
      ⟨by decide, by decide, by decide⟩
      (fun _ => ⟨Or.inr (by decide), fun h => absurd h (by decide)⟩)
      (Or.inr (by
        intro tags ht t htt
        simp only [one_to_one_block, List.mem_singleton] at ht
        subst ht
        simp only [List.mem_singleton] at htt
        subst htt
        decide!))
      rfl (by decide!) 0 100 rfl
      (by
        intro tags ht t htt
        have : tags = [{ offset := 150, key := 1, value := 7 }] := (Option.some.inj ht).symm
        subst this
        simp only [List.mem_singleton] at htt
        subst htt
        decide),
    by decide!, by decide!⟩

/-! ## The counters `items_consumed` and `items_produced` -/

theorem mark_done_counters (ti : TaskInterface) (s : ElementImpl) :
    (mark_done ti s).items_consumed = s.items_consumed ∧
    (mark_done ti s).items_produced = s.items_produced := by
  by_cases h : s.done = true <;> simp [mark_done, h]

/-- C17, amended. A call of `handle_task` on a well-formed block whose accounting, if it
comes to it, meets no failing assertion and no undefined conversion: `handle_task`
returns. When `Work` is not called (the block is not ready, or it leaves through the gate
of lines 127-133) or returns `WORK_DONE`, the counters are unchanged. Otherwise, for every
port `i`, `items_consumed[i]` after the call is its value before plus the items consumed
on the port, and `items_produced[i]` its value before plus the items produced, which is
`size_t(ret)` unless `Work` returned `WORK_CALLED_PRODUCE`, both sums being those of
`size_t`. So when these sums fit a `size_t`, `items_consumed[i]` and `items_produced[i]`
after the call are greater than or equal to their values before the call. -/
theorem counters_monotone (k : WorkSentinels) (srt : TagSort) (work : ElementImpl → WorkOut)
    (ti : TaskInterface) (s : ElementImpl) (wf : WellFormed ti s)
    (hfit : WorkFits ti (work (prepared srt ti s)))
    (hc : CanConsume k ti (work (prepared srt ti s)).ret s) (hs : TagsScale s) :
    ∃ s', handle_task k srt work ti s = some s' ∧
      ((¬ Ready s ∨
          no_peer_interested ti (tokens_count s.input_tokens)
            (tokens_count s.output_tokens) = true ∨
          (work (prepared srt ti s)).ret = k.WORK_DONE) →
        s'.items_consumed = s.items_consumed ∧ s'.items_produced = s.items_produced) ∧
      (Ready s →
        no_peer_interested ti (tokens_count s.input_tokens)
          (tokens_count s.output_tokens) = false →
        (work (prepared srt ti s)).ret ≠ k.WORK_DONE →
        (∀ (i c : Nat), s.items_consumed[i]? = some c →
          ∃ n, items_to_consume (work (prepared srt ti s)).ret i
              (call_work work (prepared srt ti s)) = some n ∧
            s'.items_consumed[i]? = some (size_add c n)) ∧
        (∀ (i c : Nat), s.items_produced[i]? = some c →
          ∃ n, items_to_produce k (work (prepared srt ti s)).ret i
              (call_work work (prepared srt ti s)) = some n ∧
            s'.items_produced[i]? = some (size_add c n))) ∧
      ((∀ (i c n : Nat), s.items_consumed[i]? = some c →
          items_to_consume (work (prepared srt ti s)).ret i
            (call_work work (prepared srt ti s)) = some n → c + n < SIZE_MOD) →
        ∀ (i c : Nat), s.items_consumed[i]? = some c →
          ∃ c', s'.items_consumed[i]? = some c' ∧ c ≤ c') ∧
      ((∀ (i c n : Nat), s.items_produced[i]? = some c →
          items_to_produce k (work (prepared srt ti s)).ret i
            (call_work work (prepared srt ti s)) = some n → c + n < SIZE_MOD) →
        ∀ (i c : Nat), s.items_produced[i]? = some c →
          ∃ c', s'.items_produced[i]? = some c' ∧ c ≤ c') := by
  obtain ⟨g, hpath⟩ := handle_task_paths k srt work ti s wf
  have c3 : (prepared srt ti s).items_consumed = s.items_consumed := by rw [g.frame]
  have p3 : (prepared srt ti s).items_produced = s.items_produced := by rw [g.frame]
  have same : ∀ s' : ElementImpl, s'.items_consumed = s.items_consumed →
      s'.items_produced = s.items_produced →
      (∀ (i c : Nat), s.items_consumed[i]? = some c →
        ∃ c', s'.items_consumed[i]? = some c' ∧ c ≤ c') ∧
      (∀ (i c : Nat), s.items_produced[i]? = some c →
        ∃ c', s'.items_produced[i]? = some c' ∧ c ≤ c') :=
    fun s' h1 h2 => ⟨fun i c h => ⟨c, by rw [h1]; exact h, le_refl _⟩,
      fun i c h => ⟨c, by rw [h2]; exact h, le_refl _⟩⟩
  rcases hpath with ⟨hnr, e⟩ | ⟨hr, hgate, e⟩ | ⟨hr, hgate, hret, e⟩ | ⟨hr, hgate, hret⟩
  · exact ⟨s, e, fun _ => ⟨rfl, rfl⟩, fun hr => absurd hr hnr,
      fun _ => (same s rfl rfl).1, fun _ => (same s rfl rfl).2⟩
  · have a1 : (mark_done ti (prepared srt ti s)).items_consumed = s.items_consumed := by
      rw [(mark_done_counters ti _).1, c3]
    have a2 : (mark_done ti (prepared srt ti s)).items_produced = s.items_produced := by
      rw [(mark_done_counters ti _).2, p3]
    exact ⟨_, e, fun _ => ⟨a1, a2⟩,
      fun _ hg => absurd (hgate.symm.trans hg) (by decide),
      fun _ => (same _ a1 a2).1, fun _ => (same _ a1 a2).2⟩
  · have a1 : (mark_done ti (call_work work (prepared srt ti s))).items_consumed =
        s.items_consumed := by
      rw [(mark_done_counters ti _).1]
      show (prepared srt ti s).items_consumed = _
      exact c3
    have a2 : (mark_done ti (call_work work (prepared srt ti s))).items_produced =
        s.items_produced := by
      rw [(mark_done_counters ti _).2]
      show (prepared srt ti s).items_produced = _
      exact p3
    exact ⟨_, e, fun _ => ⟨a1, a2⟩, fun _ _ hne => absurd hret hne,
      fun _ => (same _ a1 a2).1, fun _ => (same _ a1 a2).2⟩
  · obtain ⟨s5, s6, s7, s8, e, -, st⟩ :=
      handle_task_worked k srt work ti s wf hr hgate hret hfit hc hs
    have f5 := st.consumed.frame
    have f6 := st.produced.frame
    have f7 := st.trimmed.frame
    have f8 := st.flushed.frame
    have b1 : s6.items_consumed = s5.items_consumed := by rw [f6]
    have b2 : s7.items_consumed = s6.items_consumed := by rw [f7]
    have b3 : s8.items_consumed = s7.items_consumed := by rw [f8]
    have d2 : s7.items_produced = s6.items_produced := by rw [f7]
    have d3 : s8.items_produced = s7.items_produced := by rw [f8]
    have d0 : s5.items_produced = (prepared srt ti s).items_produced := by rw [f5]; rfl
    have d1 : s5.produce_items = (call_work work (prepared srt ti s)).produce_items := by rw [f5]
    have hcons : ∀ (i c : Nat), s.items_consumed[i]? = some c →
        ∃ n, items_to_consume (work (prepared srt ti s)).ret i
            (call_work work (prepared srt ti s)) = some n ∧
          s8.items_consumed[i]? = some (size_add c n) := by
      intro i c h
      have hi : i < ti.num_inputs := by
        rw [← wf.items_consumed]; exact (List.getElem?_eq_some.mp h).1
      have hdone := st.consumed.items_consumed_done i hi
      have h4 : (call_work work (prepared srt ti s)).items_consumed[i]? = some c := by
        show (prepared srt ti s).items_consumed[i]? = some c
        rw [c3]; exact h
      rw [h4, Option.some_bind] at hdone
      have hlen : i < s5.items_consumed.length := by
        rw [st.consumed.items_consumed_length]
        show i < (prepared srt ti s).items_consumed.length
        rw [c3, wf.items_consumed]; exact hi
      obtain ⟨c5, hc5, -⟩ := getElem?_some_of_lt s5.items_consumed i hlen
      rw [hc5] at hdone
      cases hn : items_to_consume (work (prepared srt ti s)).ret i
          (call_work work (prepared srt ti s)) with
      | none => rw [hn] at hdone; exact Option.noConfusion hdone
      | some n =>
        rw [hn, Option.map_some', Option.some.injEq] at hdone
        exact ⟨n, rfl, by rw [b3, b2, b1, hc5, hdone]⟩
    have hprod : ∀ (i c : Nat), s.items_produced[i]? = some c →
        ∃ n, items_to_produce k (work (prepared srt ti s)).ret i
            (call_work work (prepared srt ti s)) = some n ∧
          s8.items_produced[i]? = some (size_add c n) := by
      intro i c h
      have hi : i < ti.num_outputs := by
        rw [← wf.items_produced]; exact (List.getElem?_eq_some.mp h).1
      have hdone := st.produced.items_produced_done i hi
      have h5 : s5.items_produced[i]? = some c := by rw [d0, p3]; exact h
      rw [h5, Option.some_bind] at hdone
      have hlen : i < s6.items_produced.length := by
        rw [st.produced.items_produced_length, d0, p3, wf.items_produced]; exact hi
      obtain ⟨c6, hc6, -⟩ := getElem?_some_of_lt s6.items_produced i hlen
      rw [hc6] at hdone
      have heq : items_to_produce k (work (prepared srt ti s)).ret i s5 =
          items_to_produce k (work (prepared srt ti s)).ret i
            (call_work work (prepared srt ti s)) := by
        simp only [items_to_produce, d1]
      cases hn : items_to_produce k (work (prepared srt ti s)).ret i
          (call_work work (prepared srt ti s)) with
      | none => rw [heq, hn] at hdone; exact Option.noConfusion hdone
      | some n =>
        rw [heq, hn, Option.map_some', Option.some.injEq] at hdone
        exact ⟨n, rfl, by rw [d3, d2, hc6, hdone]⟩
    refine ⟨s8, e, fun h => ?_, fun _ _ _ => ⟨hcons, hprod⟩, fun hfits i c h => ?_,
      fun hfits i c h => ?_⟩
    · rcases h with h | h | h
      · exact absurd hr h
      · exact absurd (hgate.symm.trans h) (by decide)
      · exact absurd h hret
    · obtain ⟨n, hn, h8⟩ := hcons i c h
      exact ⟨_, h8, by rw [size_add_eq (hfits i c n h hn)]; omega⟩
    · obtain ⟨n, hn, h8⟩ := hprod i c h
      exact ⟨_, h8, by rw [size_add_eq (hfits i c n h hn)]; omega⟩

/-- C17 fails as stated. A block with one input and one output port that has produced 100
items: when `Work` returns -5, which is neither sentinel, `handle_task` adds
`size_t(-5)` to `items_produced[0]`, which wraps to 95, below its value before the call. -/
theorem counters_monotone_counterexample :
    (one_to_one_block []).items_produced = [100] ∧
    (handle_task example_sentinels insertion_sort (work_consuming (-5) [10])
        { num_inputs := 1, num_outputs := 1 } (one_to_one_block [])).map
      (fun s' => (s'.items_consumed, s'.items_produced)) = some ([110], [95]) := by
  refine ⟨rfl, ?_⟩
  decide!

theorem counters_monotone_witness :
    WellFormed { num_inputs := 1, num_outputs := 1 } (one_to_one_block []) ∧
    (∃ s', handle_task example_sentinels insertion_sort (work_consuming 60 [60])
        { num_inputs := 1, num_outputs := 1 } (one_to_one_block []) = some s' ∧
      (∃ n, items_to_consume 60 0 (call_work (work_consuming 60 [60])
          (prepared insertion_sort { num_inputs := 1, num_outputs := 1 }
            (one_to_one_block []))) = some n ∧
        s'.items_consumed[0]? = some (size_add 100 n)) ∧
      (∃ n, items_to_produce example_sentinels 60 0 (call_work (work_consuming 60 [60])
          (prepared insertion_sort { num_inputs := 1, num_outputs := 1 }
            (one_to_one_block []))) = some n ∧
        s'.items_produced[0]? = some (size_add 100 n))) ∧
    (handle_task example_sentinels insertion_sort (work_consuming 60 [60])
        { num_inputs := 1, num_outputs := 1 } (one_to_one_block [])).map
      (fun s' => (s'.items_consumed, s'.items_produced)) = some ([160], [160]) :=
  ⟨wf_one_to_one_block _,
    (let ⟨s', e, _, h, _⟩ := counters_monotone example_sentinels insertion_sort
      (work_consuming 60 [60]) { num_inputs := 1, num_outputs := 1 } (one_to_one_block [])
      (wf_one_to_one_block _) ⟨by decide, by decide, by decide⟩
      (fun _ => ⟨Or.inr (by decide), fun h => absurd h (by decide)⟩)
      (Or.inr (by
        intro tags ht t htt
        simp only [one_to_one_block, List.mem_singleton] at ht
        subst ht
        exact absurd htt (List.not_mem_nil _)))
    ⟨s', e, (h ⟨by decide, by decide, by decide⟩ (by decide) (by decide)).1 0 100 rfl,
      (h ⟨by decide, by decide, by decide⟩ (by decide) (by decide)).2 0 100 rfl⟩),
    by decide!⟩

/-! ## `gr_block::interpolation` and `gr_block::decimation` -/

theorem size_of_double_natCast (n : Nat) (h : n < SIZE_MOD) :
    size_of_double (n : ℚ) = some n := by
  have c : -1 < (n : ℚ) ∧ (n : ℚ) < (SIZE_MOD : ℚ) := by
    constructor
    · have : (0 : ℚ) ≤ (n : ℚ) := Nat.cast_nonneg n
      linarith
    · exact_mod_cast h
  rw [size_of_double, if_pos c, Int.floor_natCast, Int.toNat_ofNat]

/-- The half of C18 that holds on the code: `interpolation()` after `set_interpolation(n)`
returns `n`, for every `n` below `2 ^ 53`, the integers that a `double` holds exactly. -/
theorem interpolation_after_set (s : ElementImpl) (n : Nat) (hn : n < 2 ^ 53) :
    (gr_block.set_interpolation s n).bind gr_block.interpolation = some n := by
  have h64 : n < SIZE_MOD := lt_trans hn (by decide)
  simp only [gr_block.set_interpolation, gr_block.interpolation, gr_block.set_relative_rate,
    gr_block.relative_rate, double_of_unsigned, double_mul, double_round_natCast n hn, one_mul,
    Option.some_bind, Option.map_some', size_of_double_natCast n h64]

/-- C18 fails on the code. `set_decimation(93)` stores the `double` nearest to 1/93, and
`decimation()` then returns 92: the quotient `1.0/relative_rate` is the `double` just
below 93, which `size_t(...)` truncates, where rounding gives 93. With a relative rate of
3/2, `interpolation()` returns 1 where 3/2 rounded half away from zero is 2, and with a
relative rate of 5/8, `decimation()` returns 1 where 8/5 rounded is 2. -/
theorem decimation_after_set_truncates :
    (gr_block.set_decimation portless_block 93).map gr_block.relative_rate =
      some (3099251356470019 / 288230376151711744) ∧
    (gr_block.set_decimation portless_block 93).bind gr_block.decimation = some 92 ∧
    double_div 1 (3099251356470019 / 288230376151711744) =
      some (6544293208522751 / 70368744177664) ∧
    round_half_away (6544293208522751 / 70368744177664) = 93 ∧
    round_half_away (1 / (3099251356470019 / 288230376151711744)) = 93 ∧
    gr_block.interpolation (gr_block.set_relative_rate portless_block (3 / 2)) = some 1 ∧
    round_half_away (3 / 2) = 2 ∧
    gr_block.decimation (gr_block.set_relative_rate portless_block (5 / 8)) = some 1 ∧
    round_half_away (1 / (5 / 8)) = 2 := by
  refine ⟨?_, ?_, ?_, ?_, ?_, ?_, ?_, ?_, ?_⟩ <;> decide!

/-! ## Termination of the merge loop of `__prepare` -/

/-- Where the merge loop does terminate. On a port `i` that is ready, with a non-empty
deque `f :: rest` and `enqueued_bytes[i]` equal to the sum of the lengths of the deque
entries, in a state that also has the sizes of invariant I1, the history in the front
(line 236), the windows inside their regions, and a destination for the merge - the front
already holds the reserve, or the queue alone holds it and it has room for the reserve, or
the pool has at its front a buffer of at least `reserve_bytes[i]` bytes that the pool
alone holds - `__prepare(i)` returns for every fuel of at least the length of the deque plus one, so
without a read from an empty deque or an empty pool, and on exit the front entry has
length `>= reserve_bytes[i] >= history_bytes[i] + multiple_bytes[i]`; the sum of the
lengths of the deque entries is unchanged. -/
theorem prepare_terminates (fuel : Nat) (q : InputBufferQueues) (i : Nat) (f : SBuffer)
    (rest : List SBuffer) (h m R : Nat) (aux : Option BufferQueue)
    (hr : FrontReady q i f rest h m R aux) (hfuel : rest.length + 2 ≤ fuel) :
    ∃ q' f' rest', InputBufferQueues.__prepare fuel q i = some q' ∧
      q'._queues[i]? = some (f' :: rest') ∧
      q'._reserve_bytes[i]? = some R ∧ q'._history_bytes[i]? = some h ∧
      q'._multiple_bytes[i]? = some m ∧
      R ≤ f'.length ∧ h + m ≤ R ∧
      total_length (f' :: rest') = total_length (f :: rest) ∧
      q'._enqueued_bytes[i]? = some (total_length (f' :: rest')) := by
  obtain ⟨f', rest', aux', e, h1, -, h3⟩ := prepare_total fuel q i f rest h m R aux hr hfuel
  have hi : i < q._queues.length := (List.getElem?_eq_some.mp hr.queue).1
  exact ⟨_, f', rest', e, List.getElem?_set_self hi, hr.reserve, hr.history, hr.multiple, h1,
    hr.reserve_ge, h3, by rw [h3]; exact hr.enqueued⟩

/-- C19 fails on the code. A port of items of 256 KiB without history, so with a reserve
of 256 KiB, on which two full buffers of 128 KiB were pushed: the port is ready, its deque
is not empty and `enqueued_bytes[0]` is the sum of the lengths. The two buffers of the
pool have the 128 KiB that line 180 gives them whatever the reserve, so no buffer there
can hold the reserve: each pass of the merge loop moves the front into a buffer of the
pool and leaves a front of 128 KiB, and `__prepare(0)` returns for no fuel. (In the
embedding the third pass finds the pool empty; with the released buffers returned to the
pool, the passes go on alternating between its two buffers.) -/
theorem prepare_never_returns :
    (run_queue_calls big_item_calls InputBufferQueues.empty).map
      (fun q => (q.ready 0, q._enqueued_bytes[0]?, (q._queues[0]?).map total_length,
        q._reserve_bytes[0]?)) =
      some (some true, some (2 ^ 18), some (2 ^ 18), some (2 ^ 18)) ∧
    (run_queue_calls big_item_calls InputBufferQueues.empty).map
      (fun q => (q._queues.map (fun d => d.map (fun b => (b.length, b.actual_length))),
        q._aux_queues.map (fun a => a.map (fun p => p.map (fun b => b.actual_length))))) =
      some ([[(2 ^ 17, 2 ^ 17), (2 ^ 17, 2 ^ 17)]], [some [2 ^ 17, 2 ^ 17]]) ∧
    ∀ fuel, (run_queue_calls big_item_calls InputBufferQueues.empty).bind
      (fun q => q.__prepare fuel 0) = none := by
  refine ⟨by decide, by decide, ?_⟩
  intro fuel
  rcases fuel with _ | _ | _ | n <;> rfl

theorem front_ready_staging :
    FrontReady staging_queues 0 (example_small_buffer 4096) [example_small_buffer 8192] 0 64 64
      (some [{ memory := 0, actual_length := 2 ^ 17, bytes := fun _ => 0,
               offset := 0, length := 2 ^ 17, unique := true },
             { memory := 1, actual_length := 2 ^ 17, bytes := fun _ => 0,
               offset := 0, length := 2 ^ 17, unique := true }]) :=
  { queue := rfl, ready := rfl, history := rfl, multiple := rfl, reserve := rfl,
    aux_queue := rfl, enqueued := rfl, reserved := by decide, multiple_pos := by decide,
    reserve_ge := by decide, front_history := by decide,
    valid := by
      intro b hb
      rcases List.mem_cons.mp hb with rfl | hb
      · exact ⟨by decide, by decide⟩
      · rw [List.mem_singleton] at hb
        subst hb
        exact ⟨by decide, by decide⟩
    stage := Or.inr (Or.inr ⟨_, _, rfl, rfl, by decide, by decide⟩) }

/-- A run of the merge loop with a pass that stages the front in a buffer of the pool and
a pass that merges in place. -/
theorem prepare_terminates_example :
    (∃ q' f' rest', InputBufferQueues.__prepare 3 staging_queues 0 = some q' ∧
      q'._queues[0]? = some (f' :: rest') ∧ 64 ≤ f'.length) ∧
    (InputBufferQueues.__prepare 3 staging_queues 0).map
      (fun q' => (q'._queues.map (fun d => d.map (fun b => (b.memory, b.offset, b.length))),
        q'._aux_queues.map (fun a => a.map (fun p => p.map (fun b => b.memory))))) =
      some ([[(0, 0, 80)]], [some [1]]) :=
  ⟨(let ⟨q', f', rest', h1, h2, _, _, _, h3, _⟩ :=
      prepare_terminates 3 staging_queues 0 (example_small_buffer 4096)
        [example_small_buffer 8192] 0 64 64 _ front_ready_staging (by decide)
    ⟨q', f', rest', h1, h2, h3⟩),
    by decide⟩

/-! ## `enqueued_bytes` as the sum of the lengths -/

theorem total_length_eq_bytes (queue : List SBuffer) :
    total_length queue = (deque_bytes queue).length := by
  induction queue with
  | nil => rfl
  | cons b rest ih =>
    rw [total_length_cons, deque_bytes_cons, List.length_append, ih]
    simp [SBuffer.window]

theorem total_length_append (queue : List SBuffer) (b : SBuffer) :
    total_length (queue ++ [b]) = total_length queue + b.length := by
  simp [total_length]

/-- `push` keeps `enqueued_bytes` the sum of the lengths, when the sum fits a `size_t`. -/
theorem push_sum {q q' : InputBufferQueues} {i : Nat} {b : SBuffer} (h : EnqueuedIsSum q)
    (hfit : ∀ en, q._enqueued_bytes[i]? = some en → en + b.length < SIZE_MOD)
    (e : q.push i b = some q') : EnqueuedIsSum q' := by
  obtain ⟨queue, en, R, hq, hen, -, -, rfl⟩ := push_shape e
  have lq : i < q._queues.length := (List.getElem?_eq_some.mp hq).1
  have le : i < q._enqueued_bytes.length := (List.getElem?_eq_some.mp hen).1
  intro p queue' en' hq' hen'
  simp only at hq' hen'
  by_cases hpi : p = i
  · subst hpi
    rw [List.getElem?_set_self lq] at hq'
    rw [List.getElem?_set_self le] at hen'
    injection hq' with hq'
    injection hen' with hen'
    subst hq' hen'
    rw [total_length_append, size_add_eq (hfit en hen), h p queue en hq hen]
  · rw [getElem?_set_of_ne _ _ (fun e => hpi e.symm)] at hq' hen'
    exact h p queue' en' hq' hen'

/-- `__prepare` keeps the sum of the lengths of the deque. -/
theorem prepare_sum {fuel : Nat} {q q' : InputBufferQueues} {i : Nat} (h : EnqueuedIsSum q)
    (hr : BuffersInRange q i) (e : InputBufferQueues.__prepare fuel q i = some q') :
    EnqueuedIsSum q' := by
  obtain ⟨queue, hh, R, aux, r, h1, -, -, h4, h5, rfl⟩ := prepare_shape e
  have lq : i < q._queues.length := (List.getElem?_eq_some.mp h1).1
  obtain ⟨g1, -, -⟩ := prepare_loop_bytes R fuel queue r.1 aux r.2 h5 (hr.1 queue h1)
    (fun pool hp => hr.2 pool (by rw [h4, hp]))
  intro p queue' en' hq' hen'
  simp only at hq' hen'
  by_cases hpi : p = i
  · subst hpi
    rw [List.getElem?_set_self lq] at hq'
    injection hq' with hq'
    subst hq'
    rw [total_length_eq_bytes, g1, ← total_length_eq_bytes]
    exact h p queue en' h1 hen'
  · rw [getElem?_set_of_ne _ _ (fun e => hpi e.symm)] at hq'
    exact h p queue' en' hq' hen'

/-- `consume` keeps `enqueued_bytes` the sum of the lengths. -/
theorem consume_sum {q q' : InputBufferQueues} {i k : Nat} {r : Bool} (h : EnqueuedIsSum q)
    (hfit : ∀ en, q._enqueued_bytes[i]? = some en → en < SIZE_MOD)
    (e : q.consume i k = some (q', r)) : EnqueuedIsSum q' := by
  obtain ⟨f, rest, hh, en, R, b, hq, hk, -, hen, hk2, -, -, -, -, rfl⟩ := consume_shape e
  have lq : i < q._queues.length := (List.getElem?_eq_some.mp hq).1
  have le : i < q._enqueued_bytes.length := (List.getElem?_eq_some.mp hen).1
  have hsum := h i (f :: rest) en hq hen
  rw [total_length_cons] at hsum
  have hlt := hfit en hen
  have e1 : size_sub f.length k = f.length - k := size_sub_eq hk (by omega)
  have e2 : size_sub en k = en - k := size_sub_eq hk2 hlt
  intro p queue' en' hq' hen'
  simp only at hq' hen'
  by_cases hpi : p = i
  · subst hpi
    rw [List.getElem?_set_self lq] at hq'
    rw [List.getElem?_set_self le] at hen'
    injection hq' with hq'
    injection hen' with hen'
    subst hq' hen'
    rw [e1, e2]
    by_cases hc : f.length - k = 0 ∧ hh = 0
    · rw [if_pos hc]; omega
    · rw [if_neg hc, total_length_cons]; simp only; omega
  · rw [getElem?_set_of_ne _ _ (fun e => hpi e.symm)] at hq' hen'
    exact h p queue' en' hq' hen'


theorem size_mul_lt (a b : Nat) : size_mul a b < SIZE_MOD :=
  Nat.mod_lt _ (by decide)

theorem sum_of_fresh {q : InputBufferQueues} (h : FreshFrom 0 q) : EnqueuedIsSum q := by
  intro i queue en hq hen
  obtain ⟨-, h2, h3⟩ := h i (Nat.zero_le _)
  rw [h2 en hen, h3 queue hq]
  rfl

/-- A pass of the loop of `init` on a fresh port keeps `enqueued_bytes` the sum of the
lengths. -/
theorem init_port_sum {fuel : Nat} {alloc : Nat → Nat → Region} {Hs Ms Ss : List Nat}
    {j : Nat} {q q' : InputBufferQueues} (h : EnqueuedIsSum q) (hfresh : FreshFrom j q)
    (e : InputBufferQueues.init_port fuel alloc Hs Ms Ss j q = some q') :
    EnqueuedIsSum q' := by
  obtain ⟨M, s, H, r, en, b0, b1, -, -, -, -, -, -, -, -, -, hen, -, -, -, hcase⟩ :=
    init_port_shape e
  have hen0 : en = 0 := (hfresh j (le_refl _)).2.1 en hen
  rcases hcase with ⟨-, rfl⟩ | ⟨-, -, -, hpush⟩
  · exact h
  · refine push_sum (q := { q with
        _aux_queues := q._aux_queues.set j (some [b1])
        _history_bytes := q._history_bytes.set j (size_mul s H)
        _multiple_bytes := q._multiple_bytes.set j (max 1 (size_mul s M))
        _reserve_bytes := q._reserve_bytes.set j r }) h ?_ hpush
    intro en' hen'
    simp only at hen'
    rw [hen] at hen'
    injection hen' with hen'
    subst hen' hen0
    have := size_mul_lt s H
    show 0 + size_mul s H < SIZE_MOD
    omega

/-- After `resize(n)` and `init`, `enqueued_bytes` is the sum of the lengths on every
port. -/
theorem init_sum {fuel : Nat} {alloc : Nat → Nat → Region} {Hs Ms Ss : List Nat}
    {n : Nat} {q : InputBufferQueues}
    (e : (InputBufferQueues.empty.resize n).init fuel alloc Hs Ms Ss = some q) :
    EnqueuedIsSum q := by
  rw [InputBufferQueues.init] at e
  by_cases h0 : (InputBufferQueues.empty.resize n).size = 0
  · rw [if_pos h0] at e
    injection e with e
    subst e
    exact sum_of_fresh (fresh_resize_empty n)
  · rw [if_neg h0] at e
    have key := forLoop_invariant _
      (fun j t => ((∀ (p : Nat) (b : Bool) (en R : Nat), p < j → t._bitset[p]? = some b →
        t._enqueued_bytes[p]? = some en → t._reserve_bytes[p]? = some R → (b = true ↔ en ≥ R)) ∧
        FreshFrom j t) ∧ EnqueuedIsSum t) _ 0 _ q
      ⟨⟨fun p b en R hp => absurd hp (Nat.not_lt_zero p), fresh_resize_empty n⟩,
        sum_of_fresh (fresh_resize_empty n)⟩
      (fun j t t' _ _ ht et => ⟨init_port_ready ht.1 et, init_port_sum ht.2 ht.1.2 et⟩) e
    exact key.2


/-- `consume` returns when its two assertions hold. -/
theorem consume_total (q : InputBufferQueues) (n i k : Nat) (f : SBuffer) (rest : List SBuffer)
    (en : Nat) (sz : Sized q n) (hq : q._queues[i]? = some (f :: rest))
    (hen : q._enqueued_bytes[i]? = some en) (hk1 : k ≤ f.length) (hk2 : k ≤ en) :
    ∃ q' r, q.consume i k = some (q', r) := by
  have hi : i < n := by rw [← sz.queues]; exact (List.getElem?_eq_some.mp hq).1
  obtain ⟨b, hb, -⟩ := getElem?_some_of_lt q._in_hist_buff i (by rw [sz.in_hist_buff]; exact hi)
  obtain ⟨R, hR, -⟩ := getElem?_some_of_lt q._reserve_bytes i (by rw [sz.reserve_bytes]; exact hi)
  obtain ⟨h, hh, -⟩ := getElem?_some_of_lt q._history_bytes i (by rw [sz.history_bytes]; exact hi)
  have l2 : i < q._enqueued_bytes.length := by rw [sz.enqueued_bytes]; exact hi
  have l3 : i < q._bitset.length := by rw [sz.bitset]; exact hi
  have c1 : ¬¬(f.length ≥ k) := not_not.mpr hk1
  have c2 : ¬¬(en ≥ k) := not_not.mpr hk2
  simp only [InputBufferQueues.consume, bind, pure, hq, Option.some_bind, List.head?_cons,
    if_neg c1, hh, hen, if_neg c2, InputBufferQueues.__update, List.getElem?_set_self l2, hR,
    vset_eq_some _ l3, hb, List.tail_cons, Option.bind]
  exact ⟨_, _, rfl⟩

/-- C20. On every port `enqueued_bytes` is the sum of `length` over the entries of the
deque: the equality holds in the state `resize(n)` and `init` leave; `push(i, b)` keeps
it, when the new sum fits a `size_t`; `front(i, _)`, with the merge loop of `__prepare`,
keeps it, on buffers that hold `size_t` values; and `consume(i, k)` with
`k <= front.length` returns and keeps it. -/
theorem enqueued_is_sum :
    (∀ (n fuel : Nat) (alloc : Nat → Nat → Region) (Hs Ms Ss : List Nat)
        (q : InputBufferQueues),
      (InputBufferQueues.empty.resize n).init fuel alloc Hs Ms Ss = some q →
      EnqueuedIsSum q) ∧
    (∀ (q q' : InputBufferQueues) (i : Nat) (b : SBuffer), EnqueuedIsSum q →
      (∀ en, q._enqueued_bytes[i]? = some en → en + b.length < SIZE_MOD) →
      q.push i b = some q' → EnqueuedIsSum q') ∧
    (∀ (fuel : Nat) (q q' : InputBufferQueues) (i : Nat) (buf : SBuffer)
        (potential_inline : Bool), EnqueuedIsSum q → BuffersInRange q i →
      q.front fuel i = some (buf, potential_inline, q') → EnqueuedIsSum q') ∧
    (∀ (q : InputBufferQueues) (n i k : Nat) (f : SBuffer) (rest : List SBuffer),
      EnqueuedIsSum q → Sized q n → q._queues[i]? = some (f :: rest) → k ≤ f.length →
      (∀ en, q._enqueued_bytes[i]? = some en → en < SIZE_MOD) →
      ∃ q' r, q.consume i k = some (q', r) ∧ EnqueuedIsSum q') := by
  refine ⟨fun n fuel alloc Hs Ms Ss q e => init_sum e,
    fun q q' i b h hfit e => push_sum h hfit e,
    fun fuel q q' i buf pi h hr e => prepare_sum h hr (front_shape e).2, ?_⟩
  intro q n i k f rest h sz hq hk hfit
  have hi : i < n := by rw [← sz.queues]; exact (List.getElem?_eq_some.mp hq).1
  obtain ⟨en, hen, -⟩ := getElem?_some_of_lt q._enqueued_bytes i
    (by rw [sz.enqueued_bytes]; exact hi)
  have hsum := h i (f :: rest) en hq hen
  rw [total_length_cons] at hsum
  obtain ⟨q', r, e⟩ := consume_total q n i k f rest en sz hq hen hk (by omega)
  exact ⟨q', r, e, consume_sum h hfit e⟩

theorem sum_example_queues : EnqueuedIsSum example_queues := by
  intro i queue en hq hen
  cases i with
  | zero =>
    have h1 : queue = [example_history_buffer, example_pushed_buffer] :=
      (Option.some.inj hq).symm
    have h2 : en = 112 := (Option.some.inj hen).symm
    subst h1 h2
    decide
  | succ i => simp [example_queues] at hq

theorem enqueued_is_sum_witness :
    (∃ q0, (InputBufferQueues.empty.resize 1).init 13 example_alloc [3] [1] [4] = some q0 ∧
      EnqueuedIsSum q0) ∧
    (∃ q' r, example_queues.consume 0 8 = some (q', r) ∧ EnqueuedIsSum q') ∧
    (run_queue_calls [QueueCall.resize 1, QueueCall.init 13 example_alloc [3] [1] [4]]
        InputBufferQueues.empty).map
      (fun q => (q._enqueued_bytes, q._queues.map total_length)) = some ([12], [12]) ∧
    (run_queue_calls [QueueCall.resize 1, QueueCall.init 13 example_alloc [3] [1] [4],
        QueueCall.push 0 example_pushed_buffer, QueueCall.front 3 0]
        InputBufferQueues.empty).map
      (fun q => (q._enqueued_bytes, q._queues.map total_length)) = some ([112], [112]) ∧
    (run_queue_calls [QueueCall.resize 1, QueueCall.init 13 example_alloc [3] [1] [4],
        QueueCall.push 0 example_pushed_buffer, QueueCall.front 3 0, QueueCall.consume 0 100]
        InputBufferQueues.empty).map
      (fun q => (q._enqueued_bytes, q._queues.map total_length)) = some ([12], [12]) :=
  ⟨(let ⟨q0, hq0⟩ := Option.isSome_iff_exists.mp
      (by decide : ((InputBufferQueues.empty.resize 1).init 13 example_alloc
        [3] [1] [4]).isSome = true)
    ⟨q0, hq0, enqueued_is_sum.1 1 13 example_alloc [3] [1] [4] q0 hq0⟩),
    enqueued_is_sum.2.2.2 example_queues 1 0 8 example_history_buffer [example_pushed_buffer]
      sum_example_queues sized_example_queues rfl (by decide)
      (by
        intro en hen
        have h2 : en = 112 := (Option.some.inj hen).symm
        subst h2
        decide),
    by decide, by decide, by decide⟩

/-! ## The sizes through the calls on a port -/

/-- A `push`, a `front`, a `consume` or a `flush` leaves the three size vectors as they
are. -/
theorem apply_sizes {c : QueueCall} {q q' : InputBufferQueues} (hc : c.is_port_call = true)
    (e : c.apply q = some q') :
    q'._history_bytes = q._history_bytes ∧ q'._multiple_bytes = q._multiple_bytes ∧
    q'._reserve_bytes = q._reserve_bytes := by
  cases c with
  | resize size => simp [QueueCall.is_port_call] at hc
  | init fuel alloc Hs Ms Ss => simp [QueueCall.is_port_call] at hc
  | flush_all => simp [QueueCall.is_port_call] at hc
  | push i buffer =>
    obtain ⟨queue, en, R, -, -, -, -, rfl⟩ := push_shape e
    exact ⟨rfl, rfl, rfl⟩
  | front fuel i =>
    simp only [QueueCall.apply, Option.map_eq_some'] at e
    obtain ⟨⟨buf, pi, q1⟩, e, rfl⟩ := e
    obtain ⟨-, e⟩ := front_shape e
    obtain ⟨queue, h', R, aux, r, -, -, -, -, -, rfl⟩ := prepare_shape e
    exact ⟨rfl, rfl, rfl⟩
  | consume i k =>
    simp only [QueueCall.apply, Option.map_eq_some'] at e
    obtain ⟨⟨q1, r⟩, e, rfl⟩ := e
    obtain ⟨f, rest, h', en, R, b, -, -, -, -, -, -, -, -, -, rfl⟩ := consume_shape e
    exact ⟨rfl, rfl, rfl⟩
  | flush i =>
    obtain ⟨-, -, rfl⟩ := flush_shape e
    exact ⟨rfl, rfl, rfl⟩

theorem run_sizes : ∀ (calls : List QueueCall) (q q' : InputBufferQueues),
    (∀ c, c ∈ calls → c.is_port_call = true) → run_queue_calls calls q = some q' →
    q'._history_bytes = q._history_bytes ∧ q'._multiple_bytes = q._multiple_bytes ∧
    q'._reserve_bytes = q._reserve_bytes := by
  intro calls
  induction calls with
  | nil =>
    intro q q' _ e
    simp only [run_queue_calls, Option.some.injEq] at e
    subst e; exact ⟨rfl, rfl, rfl⟩
  | cons c rest ih =>
    intro q q' hc e
    simp only [run_queue_calls, Option.bind_eq_some] at e
    obtain ⟨q1, e1, e2⟩ := e
    obtain ⟨a1, a2, a3⟩ := apply_sizes (hc c (List.mem_cons_self _ _)) e1
    obtain ⟨b1, b2, b3⟩ := ih q1 q' (fun c' hc' => hc c' (List.mem_cons_of_mem _ hc')) e2
    exact ⟨b1.trans a1, b2.trans a2, b3.trans a3⟩

/-- A pass of the loop of `init` leaves at least 1 in `multiple_bytes` on its port, and
the other entries as they were. -/
theorem init_port_multiple {fuel : Nat} {alloc : Nat → Nat → Region} {Hs Ms Ss : List Nat}
    {j : Nat} {q q' : InputBufferQueues}
    (e : InputBufferQueues.init_port fuel alloc Hs Ms Ss j q = some q') :
    ∃ m, 1 ≤ m ∧ j < q._multiple_bytes.length ∧
      q'._multiple_bytes = q._multiple_bytes.set j m := by
  obtain ⟨M, s, H, r, en, b0, b1, -, -, -, -, -, -, l2, -, -, -, -, -, -, h⟩ := init_port_shape e
  refine ⟨max 1 (size_mul s M), Nat.le_max_left _ _, l2, ?_⟩
  rcases h with ⟨-, h⟩ | ⟨-, -, -, h⟩
  · rw [h]
  · obtain ⟨queue, en', R, -, -, -, -, h⟩ := push_shape h
    rw [h]

/-- After `resize(n)` and `init`, every entry of `multiple_bytes` is at least 1. -/
theorem init_multiple {fuel : Nat} {alloc : Nat → Nat → Region} {Hs Ms Ss : List Nat}
    {n : Nat} {q : InputBufferQueues}
    (e : (InputBufferQueues.empty.resize n).init fuel alloc Hs Ms Ss = some q) :
    ∀ (i m : Nat), q._multiple_bytes[i]? = some m → 1 ≤ m := by
  rw [InputBufferQueues.init] at e
  have hsz : (InputBufferQueues.empty.resize n).size = n := (sized_resize_empty n).queues
  by_cases h0 : (InputBufferQueues.empty.resize n).size = 0
  · rw [if_pos h0] at e
    injection e with e
    subst e
    intro i m hm
    have := (List.getElem?_eq_some.mp hm).1
    have := (sized_resize_empty n).multiple_bytes
    omega
  · rw [if_neg h0, hsz] at e
    have key := forLoop_invariant _
      (fun j (t : InputBufferQueues) => t._multiple_bytes.length = n ∧
        ∀ (p m : Nat), p < j → t._multiple_bytes[p]? = some m → 1 ≤ m) n 0 _ q
      ⟨(sized_resize_empty n).multiple_bytes, fun p m hp => absurd hp (Nat.not_lt_zero p)⟩
      (fun j t t' _ _ ht et => by
        obtain ⟨m, hm, hl, hset⟩ := init_port_multiple et
        refine ⟨by rw [hset, List.length_set]; exact ht.1, fun p m' hp hm' => ?_⟩
        rw [hset, getElem?_set_cases _ _ _ _ hl] at hm'
        by_cases hpj : p = j
        · rw [if_pos hpj] at hm'
          injection hm' with hm'
          omega
        · rw [if_neg hpj] at hm'
          exact ht.2 p m' (by omega) hm') e
    intro i m hm
    have hi := (List.getElem?_eq_some.mp hm).1
    exact key.2 i m (by have := key.1; omega) hm

/-- Apart from `flush_all`, the calls on a port keep the sizes: in every state that
`resize(n)` and `init` on a default-constructed `InputBufferQueues` followed by any
sequence of `push`, `front`, `consume` and `flush` reaches, `history_bytes`,
`multiple_bytes` and `reserve_bytes` are the vectors `init` left, and every
`multiple_bytes[i]` is at least 1, so that line 219 of `front` does not divide by zero.
`init` returns only when every `input_multiple_items[i]` it reads is positive (line 156). -/
theorem sizes_kept_by_port_calls (n fuel : Nat) (alloc : Nat → Nat → Region)
    (Hs Ms Ss : List Nat) (calls : List QueueCall) (q : InputBufferQueues)
    (hcalls : ∀ c, c ∈ calls → c.is_port_call = true)
    (hrun : run_queue_calls (QueueCall.resize n :: QueueCall.init fuel alloc Hs Ms Ss :: calls)
      InputBufferQueues.empty = some q) :
    ∃ q0, (InputBufferQueues.empty.resize n).init fuel alloc Hs Ms Ss = some q0 ∧
      q._history_bytes = q0._history_bytes ∧ q._multiple_bytes = q0._multiple_bytes ∧
      q._reserve_bytes = q0._reserve_bytes ∧
      ∀ (i m : Nat), q._multiple_bytes[i]? = some m → 1 ≤ m := by
  simp only [run_queue_calls, QueueCall.apply, Option.some_bind, Option.bind_eq_some] at hrun
  obtain ⟨q0, hinit, hrun⟩ := hrun
  obtain ⟨h1, h2, h3⟩ := run_sizes calls q0 q hcalls hrun
  exact ⟨q0, hinit, h1, h2, h3, fun i m hm => init_multiple hinit i m (by rw [← h2]; exact hm)⟩

/-- One port of 4-byte items with 3 history items: after a `push`, a `front`, a `consume`
and a `flush` the sizes are the 12, 4 and 16 bytes `init` computed. -/
theorem sizes_kept_by_port_calls_example :
    (∃ q, run_queue_calls [QueueCall.resize 1, QueueCall.init 13 example_alloc [3] [1] [4],
        QueueCall.push 0 example_pushed_buffer, QueueCall.front 3 0, QueueCall.consume 0 100,
        QueueCall.flush 0] InputBufferQueues.empty = some q ∧
      ∀ (i m : Nat), q._multiple_bytes[i]? = some m → 1 ≤ m) ∧
    (run_queue_calls [QueueCall.resize 1, QueueCall.init 13 example_alloc [3] [1] [4],
        QueueCall.push 0 example_pushed_buffer, QueueCall.front 3 0, QueueCall.consume 0 100,
        QueueCall.flush 0] InputBufferQueues.empty).map
      (fun q => (q._history_bytes, q._multiple_bytes, q._reserve_bytes)) =
      some ([12], [4], [16]) :=
  ⟨(let ⟨q, hq⟩ := Option.isSome_iff_exists.mp
      (by decide : (run_queue_calls [QueueCall.resize 1,
        QueueCall.init 13 example_alloc [3] [1] [4], QueueCall.push 0 example_pushed_buffer,
        QueueCall.front 3 0, QueueCall.consume 0 100, QueueCall.flush 0]
        InputBufferQueues.empty).isSome = true)
    let ⟨_, _, _, _, _, h⟩ := sizes_kept_by_port_calls 1 13 example_alloc [3] [1] [4] _ q
      (by decide) hq
    ⟨q, hq, h⟩),
    by decide⟩

/-- C21 fails on the code. One port of 4-byte items with 3 history items and a multiple of
1 item: `init` computes 12 history bytes, 4 multiple bytes and 16 reserve bytes.
`flush_all()`, which is `resize(0); resize(old_size)`, leaves 0 in all three. A buffer of
100 bytes pushed next makes the port ready, since 100 is at least the reserve 0;
`__prepare` returns, and `front` then divides by `multiple_bytes[0] == 0` at line 219: it
returns for no fuel. With `flush(0)` in the place of `flush_all()` the sizes are those
`init` computed. -/
theorem flush_all_zeroes_sizes :
    (run_queue_calls [QueueCall.resize 1, QueueCall.init 13 example_alloc [3] [1] [4]]
        InputBufferQueues.empty).map
      (fun q => (q._history_bytes, q._multiple_bytes, q._reserve_bytes)) =
      some ([12], [4], [16]) ∧
    (run_queue_calls [QueueCall.resize 1, QueueCall.init 13 example_alloc [3] [1] [4],
        QueueCall.flush_all] InputBufferQueues.empty).map
      (fun q => (q._history_bytes, q._multiple_bytes, q._reserve_bytes)) =
      some ([0], [0], [0]) ∧
    (run_queue_calls [QueueCall.resize 1, QueueCall.init 13 example_alloc [3] [1] [4],
        QueueCall.flush 0] InputBufferQueues.empty).map
      (fun q => (q._history_bytes, q._multiple_bytes, q._reserve_bytes)) =
      some ([12], [4], [16]) ∧
    (run_queue_calls flushed_then_pushed_calls InputBufferQueues.empty).map
      (fun q => (q.ready 0, q._multiple_bytes[0]?,
        (q._queues[0]?).map (fun d => d.map (fun b => b.length)))) =
      some (some true, some 0, some [100]) ∧
    ((run_queue_calls flushed_then_pushed_calls InputBufferQueues.empty).bind
      (fun q => q.__prepare 1 0)).isSome = true ∧
    ∀ fuel, (run_queue_calls flushed_then_pushed_calls InputBufferQueues.empty).bind
      (fun q => q.front fuel 0) = none := by
  refine ⟨by decide, by decide, by decide, by decide, by decide, ?_⟩
  intro fuel
  rcases fuel with _ | n <;> rfl

end Sandhi
